import Mathlib

/-!
# Verification of `succinct_neo` succinct data structures

A shallow embedding, in Lean 4, of the core data structures of the
`succinct_neo` Rust crate: the heap bit vector (`bit_vec/mod.rs`,
`bit_vec/backing.rs`), the packed integer vector (`int_vec/dynamic.rs`),
the flat-popcount rank/select index
(`bit_vec/rank_select/flat_popcount/mod.rs` and the legacy copy in
`rank_select/flat_popcount/mod.rs`), the rolling hashers
(`rolling_hash/rabin_karp.rs`, `rolling_hash/cyclic_polynomial.rs`) and the
block tree (`rank_select/block_tree/`).

Machine integers (`usize`/`u64` = 64 bits, `u128` = 128 bits) are embedded
as `Nat` with explicit `% 2 ^ 64` / `% 2 ^ 128` truncation at the points
where a Rust operation could wrap; where an operation provably cannot
exceed the word width (shift amounts below 64 applied to masked values)
the plain `Nat` operation is the exact image of the `u64` operation.
`Vec<T>` becomes `List`, panics become `Except String`, and statically
unreachable out-of-bounds reads (`get_unchecked`) are read with `getD`
while the accompanying theorems establish the in-bounds invariants.
-/

set_option maxHeartbeats 1000000

namespace SuccinctNeo

/-- Bitwise complement on a 64-bit word (`!x` on `u64`). -/
def not64 (x : Nat) : Nat := (2 ^ 64 - 1) ^^^ x

/-- `u64::count_ones`, peeled off one binary digit at a time.  The fuel
argument `64` covers every value below `2 ^ 64`; `count_ones_aux` is the
fuel-indexed worker. -/
def count_ones_aux : Nat → Nat → Nat
  | 0, _ => 0
  | fuel + 1, n => n % 2 + count_ones_aux fuel (n / 2)

/-- `u64::count_ones` of a word (exact for all words below `2 ^ 64`). -/
def count_ones (n : Nat) : Nat := count_ones_aux 64 n

/-- Fuel-indexed worker for `usize::ilog2` (floor base-2 logarithm). -/
def ilog2_aux : Nat → Nat → Nat
  | 0, _ => 0
  | fuel + 1, n => if 2 ≤ n then ilog2_aux fuel (n / 2) + 1 else 0

/-- `usize::ilog2` (exact for every value below `2 ^ 64`; the source calls
it only on nonzero values). -/
def ilog2 (n : Nat) : Nat := ilog2_aux 64 n

/-! ## Word-level bit access (`bit_vec/backing.rs`)

The `primitive_bit_ops!` macro gives single words an MSB-first bit order:
bit `index` of a word is the hardware bit `63 - index`
(`self & (1 << (SIZE - index)) > 0` with `SIZE = 63`). -/

/-- `<usize as BitGet>::get_bit_unchecked` (MSB-first). -/
def wordGetBit (w : Nat) (index : Nat) : Bool :=
  w &&& (1 <<< (63 - index)) != 0

/-- `<usize as BitModify>::set_bit_unchecked` (MSB-first). -/
def wordSetBit (w : Nat) (index : Nat) (value : Bool) : Nat :=
  if value then w ||| (1 <<< (63 - index)) else w &&& not64 (1 <<< (63 - index))

/-- `<usize as BitModify>::flip_bit_unchecked` (MSB-first). -/
def wordFlipBit (w : Nat) (index : Nat) : Nat :=
  w ^^^ (1 <<< (63 - index))

/-- `<[usize] as BitGet>::get_bit_unchecked`: word `index >> 6`, in-word
position `index & 63`. -/
def sliceGetBit (data : List Nat) (index : Nat) : Bool :=
  wordGetBit (data.getD (index >>> 6) 0) (index &&& 63)

/-- `<[usize] as BitModify>::set_bit_unchecked`. -/
def sliceSetBit (data : List Nat) (index : Nat) (value : Bool) : List Nat :=
  data.set (index >>> 6) (wordSetBit (data.getD (index >>> 6) 0) (index &&& 63) value)

/-- `<[usize] as BitModify>::flip_bit_unchecked`. -/
def sliceFlipBit (data : List Nat) (index : Nat) : List Nat :=
  data.set (index >>> 6) (wordFlipBit (data.getD (index >>> 6) 0) (index &&& 63))

/-! ## The bit vector (`bit_vec/mod.rs`)

`BitVec` stores `⌈size/64⌉` words (the `(size as f64 / 64.0).ceil()`
allocation count is embedded as the exact ceiling division, which agrees
with the `f64` computation for every size below `2 ^ 53`) and a logical
bit count.  The `BitSlice` wrapper of the source has `start = 0` and
`end = size` for a whole vector, so bit `i` of the vector is bit `i` of
the raw words. -/

structure BitVec where
  data : List Nat
  size : Nat
  deriving Repr, DecidableEq

/-- `BitVec::new`: `⌈size/64⌉` zero words. -/
def BitVec.new (size : Nat) : BitVec :=
  { data := List.replicate ((size + 63) / 64) 0, size := size }

/-- `BitVec::one`: `⌈size/64⌉` all-ones words (the unused tail bits of the
last word are set as well). -/
def BitVec.one (size : Nat) : BitVec :=
  { data := List.replicate ((size + 63) / 64) (2 ^ 64 - 1), size := size }

/-- `BitVec::len`. -/
def BitVec.len (bv : BitVec) : Nat := bv.size

/-- `BitGet::get_bit_unchecked` on the vector (raw word read, no bound
check). -/
def BitVec.get_bit_unchecked (bv : BitVec) (index : Nat) : Bool :=
  sliceGetBit bv.data index

/-- `BitGet::get_bit` through the `BitSlice` impl: bound check with the
panic message of `bit_vec/slice/trait_impls.rs`, then the raw read. -/
def BitVec.get_bit (bv : BitVec) (index : Nat) : Except String Bool :=
  if index ≥ bv.size then
    Except.error ("index is " ++ toString index ++ " but length is " ++ toString bv.size)
  else
    Except.ok (bv.get_bit_unchecked index)

/-- `BitModify::set_bit_unchecked` on the vector. -/
def BitVec.set_bit_unchecked (bv : BitVec) (index : Nat) (value : Bool) : BitVec :=
  { bv with data := sliceSetBit bv.data index value }

/-- `BitVec::set_bit` (`bit_vec/mod.rs` line 118): checked write with the
panic message `"index is {index} but length is {}"`. -/
def BitVec.set_bit (bv : BitVec) (index : Nat) (value : Bool) : Except String BitVec :=
  if index ≥ bv.size then
    Except.error ("index is " ++ toString index ++ " but length is " ++ toString bv.size)
  else
    Except.ok (bv.set_bit_unchecked index value)

/-- `BitVec::flip_bit`: checked flip with the same message. -/
def BitVec.flip_bit (bv : BitVec) (index : Nat) : Except String BitVec :=
  if index ≥ bv.size then
    Except.error ("index is " ++ toString index ++ " but length is " ++ toString bv.size)
  else
    Except.ok { bv with data := sliceFlipBit bv.data index }

/-- Raw ones of the word array in positions `[0, i)` (the specification's
`rank₁(i)`, evaluated on the raw words exactly as the index structure
reads them). -/
def rankSpec (bv : BitVec) (i : Nat) : Nat :=
  (List.range i).countP (fun j => bv.get_bit_unchecked j)

/-! ## The packed integer vector (`int_vec/dynamic.rs`)

`DynamicIntVec` keeps a word list, the element width, the element count
and a capacity.  `Vec::capacity()` of the backing allocation is not
observable through values, so the model tracks `data.len()` in its place
(every claim below concerns stored values and widths only, never the
capacity).  The checked operations return `Except String` carrying the
exact panic message of the source. -/

structure DynamicIntVec where
  data : List Nat
  capacity : Nat
  size : Nat
  width : Nat
  deriving Repr, DecidableEq

namespace DynamicIntVec

/-- `DynamicIntVec::block_width()`. -/
def block_width : Nat := 64

/-- `num_required_blocks::<usize>(n, w)` = `⌈n·w/64⌉` (the `f64` ceiling of
the source agrees with the exact ceiling for all products below `2 ^ 53`). -/
def num_required_blocks (num_elements bit_width : Nat) : Nat :=
  (num_elements * bit_width + 63) / 64

/-- `DynamicIntVec::recalculate_capacity` (with `data.len()` for
`data.capacity()`, see above). -/
def recalculate_capacity (v : DynamicIntVec) : DynamicIntVec :=
  { v with capacity := v.data.length * block_width / v.width }

/-- `DynamicIntVec::with_capacity`: the fields, then one zero word pushed. -/
def with_capacity (width capacity : Nat) : DynamicIntVec :=
  { data := [0]
    width := width
    capacity := num_required_blocks capacity width * block_width / width
    size := 0 }

/-- `DynamicIntVec::new`: default capacity 8. -/
def new (width : Nat) : DynamicIntVec := with_capacity width 8

/-- `DynamicIntVec::len`. -/
def len (v : DynamicIntVec) : Nat := v.size

/-- `(self.size * self.width) % Self::block_width()`. -/
def current_offset (v : DynamicIntVec) : Nat := (v.size * v.width) % block_width

/-- `(1 << self.width) - 1`. -/
def mask (v : DynamicIntVec) : Nat := (1 <<< v.width) - 1

/-- `*self.data.last_mut().unwrap() |= x` (the word list is never empty:
`with_capacity` pushes an initial zero word). -/
def orLast (data : List Nat) (x : Nat) : List Nat :=
  data.dropLast ++ [data.getLast?.getD 0 ||| x]

/-- `DynamicIntVec::push` after its `v < 2^width` assertion (every use in
the claims below satisfies the assertion; the masks `v & mask` of the
source are kept verbatim). -/
def push (s : DynamicIntVec) (v : Nat) : DynamicIntVec :=
  let offset := s.current_offset
  let mask := s.mask
  if offset = 0 then
    { s with data := orLast s.data (v &&& mask), size := s.size + 1 }
  else if offset + s.width ≥ block_width then
    let fitting_bits := block_width - offset
    let fitting_mask := (1 <<< fitting_bits) - 1
    let hi := (v &&& mask) >>> fitting_bits
    recalculate_capacity
      { s with data := orLast s.data ((v &&& fitting_mask) <<< offset) ++ [hi],
               size := s.size + 1 }
  else
    { s with data := orLast s.data ((v &&& mask) <<< offset), size := s.size + 1 }

/-- `DynamicIntVec::get_unchecked_with_width`. -/
def get_unchecked_with_width (s : DynamicIntVec) (index width : Nat) : Nat :=
  let index_block := index * width / block_width
  let index_offset := index * width % block_width
  if index_offset + width ≥ block_width then
    let fitting_bits := block_width - index_offset
    let remaining_bits := width - fitting_bits
    let lo := s.data.getD index_block 0 >>> index_offset
    let m := (1 <<< remaining_bits) - 1
    let hi := s.data.getD (index_block + 1) 0 &&& m
    (hi <<< fitting_bits) ||| lo
  else
    let m := (1 <<< width) - 1
    (s.data.getD index_block 0 >>> index_offset) &&& m

/-- `DynamicIntVec::set_unchecked_with_width`.  The two `u64` writes that
can shift masked bits past bit 63 are truncated with `% 2 ^ 64` exactly
where the `u64` arithmetic wraps. -/
def set_unchecked_with_width (s : DynamicIntVec) (index value width : Nat) :
    DynamicIntVec :=
  let m := (1 <<< width) - 1
  let value := value &&& m
  let index_block := index * width / block_width
  let index_offset := index * width % block_width
  if index_offset + width ≥ block_width then
    let fitting_bits := block_width - index_offset
    let lower := s.data.getD index_block 0
    let lower := lower &&& not64 ((m <<< index_offset) % 2 ^ 64)
    let lower := lower ||| ((value <<< index_offset) % 2 ^ 64)
    let higher := s.data.getD (index_block + 1) 0
    let higher := higher &&& not64 (m >>> fitting_bits)
    let higher := higher ||| (value >>> fitting_bits)
    { s with data := (s.data.set index_block lower).set (index_block + 1) higher }
  else
    let lower := s.data.getD index_block 0
    let lower := lower &&& not64 ((m <<< index_offset) % 2 ^ 64)
    let lower := lower ||| ((value <<< index_offset) % 2 ^ 64)
    { s with data := s.data.set index_block lower }

/-- `IntVector::get_unchecked`. -/
def get_unchecked (s : DynamicIntVec) (index : Nat) : Nat :=
  s.get_unchecked_with_width index s.width

/-- `IntVector::get` for `DynamicIntVec`: the bound check panics with
`"length is {} but index is {index}"` (note the order of the two fields). -/
def get (s : DynamicIntVec) (index : Nat) : Except String Nat :=
  if index < s.len then
    Except.ok (s.get_unchecked index)
  else
    Except.error ("length is " ++ toString s.len ++ " but index is " ++ toString index)

/-- `IntVector::set` for `DynamicIntVec`: bound check (same message as
`get`), then the value-width check with message
`"value {value} too large for {}-bit integer"`. -/
def set (s : DynamicIntVec) (index value : Nat) : Except String DynamicIntVec :=
  if index < s.len then
    if value < 1 <<< s.width then
      Except.ok (s.set_unchecked_with_width index value s.width)
    else
      Except.error ("value " ++ toString value ++ " too large for " ++
        toString s.width ++ "-bit integer")
  else
    Except.error ("length is " ++ toString s.len ++ " but index is " ++ toString index)

/-- The stored elements in order (`DynamicIntVec::iter`). -/
def toList (s : DynamicIntVec) : List Nat :=
  (List.range s.size).map s.get_unchecked

/-- The rewrite loop of `bit_compress`: element `i` is read with the old
width and written back with the (already updated) new width, in order. -/
def bit_compress_loop (old_width : Nat) : Nat → DynamicIntVec → DynamicIntVec
  | 0, s => s
  | n + 1, s =>
    let start := s.size - (n + 1)
    let v := s.get_unchecked_with_width start old_width
    bit_compress_loop old_width n (s.set_unchecked_with_width start v s.width)

/-- `DynamicIntVec::bit_compress`: find the maximum element, compute
`if max > 1 { (max - 1).ilog2() + 1 } else { 1 }` as the new width, then
rewrite all elements in place. -/
def bit_compress (s : DynamicIntVec) : DynamicIntVec :=
  match s.toList.max? with
  | none => s
  | some m =>
    let min_required_bits := if m > 1 then ilog2 (m - 1) + 1 else 1
    let old_width := s.width
    let s := recalculate_capacity { s with width := min_required_bits }
    bit_compress_loop old_width s.size s

/-- Pushing a whole list in order. -/
def pushList (s : DynamicIntVec) (vs : List Nat) : DynamicIntVec :=
  vs.foldl push s

end DynamicIntVec

/-- The value of a digit list in base `B`, least significant digit first.
With `B = 2 ^ 64` this is the value of a word array; with `B = 2 ^ w` the
value of a packed element sequence. -/
def radixVal (B : Nat) : List Nat → Nat
  | [] => 0
  | v :: vs => v + B * radixVal B vs

/-- The value of a `usize` word array, low word first. -/
def wordsVal (l : List Nat) : Nat := radixVal (2 ^ 64) l

/-- The representation invariant tying a `DynamicIntVec` to the element
list it was built from by `push`es: correct bookkeeping fields, exactly
`size · width / 64 + 1` backing words, canonical words, and the packed
bits equal to the base-`2 ^ w` value of the elements. -/
structure Packed (w : Nat) (vs : List Nat) (s : DynamicIntVec) : Prop where
  hwidth : s.width = w
  hsize : s.size = vs.length
  hlen : s.data.length = vs.length * w / 64 + 1
  hval : wordsVal s.data = radixVal (2 ^ w) vs
  hwords : ∀ x ∈ s.data, x < 2 ^ 64

/-! ## Rolling hashers (`rolling_hash/rabin_karp.rs`,
`rolling_hash/cyclic_polynomial.rs`, `rolling_hash/mod.rs`)

Byte strings are `List Nat` with entries below 256.  A Rust slice
`&input[base..]` is embedded as the list `input.drop base` together with
the ghost field `base`; the slice pointer of a window then corresponds to
the absolute byte position `base + offset`, which is what the pointer
comparisons of the block tree construction observe. -/

/-- `BASE` of `rabin_karp.rs`. -/
def BASE : Nat := 257

/-- `PRIME` of `rabin_karp.rs`. -/
def PRIME : Nat := 8589935681

/-- `HashedBytes`: a window slice plus its hash.  `ptr` is the absolute
position of the window start (the slice pointer); `PartialEq` of the
source compares only `hash`. -/
structure HashedBytes where
  bytes : List Nat
  ptr : Nat
  hash : Nat
  deriving Repr, DecidableEq

/-- The `rem = (rem * BASE) % PRIME` loop of `RabinKarp::new`, run `n`
times from 1. -/
def rem_steps : Nat → Nat
  | 0 => 1
  | n + 1 => rem_steps n * BASE % PRIME

structure RabinKarp where
  s : List Nat
  /-- Ghost: position of `s` inside the enclosing buffer (slice base
  pointer). -/
  base : Nat
  offset : Nat
  window_size : Nat
  rem : Nat
  hash : Nat
  done : Bool
  deriving Repr, DecidableEq

/-- `RabinKarp::new` on the slice `&buffer[base..]` (the source's `new`
has `base = 0`; the block tree also hashes suffix slices).  The initial
hash is the Horner pass `hash = (hash * BASE + c) % PRIME` over the first
window, `rem = BASE^(window_size-1) mod PRIME`. -/
def RabinKarp.new (s : List Nat) (base window_size : Nat) : RabinKarp :=
  { s := s
    base := base
    offset := 0
    window_size := window_size
    hash := (List.range window_size).foldl
      (fun h i => (h * BASE + s.getD i 0) % PRIME) 0
    rem := rem_steps (window_size - 1)
    done := false }

/-- `RollingHash::advance` for `RabinKarp`. -/
def RabinKarp.advance (rk : RabinKarp) : RabinKarp :=
  if rk.offset + rk.window_size ≥ rk.s.length ∨ rk.done = true then
    { rk with done := true, offset := min rk.offset (rk.s.length - rk.window_size) }
  else
    let c_out := rk.s.getD rk.offset 0
    let c_in := rk.s.getD (rk.offset + rk.window_size) 0
    { rk with
        hash := ((rk.hash + PRIME - rk.rem * c_out % PRIME) * BASE + c_in) % PRIME
        offset := rk.offset + 1 }

/-- `RollingHash::advance_n`: `n` successive `advance` calls. -/
def RabinKarp.advance_n : Nat → RabinKarp → RabinKarp
  | 0, rk => rk
  | n + 1, rk => RabinKarp.advance_n n rk.advance

/-- `RollingHash::hashed_bytes` for `RabinKarp`:
`&s[offset..offset+window]` plus the current hash. -/
def RabinKarp.hashed_bytes (rk : RabinKarp) : HashedBytes :=
  { bytes := (rk.s.drop rk.offset).take rk.window_size
    ptr := rk.base + rk.offset
    hash := rk.hash }

/-- `Iterator::next` for `RabinKarp`: `None` once `done`, otherwise the
current window followed by an `advance`. -/
def RabinKarp.next (rk : RabinKarp) : Option (HashedBytes × RabinKarp) :=
  if rk.done = true then none
  else some (rk.hashed_bytes, rk.advance)

/-- Driving the `RabinKarp` iterator to exhaustion (fuel-bounded; the
fuel `s.length + 1` used below always suffices). -/
def rkIter : Nat → RabinKarp → List HashedBytes
  | 0, _ => []
  | fuel + 1, rk =>
    match rk.next with
    | none => []
    | some (hb, rk') => hb :: rkIter fuel rk'

/-- Collecting the `RabinKarp` iterator. -/
def RabinKarp.collect (rk : RabinKarp) : List HashedBytes :=
  rkIter (rk.s.length + 1) rk

/-- `u64::rotate_left`. -/
def rotl64 (x n : Nat) : Nat :=
  ((x <<< (n % 64)) % 2 ^ 64) ||| (x >>> (64 - n % 64))

structure CyclicPolynomial where
  s : List Nat
  /-- Ghost: position of `s` inside the enclosing buffer. -/
  base : Nat
  /-- The 256-entry `char_table` (a function on byte values). -/
  char_table : Nat → Nat
  offset : Nat
  window_size : Nat
  hash : Nat
  seed : Nat
  done : Bool

/-- `CyclicPolynomial::with_table`: the initial hash XORs
`rotl(table[s[i]], window_size - i - 1)` over the first window.  (The
random-seed constructor `new`/`with_seed` only differs in how the table
is produced; the table is a parameter here.) -/
def CyclicPolynomial.with_table (s : List Nat) (base window_size seed : Nat)
    (char_table : Nat → Nat) : CyclicPolynomial :=
  { s := s
    base := base
    char_table := char_table
    offset := 0
    window_size := window_size
    hash := (List.range window_size).foldl
      (fun h i => h ^^^ rotl64 (char_table (s.getD i 0)) (window_size - i - 1)) 0
    seed := seed
    done := false }

/-- `RollingHash::advance` for `CyclicPolynomial` (out-of-range reads
yield byte 0 via `unwrap_or_default`). -/
def CyclicPolynomial.advance (cc : CyclicPolynomial) : CyclicPolynomial :=
  let outchar := cc.s.getD cc.offset 0
  let inchar := cc.s.getD (cc.offset + cc.window_size) 0
  { cc with
      hash := rotl64 cc.hash 1 ^^^ rotl64 (cc.char_table outchar) cc.window_size ^^^
        cc.char_table inchar
      offset := cc.offset + 1 }

/-- `RollingHash::hashed_bytes` for `CyclicPolynomial`. -/
def CyclicPolynomial.hashed_bytes (cc : CyclicPolynomial) : HashedBytes :=
  { bytes := (cc.s.drop cc.offset).take cc.window_size
    ptr := cc.base + cc.offset
    hash := cc.hash }

/-- `Iterator::next` for `CyclicPolynomial`: `None` once
`offset + window_size > s.len()`. -/
def CyclicPolynomial.next (cc : CyclicPolynomial) :
    Option (HashedBytes × CyclicPolynomial) :=
  if cc.offset + cc.window_size > cc.s.length then none
  else some (cc.hashed_bytes, cc.advance)

/-- Driving the `CyclicPolynomial` iterator (fuel-bounded). -/
def cpIter : Nat → CyclicPolynomial → List HashedBytes
  | 0, _ => []
  | fuel + 1, cc =>
    match cc.next with
    | none => []
    | some (hb, cc') => hb :: cpIter fuel cc'

/-- Collecting the `CyclicPolynomial` iterator. -/
def CyclicPolynomial.collect (cc : CyclicPolynomial) : List HashedBytes :=
  cpIter (cc.s.length + 1) cc

/-- The Rabin-Karp window hash of the claim:
`(Σ_{k<w} text[offset+k] · BASE^(w-1-k)) mod PRIME`. -/
def polyHash (t : List Nat) (o w : Nat) : Nat :=
  (∑ k ∈ Finset.range w, t.getD (o + k) 0 * BASE ^ (w - 1 - k)) % PRIME

/-- The state invariant of claim C8 for a Rabin-Karp hasher over text `t`
with window `w`: well-formed fields and
`hash = (Σ_{k<w} t[offset+k] · B^{w-1-k}) mod P`. -/
structure RKInv (t : List Nat) (w : Nat) (rk : RabinKarp) : Prop where
  hs : rk.s = t
  hw : rk.window_size = w
  hrem : rk.rem = BASE ^ (w - 1) % PRIME
  hoff : rk.offset + w ≤ t.length
  hhash : rk.hash = polyHash t rk.offset w

/-- The `for (i, b) in iter.enumerate() { bv.set(i, b) }` loop of
`impl FromIterator<bool> for BitVec` (the `(_, Some(max))` branch of
`bit_vec/mod.rs`): checked `set` on each yielded boolean in order.  The
checked set's panic propagates as the error. -/
def setAll (bv : BitVec) (i : Nat) : List Bool → Except String BitVec
  | [] => Except.ok bv
  | b :: rest =>
    match bv.set_bit i b with
    | Except.error e => Except.error e
    | Except.ok bv1 => setAll bv1 (i + 1) rest

/-- `BitVec::from_iter` when the iterator's `size_hint` upper bound is
`Some(max)` and the yielded booleans are `l`: start from `BitVec::new(max)`
and `set` every yielded element at its position. -/
def BitVec.from_iter_bounded (l : List Bool) (max : Nat) : Except String BitVec :=
  setAll (BitVec.new max) 0 l

/-! ## The flat-popcount rank/select index
(`bit_vec/rank_select/flat_popcount/mod.rs`, select strategies from
`rank_select/flat_popcount/strats.rs`, and the legacy `select` of
`rank_select/flat_popcount/mod.rs`)

The 128-bit L1 entries are `Nat` values below `2 ^ 128`; the one place
where the `u128` arithmetic could overflow (`(num_ones as u128) << 84`)
is truncated with `% 2 ^ 128`.  The unsafe pointer read
`*((entry as *const u128 as *const usize).offset(1)) >> 20` of the
little-endian high word is `((entry >>> 64) % 2 ^ 64) >>> 20`.
`loop`s without a structural bound are given fuel; the fuel chosen at the
call sites is proved sufficient by the theorems, and an exhausted fuel or
an out-of-bounds `get_unchecked` — undefined behaviour in the source —
surfaces as `none`/`Except.error`. -/

/-- `raw_bv.chunks(8)` (fuel-indexed worker; fuel `l.length` suffices). -/
def chunks8_aux : Nat → List Nat → List (List Nat)
  | 0, _ => []
  | _ + 1, [] => []
  | fuel + 1, x :: xs => (x :: xs.take 7) :: chunks8_aux fuel (xs.drop 7)

/-- `raw_bv.chunks(8)`: the word list in groups of 8, last group partial. -/
def chunks8 (l : List Nat) : List (List Nat) := chunks8_aux l.length l

/-- The running state of `build_indices`. -/
structure BuildState where
  num_ones : Nat
  ones_in_l1 : Nat
  current_l1 : Nat
  i : Nat
  acc : List Nat
  deriving Repr, DecidableEq

/-- The chunk loop of `build_indices`. -/
def build_loop : List (List Nat) → BuildState → BuildState
  | [], st => st
  | l2_block :: rest, st =>
    let offset := st.i &&& 7
    if offset = 7 then
      let num_ones := st.num_ones + st.ones_in_l1 + (l2_block.map count_ones).sum
      build_loop rest
        { num_ones := num_ones
          ones_in_l1 := 0
          current_l1 := num_ones <<< 84 % 2 ^ 128
          i := st.i + 1
          acc := st.acc ++ [st.current_l1] }
    else
      let ones := st.ones_in_l1 + (l2_block.map count_ones).sum
      build_loop rest
        { st with
            ones_in_l1 := ones
            current_l1 := st.current_l1 ||| (ones &&& 4095) <<< (12 * (6 - offset))
            i := st.i + 1 }

/-- The `while i & 7 != 7` padding loop of `build_indices` (at most 7
iterations; fuel 8 always suffices). -/
def pad_loop : Nat → Nat → Nat → Nat
  | 0, _, cur => cur
  | fuel + 1, i, cur =>
    if i &&& 7 ≠ 7 then pad_loop fuel (i + 1) (cur ||| 4095 <<< (12 * (6 - (i &&& 7))))
    else cur

/-- `FlatPopcount::build_indices` on the raw words: the chunk loop, the
padding of the unused L2 slots, and the final push. -/
def build_indices (raw : List Nat) : List Nat :=
  let st := build_loop (chunks8 raw) ⟨0, 0, 0, 0, []⟩
  st.acc ++ [pad_loop 8 st.i st.current_l1]

/-- `FlatPopcount::sample_ones`: fold over the bits; `ones` counts the
ones seen so far (the source's `count` is `ones - 1`), and every
`8192`-th one pushes its bit index shifted by 13. -/
def sample_ones (bv : BitVec) (width : Nat) : Nat × DynamicIntVec :=
  (List.range bv.size).foldl
    (fun (st : Nat × DynamicIntVec) idx =>
      if bv.get_bit_unchecked idx then
        let ones := st.fst + 1
        (ones, if (ones - 1) &&& 8191 = 0 then st.snd.push (idx >>> 13) else st.snd)
      else st)
    (0, DynamicIntVec.new width)

structure FlatPopcount where
  backing : BitVec
  l1_index : List Nat
  sampled_ones : DynamicIntVec
  number_of_ones : Nat

/-- `FlatPopcount::new`. -/
def FlatPopcount.new (backing : BitVec) : FlatPopcount :=
  if backing.len = 0 then
    { backing := backing
      l1_index := []
      sampled_ones := DynamicIntVec.new 1
      number_of_ones := 0 }
  else
    let log_n := ilog2 backing.len + 1
    let l1 := build_indices backing.data
    let os := sample_ones backing log_n
    { backing := backing
      l1_index := l1
      sampled_ones := os.snd
      number_of_ones := os.fst }

/-- `FlatPopcount::rough_rank_1`. -/
def rough_rank_1 (fp : FlatPopcount) (l1_index l2_index : Nat) : Nat :=
  if l2_index = 0 then fp.l1_index.getD l1_index 0 >>> 84
  else
    let offset := 12 * (7 - l2_index)
    let entry := fp.l1_index.getD l1_index 0
    (entry >>> 84) + ((entry >>> offset) &&& 4095)

/-- The little-endian high-word pointer read of an L1 entry's cumulative
field: `*((entry as *const u128 as *const usize).offset(1)) >> 20`. -/
def entryL1 (e : Nat) : Nat := ((e >>> 64) % 2 ^ 64) >>> 20

/-- `FlatPopcount::l1`: the cumulative-ones field of an entry, through the
little-endian high-word pointer read. -/
def FlatPopcount.l1 (fp : FlatPopcount) (l1_index : Nat) : Nat :=
  entryL1 (fp.l1_index.getD l1_index 0)

/-- The scan of `FlatPopcount::find_l1` over the entries from index `idx`
on; `none` means the loop ran past the last entry (the source then
returns `n - 1`).  The `idx - 1` is the source's `l1_index - 1`, which
would wrap in Rust when it fires at `idx = 0`; under the index invariant
`entryL1` of entry 0 is 0, so it never fires there. -/
def find_l1_aux (rank : Nat) : List Nat → Nat → Option Nat
  | [], _ => none
  | e :: rest, idx =>
    if entryL1 e > rank then some (idx - 1) else find_l1_aux rank rest (idx + 1)

/-- `FlatPopcount::find_l1` (the `bit_vec` version, which only reads
entries at indices `start..n`). -/
def FlatPopcount.find_l1 (fp : FlatPopcount) (start rank : Nat) : Nat :=
  match find_l1_aux rank (fp.l1_index.drop start) start with
  | some idx => idx
  | none => fp.l1_index.length - 1

/-- `LinearSearch::find_l2` (`strats.rs`): the `for i in 0..7` loop,
fuel-counted; returns `(l2_index, ones before that block)`. -/
def linear_l2_aux (entry rank : Nat) : Nat → Nat → Nat → Nat × Nat
  | 0, _, prev => (7, prev)
  | fuel + 1, i, prev =>
    let l2_entry := (entry >>> (72 - 12 * i)) &&& 4095
    if rank < l2_entry then (i, prev)
    else linear_l2_aux entry rank fuel (i + 1) l2_entry

/-- `LinearSearch::find_l2`. -/
def find_l2_linear (entry rank : Nat) : Nat × Nat := linear_l2_aux entry rank 7 0 0

/-- `BinarySearch::find_l2` (`strats.rs`): the three-step uniform binary
search over the seven cumulative L2 entries. -/
def find_l2_binary (entry rank : Nat) : Nat × Nat :=
  let l2 := fun (j : Nat) => (entry >>> (72 - 12 * j)) &&& 4095
  if rank < l2 3 then
    if rank < l2 1 then
      if rank < l2 0 then (0, 0) else (1, l2 0)
    else
      if rank < l2 2 then (2, l2 1) else (3, l2 2)
  else
    if rank < l2 5 then
      if rank < l2 4 then (4, l2 3) else (5, l2 4)
    else
      if rank < l2 6 then (6, l2 5) else (7, l2 6)

/-- The word loop of `select`: walk the raw words from the current index,
skipping whole words while their popcount is at most the remaining rank.
Returns `(index_in_l2, stopping word, remaining rank)`; `none` models the
out-of-bounds `get_unchecked` when the list runs out (undefined behaviour
in the source, unreachable under the index invariants). -/
def select_word_loop : List Nat → Nat → Option (Nat × Nat × Nat)
  | [], _ => none
  | wd :: rest, rank =>
    if count_ones wd ≤ rank then
      match select_word_loop rest (rank - count_ones wd) with
      | none => none
      | some r => some (r.fst + 1, r.snd)
    else some (0, wd, rank)

/-- The bit loop of `select`: find the `rank`-th remaining one in `word`,
scanning bits from `idx`.  Fuel 64 covers every reachable case; `none`
models the loop running past bit 63 (in the source `63 - index` would
underflow). -/
def select_bit_loop (word : Nat) : Nat → Nat → Nat → Option Nat
  | 0, _, _ => none
  | fuel + 1, idx, rank =>
    let bit := wordGetBit word idx
    if rank = 0 ∧ bit = true then some idx
    else select_bit_loop word fuel (idx + 1) (if bit then rank - 1 else rank)

/-- `FlatPopcount::rank` (the `TARGET` flag picks ones or zeros). -/
def FlatPopcount.rank (fp : FlatPopcount) (target : Bool) (index : Nat) : Nat :=
  let l1_index := index >>> 12
  let l2_index := (index >>> 9) &&& 7
  let internal_index := index &&& 511
  let full_remaining_words := internal_index >>> 6
  let rest_bits := internal_index - (full_remaining_words <<< 6)
  let word_start := (l1_index <<< 6) + (l2_index <<< 3)
  let ones := rough_rank_1 fp l1_index l2_index +
    ((List.range full_remaining_words).map
      (fun i => count_ones (fp.backing.data.getD (word_start + i) 0))).sum
  let ones := if rest_bits > 0 then
      ones + count_ones (fp.backing.data.getD (word_start + full_remaining_words) 0 &&&
        ((1 <<< rest_bits - 1) <<< (64 - rest_bits)))
    else ones
  if target then ones else index - ones

/-- `FlatPopcount::len`: the length of the backing bit vector. -/
def FlatPopcount.len (fp : FlatPopcount) : Nat := fp.backing.len

/-- `FlatPopcount::select` of `bit_vec/rank_select/flat_popcount/mod.rs`,
parameterised by the strategy's `find_l2`.  The checked
`sampled_ones.get` panic and the unsafe reads are unreachable under the
index invariants; they are modelled as `none` (via `getD` for the entry
read, whose index is in range whenever the invariants hold). -/
def FlatPopcount.select (findl2 : Nat → Nat → Nat × Nat) (fp : FlatPopcount)
    (rank : Nat) : Option Nat :=
  if rank ≥ fp.number_of_ones then none
  else
    match fp.sampled_ones.get (rank >>> 13) with
    | Except.error _ => none
    | Except.ok start =>
      let l1_index := fp.find_l1 start rank
      let rank1 := rank - fp.l1 l1_index
      let block := fp.l1_index.getD l1_index 0
      let p := findl2 block rank1
      let rank2 := rank1 - p.snd
      let current_index := (l1_index <<< 6) + (p.fst <<< 3)
      match select_word_loop (fp.backing.data.drop current_index) rank2 with
      | none => none
      | some r =>
        match select_bit_loop r.snd.fst 64 0 r.snd.snd with
        | none => none
        | some index_in_word =>
          some ((l1_index <<< 12) + (p.fst <<< 9) + (r.fst <<< 6) + index_in_word)

/-- The `while l1 <= rank && l1_index < n` loop of the legacy `select`
(`rank_select/flat_popcount/mod.rs`): the body reads `l1(l1_index + 1)`
unconditionally, an out-of-bounds read (undefined behaviour) when
`l1_index + 1 = n`; that read is surfaced as an error.  Fuel `n + 1`
always suffices since the index strictly increases and stays below `n`. -/
def find_l1_old_aux (l1idx : List Nat) (rank : Nat) :
    Nat → Nat → Nat → Except String Nat
  | 0, _, _ => Except.error "find_l1 fuel exhausted"
  | fuel + 1, idx, l1v =>
    if l1v ≤ rank ∧ idx < l1idx.length then
      if idx + 1 < l1idx.length then
        find_l1_old_aux l1idx rank fuel (idx + 1) (entryL1 (l1idx.getD (idx + 1) 0))
      else Except.error "out-of-bounds L1 entry read in select"
    else Except.ok idx

/-- The legacy `FlatPopcount::select` of
`rank_select/flat_popcount/mod.rs` (guard `rank > number_of_ones`, inline
`while` search for the L1 block, then the same word and bit loops).  The
legacy structure is built by character-identical `new`/`build_indices`/
`sample_ones` code, so it shares `FlatPopcount.new`; panics and
out-of-bounds unsafe reads are `Except.error`. -/
def FlatPopcount.select_old (findl2 : Nat → Nat → Nat × Nat) (fp : FlatPopcount)
    (rank : Nat) : Except String (Option Nat) :=
  if rank > fp.number_of_ones then Except.ok none
  else
    match fp.sampled_ones.get (rank >>> 13) with
    | Except.error e => Except.error e
    | Except.ok start =>
      if start < fp.l1_index.length then
        match find_l1_old_aux fp.l1_index rank (fp.l1_index.length + 1) start
            (entryL1 (fp.l1_index.getD start 0)) with
        | Except.error e => Except.error e
        | Except.ok idx0 =>
          let l1_index := idx0 - 1
          let rank1 := rank - fp.l1 l1_index
          let block := fp.l1_index.getD l1_index 0
          let p := findl2 block rank1
          let rank2 := rank1 - p.snd
          let current_index := (l1_index <<< 6) + (p.fst <<< 3)
          match select_word_loop (fp.backing.data.drop current_index) rank2 with
          | none => Except.error "out-of-bounds word read in select"
          | some r =>
            match select_bit_loop r.snd.fst 64 0 r.snd.snd with
            | none => Except.error "bit scan ran past the word in select"
            | some index_in_word =>
              Except.ok (some ((l1_index <<< 12) + (p.fst <<< 9) +
                (r.fst <<< 6) + index_in_word))
      else Except.error "out-of-bounds L1 entry read in select"

/-! ## Specification-side counting functions for the flat-popcount proofs -/

/-- Cumulative popcount of the first `w` raw words (constant past the end
of the list, where `getD` reads zeros). -/
def wordsOnes (d : List Nat) : Nat → Nat
  | 0 => 0
  | w + 1 => wordsOnes d w + count_ones (d.getD w 0)

/-- Raw ones in bit positions `[0, i)` of a word list (index order). -/
def rawRank (d : List Nat) (i : Nat) : Nat :=
  (List.range i).countP (fun j => sliceGetBit d j)

/-- Index-order prefix popcount inside one word. -/
def wordPrefixOnes (w idx : Nat) : Nat :=
  (List.range idx).countP (fun j => wordGetBit w j)

/-- The cumulative-ones field of the `j`-th L1 index entry built by
`build_indices`: the ones of all words before the block. -/
def cumSpec (d : List Nat) (j : Nat) : Nat := wordsOnes d (64 * j)

/-- The value of L2 slot `t` (`0 ≤ t < 7`) of the `j`-th L1 entry: the
ones of chunks `8j..8j+t` of the block when chunk `8j + t` exists, and
the all-ones padding `4095` otherwise. -/
def slotVal (d : List Nat) (j t : Nat) : Nat :=
  if 8 * (8 * j + t) < d.length then
    wordsOnes d (64 * j + 8 * (t + 1)) - wordsOnes d (64 * j)
  else 4095

/-- The `j`-th 128-bit L1 index entry produced by `build_indices`. -/
def entrySpec (d : List Nat) (j : Nat) : Nat :=
  cumSpec d j * 2 ^ 84 + ∑ t ∈ Finset.range 7, slotVal d j t * 2 ^ (12 * (6 - t))

/-- The value of `current_l1` after `build_indices` has processed `c`
chunks: the cumulative field of the current block and its first `c % 8`
L2 slots. -/
def partialEntry (d : List Nat) (c : Nat) : Nat :=
  cumSpec d (c / 8) * 2 ^ 84 +
    ∑ t ∈ Finset.range (c % 8), slotVal d (c / 8) t * 2 ^ (12 * (6 - t))

/-! ## The pointer block tree
(`rank_select/block_tree/pointer/mod.rs`, `pointer/block.rs`,
`pointer/construction.rs`)

The arena (`id_arena::Arena<Block>`) is a list of blocks indexed by
allocation order; `BlockId` is the list index.  `HashedByteMap` /
`HashedByteMultiMap` are hash maps keyed by `HashedBytes`, whose `Eq` and
`Hash` look only at the `hash` field; they are modelled as association
lists keyed by that hash (`HashedByteMultiMap` is absent from the
snapshot; modelled from the spec as a hash-keyed multimap whose
`insert` appends to the key's vector and `get_vec`/`remove` address the
whole vector).  Slice pointers compared by the scans are the ghost
absolute positions carried in `HashedBytes.ptr`. -/

/-- `Block` of `pointer/block.rs`, with the two `BlockType` variants
folded into the `back` flag plus the internal-only `children` list.
`incident_pointers` is omitted: only `prune` reads or writes it, and
`PointerBlockTree::new` never calls `prune`.  `stop` is the source's
`end` (a Lean keyword).  Modelled from the spec: the `index` field
(each block records its in-level index, assigned at creation) — it is
written by the three-argument `Block::internal` call of
`pointer/construction.rs` and read by the compact construction, but the
snapshot's `block.rs` lacks it. -/
structure Block where
  start : Nat
  stop : Nat
  next : Option Nat
  children : List Nat
  back : Bool
  source : Option Nat
  offset : Option Nat
  index : Nat
  deriving Repr, DecidableEq

/-- `Block::internal` (the root call site passes no index; it is created
with index 0 and is never a back-pointer source). -/
def Block.internal (start stop index : Nat) : Block :=
  ⟨start, stop, none, [], false, none, none, index⟩

/-- `Block::len`. -/
def Block.len (b : Block) : Nat := b.stop - b.start

/-- `Block::is_adjacent`. -/
def Block.is_adjacent (b nxt : Block) : Bool := b.stop == nxt.start

/-- Arena read `blocks[id]` (in the source an out-of-range id is
unrepresentable: `BlockId`s are only minted by `alloc`). -/
def blocksGet (blocks : List Block) (id : Nat) : Block :=
  blocks.getD id (Block.internal 0 0 0)

/-- Arena in-place update `blocks[id] = f (blocks[id])`. -/
def blocksModify (blocks : List Block) (id : Nat) (f : Block → Block) :
    List Block :=
  blocks.set id (f (blocksGet blocks id))

structure PointerBlockTree where
  blocks : List Block
  root : Nat
  input : List Nat
  arity : Nat
  leaf_length : Nat
  level_block_sizes : List Nat
  level_block_count : List Nat
  levels : List (List Nat)
  deriving Repr

/-- The `while block_size < input_length` loop of
`calculate_level_block_sizes`, returning the pushed sizes and counts and
the final `block_size`.  The count `(float_length / block_size as f64)
.ceil()` is the exact ceiling division for the sizes in scope (both
operands well below `2^53`).  Fuel: `block_size` at least doubles each
iteration, so `input_length + 1` steps always reach the exit. -/
def calc_sizes_aux : Nat → Nat → Nat → Nat → List Nat → List Nat →
    List Nat × List Nat × Nat
  | 0, block_size, _, _, sizes, counts => (sizes, counts, block_size)
  | fuel + 1, block_size, n, arity, sizes, counts =>
    if block_size < n then
      calc_sizes_aux fuel (block_size * arity) n arity (sizes ++ [block_size])
        (counts ++ [(n + block_size - 1) / block_size])
    else (sizes, counts, block_size)

/-- `PointerBlockTree::calculate_level_block_sizes`. -/
def calculate_level_block_sizes (input_length arity leaf_length : Nat) :
    List Nat × List Nat :=
  let r := calc_sizes_aux (input_length + 1) leaf_length input_length arity [] []
  ((r.1 ++ [r.2.2]).reverse, (r.2.1 ++ [1]).reverse)

/-- The running state of `generate_level`: the arena, the new level's
block ids, the per-level block index counter, and the source's `last`
(initially `blocks.next_id()`). -/
structure GenState where
  blocks : List Block
  cur : List Nat
  idx : Nat
  last : Nat

/-- The `for i in (0..prev_len).step_by(block_size)` loop of
`generate_level` for one parent block: allocate
`Block::internal(prev_start + i, prev_start + i + block_size, idx)`
(breaking once `prev_start + i >= n`), push it on the level, register it
as a child of the parent `pb`, and wire `next` to the id the next
allocation will get (`blocks.next_id()` after the alloc). -/
def gen_inner (n bs ps pl pb : Nat) : Nat → Nat → GenState → GenState
  | 0, _, st => st
  | fuel + 1, i, st =>
    if i < pl then
      if n ≤ ps + i then st
      else
        let id := st.blocks.length
        let b : Block := { start := ps + i, stop := ps + i + bs,
                           next := some (id + 1), children := [], back := false,
                           source := none, offset := none, index := st.idx }
        let blocks1 := blocksModify (st.blocks ++ [b]) pb
          (fun p => { p with children := p.children ++ [id] })
        gen_inner n bs ps pl pb fuel (i + bs)
          { blocks := blocks1, cur := st.cur ++ [id], idx := st.idx + 1,
            last := id }
    else st

/-- `PointerBlockTree::generate_level`: `none` when all levels exist;
otherwise generate the next level under every non-back block of the
previous one and clear the `next` pointer of the last allocated block
(if no block was allocated at all, the source indexes the arena with a
not-yet-allocated id and panics; `blocksModify` is then a no-op — that
situation does not arise for the inputs considered here). -/
def generate_level (bt : PointerBlockTree) : Option PointerBlockTree :=
  let depth := bt.levels.length
  if bt.level_block_sizes.length ≤ depth then none
  else
    let bs := bt.level_block_sizes.getD depth 0
    let n := bt.input.length
    let prev := bt.levels.getD (depth - 1) []
    let stf := prev.foldl (fun st pb =>
      let p := blocksGet st.blocks pb
      if p.back then st
      else gen_inner n bs p.start p.len pb (p.len + 1) 0 st)
      ⟨bt.blocks, [], 0, bt.blocks.length⟩
    some { bt with
      blocks := blocksModify stf.blocks stf.last (fun b => { b with next := none }),
      levels := bt.levels ++ [stf.cur] }

/-- `PointerBlockTree::block`: `levels.get(level).and_then(get(idx))`,
then the arena read. -/
def PointerBlockTree.block (bt : PointerBlockTree) (level idx : Nat) :
    Option Block :=
  match (bt.levels.getD level [])[idx]? with
  | none => none
  | some id => some (blocksGet bt.blocks id)

/-- `HashedByteMap::get` keyed by the window hash. -/
def hmapGet (m : List (Nat × HashedBytes)) (h : Nat) : Option HashedBytes :=
  match m.find? (fun p => p.1 == h) with
  | none => none
  | some p => some p.2

/-- `HashedByteMap::entry(hb).or_insert(hb)`. -/
def hmapOrInsert (m : List (Nat × HashedBytes)) (hb : HashedBytes) :
    List (Nat × HashedBytes) :=
  match hmapGet m hb.hash with
  | some _ => m
  | none => m ++ [(hb.hash, hb)]

/-- `HashedByteMap::remove` (at most one entry per hash exists). -/
def hmapRemove (m : List (Nat × HashedBytes)) (h : Nat) :
    List (Nat × HashedBytes) :=
  m.filter (fun p => p.1 != h)

/-- `HashedByteMultiMap::get_vec`. -/
def mmapGet (m : List (Nat × List (HashedBytes × Nat))) (h : Nat) :
    Option (List (HashedBytes × Nat)) :=
  match m.find? (fun p => p.1 == h) with
  | none => none
  | some p => some p.2

/-- `HashedByteMultiMap::insert`: append to the key's vector. -/
def mmapInsert (m : List (Nat × List (HashedBytes × Nat))) (hb : HashedBytes)
    (v : HashedBytes × Nat) : List (Nat × List (HashedBytes × Nat)) :=
  match mmapGet m hb.hash with
  | some _ => m.map (fun p => if p.1 == hb.hash then (p.1, p.2 ++ [v]) else p)
  | none => m ++ [(hb.hash, [v])]

/-- `HashedByteMultiMap::remove`: drop the key's whole vector. -/
def mmapRemove (m : List (Nat × List (HashedBytes × Nat))) (h : Nat) :
    List (Nat × List (HashedBytes × Nat)) :=
  m.filter (fun p => p.1 != h)

/-- One `pair_marks.set(i, pair_marks.get(i) + 1)` on the two-bit packed
counter vector (`FixedIntVec<2>`, absent from the snapshot; modelled from
the spec: a per-block counter capped at two bits — the scan never pushes
a counter past 2, so the masking never fires). -/
def pair_marks_bump (marks : List Nat) (i : Nat) : List Nat :=
  marks.set i ((marks.getD i 0 + 1) &&& 3)

/-- `PointerBlockTree::scan_block_pairs`, as the list of booleans the
source collects into a `BitVec` (the final
`v == 2 || i == 0 || i == num_blocks - 1 && v == 1` map).  First pass:
hash every adjacent block pair at pair-aligned positions into the map,
re-creating the hasher after a gap.  Second pass: slide a pair-sized
window; when the map holds an entry with the same hash whose stored
slice pointer equals the current window's, mark both blocks of the pair
and drop the entry. -/
def scan_block_pairs (bt : PointerBlockTree) : List Bool :=
  let depth := bt.levels.length - 1
  let bs := bt.level_block_sizes.getD depth 0
  let nb := (bt.levels.getD depth []).length
  let pair := 2 * bs
  let first := (List.range (nb - 1)).foldl
    (fun (st : RabinKarp × List (Nat × HashedBytes)) i =>
      match bt.block depth i, bt.block depth (i + 1) with
      | some cb, some nxt =>
        if cb.is_adjacent nxt = false then
          (RabinKarp.new (bt.input.drop nxt.start) nxt.start pair, st.2)
        else
          let hb := st.1.hashed_bytes
          (RabinKarp.advance_n bs st.1, hmapOrInsert st.2 hb)
      | _, _ => st)
    (RabinKarp.new bt.input 0 pair, [])
  let second := (List.range (nb - 1)).foldl
    (fun (st : RabinKarp × List (Nat × HashedBytes) × List Nat) bi =>
      match bt.block depth bi, bt.block depth (bi + 1) with
      | some cb, some nxt =>
        if cb.is_adjacent nxt = false then
          (RabinKarp.new (bt.input.drop nxt.start) nxt.start pair, st.2.1, st.2.2)
        else
          let num_hashes :=
            match bt.block depth (bi + 2) with
            | some nnb => if nxt.is_adjacent nnb = false then 1 else cb.len
            | none => cb.len
          (List.range num_hashes).foldl
            (fun (st2 : RabinKarp × List (Nat × HashedBytes) × List Nat) _ =>
              let hb := st2.1.hashed_bytes
              match hmapGet st2.2.1 hb.hash with
              | none => (st2.1.advance, st2.2.1, st2.2.2)
              | some pair_hash =>
                if pair_hash.ptr == hb.ptr then
                  (st2.1.advance, hmapRemove st2.2.1 hb.hash,
                    pair_marks_bump (pair_marks_bump st2.2.2 bi) (bi + 1))
                else (st2.1.advance, st2.2.1, st2.2.2))
            (st.1, st.2.1, st.2.2)
      | _, _ => st)
    (RabinKarp.new bt.input 0 pair, first.2, List.replicate nb 0)
  (List.range nb).map (fun i =>
    let v := second.2.2.getD i 0
    v == 2 || i == 0 || (i == nb - 1 && v == 1))

/-- `PointerBlockTree::scan_blocks`.  First pass: hash every block except
the last at its start into the multimap together with its level index.
Second pass: slide a block-sized window; for every map entry with the
window's hash, a non-internal block strictly to the right of the window
is `replace`d into a back block pointing at the current block with the
window offset, while an internal block records its first occurrence
`(its own id, offset)` in `source`/`offset` (used only by the never-run
pruning); the hash is then removed and the hasher advanced, re-created
at the next block after a gap. -/
def scan_blocks (bt : PointerBlockTree) (isi : List Bool) : PointerBlockTree :=
  let depth := bt.levels.length - 1
  let bs := bt.level_block_sizes.getD depth 0
  let nb := (bt.levels.getD depth []).length
  let ids := bt.levels.getD depth []
  let bhs := (List.range (nb - 1)).foldl
    (fun (m : List (Nat × List (HashedBytes × Nat))) i =>
      match bt.block depth i with
      | some b =>
        let hb := (RabinKarp.new (bt.input.drop b.start) b.start bs).hashed_bytes
        mmapInsert m hb (hb, i)
      | none => m)
    []
  let final := (List.range nb).foldl
    (fun (st : List Block × RabinKarp × List (Nat × List (HashedBytes × Nat)))
        bi =>
      let cbid := ids.getD bi 0
      let cb := blocksGet st.1 cbid
      let nxt := match ids[bi + 1]? with
        | none => none
        | some id => some (blocksGet st.1 id)
      let info : Nat × Option Nat × Bool :=
        match nxt with
        | some nb2 =>
          if cb.is_adjacent nb2 = false then (1, some nb2.start, false)
          else (cb.len - (cb.start + cb.len - bt.input.length),
            some nb2.start, true)
        | none => (cb.len - (cb.start + cb.len - bt.input.length), none, true)
      let afterWin := (List.range info.1).foldl
        (fun (st2 : List Block × RabinKarp × List (Nat × List (HashedBytes × Nat)))
            off =>
          let hb := st2.2.1.hashed_bytes
          let blocks2 :=
            match mmapGet st2.2.2 hb.hash with
            | none => st2.1
            | some results =>
              results.foldl (fun bl pr =>
                if isi.getD pr.2 false = false then
                  if hb.ptr < pr.1.ptr then
                    blocksModify bl (ids.getD pr.2 0) (fun b =>
                      { b with source := some cbid, offset := some off,
                               back := true, children := [] })
                  else bl
                else
                  let bid := ids.getD pr.2 0
                  if (blocksGet bl bid).source.isNone then
                    blocksModify bl bid (fun b =>
                      { b with source := some bid, offset := some off })
                  else bl) st2.1
          (blocks2, st2.2.1.advance, mmapRemove st2.2.2 hb.hash))
        (st.1, st.2.1, st.2.2)
      if info.2.2 = false then
        (afterWin.1,
          RabinKarp.new (bt.input.drop (info.2.1.getD 0)) (info.2.1.getD 0) bs,
          afterWin.2.2)
      else afterWin)
    (bt.blocks, RabinKarp.new bt.input 0 bs, bhs)
  { bt with blocks := final.1 }

/-- `PointerBlockTree::process_level`. -/
def process_level (bt : PointerBlockTree) : Option PointerBlockTree :=
  match generate_level bt with
  | none => none
  | some bt1 => some (scan_blocks bt1 (scan_block_pairs bt1))

/-- The `while bt.process_level().is_ok()` loop of
`PointerBlockTree::new`; one successful pass per level, so fuel
`level_block_sizes.length + 1` always reaches the failing call. -/
def pbt_loop : Nat → PointerBlockTree → PointerBlockTree
  | 0, bt => bt
  | fuel + 1, bt =>
    match process_level bt with
    | none => bt
    | some bt1 => pbt_loop fuel bt1

/-- `PointerBlockTree::new` (the `arity > 1` and `leaf_length > 0`
asserts hold at every use below). -/
def PointerBlockTree.new (input : List Nat) (arity leaf_length : Nat) :
    PointerBlockTree :=
  let sc := calculate_level_block_sizes input.length arity leaf_length
  pbt_loop (sc.1.length + 1)
    { blocks := [Block.internal 0 (sc.1.getD 0 0) 0], root := 0, input := input,
      arity := arity, leaf_length := leaf_length, level_block_sizes := sc.1,
      level_block_count := sc.2, levels := [[0]] }


/-! ## The compact block tree (`rank_select/block_tree/mod.rs`,
`rank_select/block_tree/construction.rs`)

The rank structures (`top_level_block_ranks`, `block_pop_counts`,
`back_block_source_ranks`) are omitted: `access` never reads them and
`calculate_top_level_ranks` writes nothing else. -/

/-- `AlphabetMapping` of `rank_select/block_tree/mod.rs`: the two
256-entry arrays (zero-initialised; entries only written for characters
present in the input or the pre-set character 0). -/
structure AlphabetMapping where
  to_ascii : List Nat
  from_ascii : List Nat
  deriving Repr

/-- `AlphabetMapping::generate`: `exists[0] = true`, `exists[c] = true`
for every input byte, then enumerate the existing characters in order,
writing `from_ascii[character] = counter` and
`to_ascii[counter] = character`. -/
def AlphabetMapping.generate (input : List Nat) : AlphabetMapping :=
  let existing := (List.range 256).filter (fun c => c == 0 || input.contains c)
  { to_ascii := (List.range 256).map (fun counter => existing.getD counter 0)
    from_ascii := (List.range 256).map (fun ch =>
      if existing.contains ch then existing.findIdx (fun x => x == ch) else 0) }

/-- `num_bits` of `block_tree/construction.rs`:
`((v + 1) as f64).log2().ceil()`, exact for the sizes in scope. -/
def num_bits (v : Nat) : Nat := if v = 0 then 0 else ilog2 v + 1

/-- `⌈log₂ n⌉` for `n ≥ 1`, the width expression of the spec's packed
vectors. -/
def ceil_log2 (n : Nat) : Nat := num_bits (n - 1)

/-- Modelled from the spec: `collect` into a packed integer vector
(`FromIterator for DynamicIntVec` is absent from the snapshot).  The
spec fixes the width per call site — back pointers
`⌈log₂(number of internal blocks on this level)⌉`, offsets
`⌈log₂(level_block_size)⌉`, the leaf string `⌈log₂ σ⌉` — so the
collector takes that width and pushes the elements in order; every
element stored below is smaller than `2^width`, so the push mask never
truncates and `get` returns the collected values unchanged. -/
def dynIntVecCollect (width : Nat) (l : List Nat) : DynamicIntVec :=
  DynamicIntVec.pushList (DynamicIntVec.with_capacity width l.length) l

/-- `collect::<BitVec>()` from an exact-sized boolean iterator: the
`size_hint` upper bound equals the true length, so this is
`from_iter_bounded` at that bound (whose checked `set`s at indices below
the length never fail, making the error branch unreachable). -/
def bitVecCollect (l : List Bool) : BitVec :=
  match BitVec.from_iter_bounded l l.length with
  | Except.ok bv => bv
  | Except.error _ => BitVec.new 0

/-- `BitGet::get_bit` for `FlatPopcount`: delegate to the backing bit
vector's checked read. -/
def FlatPopcount.get_bit (fp : FlatPopcount) (index : Nat) :
    Except String Bool :=
  fp.backing.get_bit index

/-- The compact `BlockTree` (rank fields omitted, see above). -/
structure BlockTree where
  input_length : Nat
  arity : Nat
  leaf_length : Nat
  mapping : AlphabetMapping
  level_block_sizes : List Nat
  level_block_count : List Nat
  is_internal : List FlatPopcount
  back_pointers : List DynamicIntVec
  offsets : List DynamicIntVec
  leaf_string : DynamicIntVec

/-- `BlockTree::top_level_index`: the first level holding a non-internal
block, capped at the last level. -/
def top_level_index (pbt : PointerBlockTree) : Nat :=
  min (pbt.levels.findIdx (fun lvl =>
    lvl.any (fun id => (blocksGet pbt.blocks id).back)))
    (pbt.levels.length - 1)

/-- `BlockTree::process_pbt_level`: on the deepest level, the leaf string
(the blocks' input spans mapped through `from_ascii`, concatenated in
level order); on every level, the is-internal bits wrapped in a
flat-popcount index, the back pointers
`is_internal.rank::<false>(blocks[source].index)` of the back blocks in
level order, and their offsets. -/
def process_pbt_level (pbt : PointerBlockTree) (bt : BlockTree)
    (level_index : Nat) : BlockTree :=
  let level := (pbt.levels.getD level_index []).map (blocksGet pbt.blocks)
  let sigma := ((List.range 256).filter
    (fun c => c == 0 || pbt.input.contains c)).length
  let ls := dynIntVecCollect (ceil_log2 sigma)
    ((level.map (fun b =>
      ((pbt.input.drop b.start).take b.len).map
        (fun byte => bt.mapping.from_ascii.getD byte 0))).flatten)
  let bt1 :=
    if level_index == pbt.levels.length - 1 then { bt with leaf_string := ls }
    else bt
  let isi := FlatPopcount.new (bitVecCollect (level.map (fun b => !b.back)))
  let backs := level.filter (fun b => b.back)
  let num_internal := (level.filter (fun b => !b.back)).length
  let bp := dynIntVecCollect (ceil_log2 num_internal)
    (backs.map (fun b =>
      isi.rank false (blocksGet pbt.blocks (b.source.getD 0)).index))
  let offs := dynIntVecCollect
    (ceil_log2 (pbt.level_block_sizes.getD level_index 0))
    (backs.map (fun b => b.offset.getD 0))
  { bt1 with is_internal := bt1.is_internal ++ [isi],
             back_pointers := bt1.back_pointers ++ [bp],
             offsets := bt1.offsets ++ [offs] }

/-- `BlockTree::construct` (called with `rank = true` by the `From`
impl; `calculate_top_level_ranks` only fills the omitted rank fields). -/
def BlockTree.construct (pbt : PointerBlockTree) : BlockTree :=
  let tli := top_level_index pbt
  let bt0 : BlockTree :=
    { input_length := pbt.input.length, arity := pbt.arity,
      leaf_length := pbt.leaf_length,
      mapping := AlphabetMapping.generate pbt.input,
      level_block_sizes := pbt.level_block_sizes.drop tli,
      level_block_count := pbt.level_block_count.drop tli,
      is_internal := [], back_pointers := [], offsets := [],
      leaf_string := DynamicIntVec.with_capacity 1 0 }
  (List.range (pbt.levels.length - tli)).foldl
    (fun bt k => process_pbt_level pbt bt (tli + k)) bt0

/-- `BlockTree::new` (the `arity > 1`, `leaf_length > 0` asserts hold at
every use below). -/
def BlockTree.new (input : List Nat) (arity leaf_length : Nat) : BlockTree :=
  BlockTree.construct (PointerBlockTree.new input arity leaf_length)

/-- The `while current_level < self.level_block_sizes.len() - 1` loop of
`BlockTree::access` (mod.rs lines 70-90), carrying
`(current_level, i, next_level_block_size, block_idx)`.  The checked
reads surface the source's panics as errors: the flat-popcount
`get_bit`, the packed `get`s and the `select(...).unwrap()`; the
internal branch's `i -= block_idx * next_level_block_size` underflow is
the debug-build subtraction panic (a release build would wrap — either
way the walk does not deliver `text[i]`).  The source loop has no
termination guarantee (the back branch keeps the level); the fuel is
ample for the runs below, and exhausting it is reported as a distinct
error. -/
def access_loop (bt : BlockTree) :
    Nat → Nat → Nat → Nat → Nat → Except String (Nat × Nat × Nat)
  | 0, _, _, _, _ => Except.error "model fuel exhausted"
  | fuel + 1, current_level, i, next_size, block_idx =>
    if current_level < bt.level_block_sizes.length - 1 then
      let nxt := bt.level_block_sizes.getD (current_level + 1) 0
      let fp := bt.is_internal.getD current_level (FlatPopcount.new (BitVec.new 0))
      let bidx := i / nxt
      match fp.get_bit bidx with
      | Except.error e => Except.error e
      | Except.ok true =>
        let internal_rank := fp.rank true bidx
        let children_start := bt.arity * internal_rank
        let child_index := i / nxt
        let bidx2 := children_start + child_index
        if bidx2 * nxt ≤ i then
          access_loop bt fuel (current_level + 1) (i - bidx2 * nxt) nxt bidx2
        else Except.error "attempt to subtract with overflow"
      | Except.ok false =>
        let back_rank := fp.rank false bidx
        match (bt.back_pointers.getD current_level (DynamicIntVec.new 1)).get
            back_rank with
        | Except.error e => Except.error e
        | Except.ok source =>
          match (bt.offsets.getD current_level (DynamicIntVec.new 1)).get
              back_rank with
          | Except.error e => Except.error e
          | Except.ok off =>
            match fp.select find_l2_binary source with
            | none => Except.error "called Option::unwrap on a None value"
            | some b => access_loop bt fuel current_level off nxt b
    else Except.ok (next_size, block_idx, i)

/-- `BlockTree::access`: run the walk from level 0 (the initial
`i -= 0 * size` is a no-op), then read the leaf string at
`leaf_size * block_idx + i` and map back through `to_ascii` (the `as u8`
cast is the mod-256 reduction). -/
def BlockTree.access (bt : BlockTree) (i : Nat) : Except String Nat :=
  match access_loop bt (bt.input_length + bt.level_block_sizes.length + 8) 0 i
      (bt.level_block_sizes.getD 0 0) 0 with
  | Except.error e => Except.error e
  | Except.ok r =>
    match bt.leaf_string.get (r.1 * r.2.1 + r.2.2) with
    | Except.error e => Except.error e
    | Except.ok unmapped => Except.ok (bt.mapping.to_ascii.getD (unmapped % 256) 0)

/-- The text of the C1 counterexample: `"ab"` repeated 16 times (bytes
97, 98). -/
def c1_text : List Nat := (List.replicate 16 [97, 98]).flatten

/-- The block tree of the C1 counterexample: `BlockTree::new(text, 2, 4)`
over `c1_text`. -/
def c1_bt : BlockTree := BlockTree.new c1_text 2 4

/-! ### Theorems -/

theorem radixVal_lt (B : Nat) (l : List Nat) (h : ∀ v ∈ l, v < B) :
    radixVal B l < B ^ l.length := by
  induction l with
  | nil => simp [radixVal]
  | cons v vs ih =>
    have hv := h v (List.mem_cons_self ..)
    have hrest := ih (fun x hx => h x (List.mem_cons_of_mem _ hx))
    calc v + B * radixVal B vs < B + B * radixVal B vs := by omega
    _ = B * (radixVal B vs + 1) := by ring
    _ ≤ B * B ^ vs.length := Nat.mul_le_mul_left B hrest
    _ = B ^ (v :: vs).length := by rw [List.length_cons, pow_succ, mul_comm]

theorem radixVal_append (B : Nat) (l1 l2 : List Nat) :
    radixVal B (l1 ++ l2) = radixVal B l1 + B ^ l1.length * radixVal B l2 := by
  induction l1 with
  | nil => simp [radixVal]
  | cons v vs ih => simp [radixVal, ih, pow_succ]; ring

/-- Digit extraction: the `i`-th base-`B` digit of a digit-list value. -/
theorem radixVal_div_pow_mod (B : Nat) (l : List Nat) (h : ∀ v ∈ l, v < B)
    (i : Nat) : radixVal B l / B ^ i % B = l.getD i 0 := by
  induction l generalizing i with
  | nil =>
    simp [radixVal, Nat.zero_div, Nat.zero_mod]
  | cons v vs ih =>
    have hv := h v (List.mem_cons_self ..)
    have hB : 0 < B := by omega
    cases i with
    | zero =>
      simp only [pow_zero, Nat.div_one, List.getD_cons_zero, radixVal]
      rw [Nat.add_mul_mod_self_left, Nat.mod_eq_of_lt hv]
    | succ i =>
      have : radixVal B (v :: vs) / B ^ (i + 1) = radixVal B vs / B ^ i := by
        rw [pow_succ, mul_comm (B ^ i) B, ← Nat.div_div_eq_div_mul]
        congr 1
        show (v + B * radixVal B vs) / B = radixVal B vs
        rw [Nat.add_mul_div_left _ _ hB, Nat.div_eq_of_lt hv, Nat.zero_add]
      rw [this, List.getD_cons_succ]
      exact ih (fun x hx => h x (List.mem_cons_of_mem _ hx)) i

theorem wordsVal_lt (l : List Nat) (h : ∀ x ∈ l, x < 2 ^ 64) :
    wordsVal l < 2 ^ (64 * l.length) := by
  have := radixVal_lt (2 ^ 64) l h
  rwa [← pow_mul] at this

/-- Word extraction from a canonical word array (holds for out-of-range
indices as well, where both sides are zero). -/
theorem wordsVal_getD (l : List Nat) (h : ∀ x ∈ l, x < 2 ^ 64) (i : Nat) :
    l.getD i 0 = wordsVal l / 2 ^ (64 * i) % 2 ^ 64 := by
  have := radixVal_div_pow_mod (2 ^ 64) l h i
  rw [← pow_mul] at this
  exact this.symm

theorem wordsVal_append (l1 l2 : List Nat) :
    wordsVal (l1 ++ l2) = wordsVal l1 + 2 ^ (64 * l1.length) * wordsVal l2 := by
  have := radixVal_append (2 ^ 64) l1 l2
  rwa [← pow_mul] at this

/-- Disjoint `|||` is addition: low part below `2 ^ n`, high part a
multiple of `2 ^ n`. -/
theorem lor_mul_two_pow_eq_add (n a b : Nat) (ha : a < 2 ^ n) :
    a ||| b * 2 ^ n = a + b * 2 ^ n := by
  apply Nat.eq_of_testBit_eq
  intro i
  rw [Nat.testBit_lor]
  rcases Nat.lt_or_ge i n with hin | hin
  · have h1 : (b * 2 ^ n).testBit i = false := by
      rw [← Nat.shiftLeft_eq, Nat.testBit_shiftLeft]
      have : ¬ n ≤ i := by omega
      simp [this]
    have h2 : a.testBit i = (a + b * 2 ^ n).testBit i := by
      have e : (a + b * 2 ^ n) % 2 ^ n = a := by
        rw [Nat.add_mul_mod_self_right, Nat.mod_eq_of_lt ha]
      have hm := Nat.testBit_mod_two_pow (a + b * 2 ^ n) n i
      rw [e] at hm
      rw [hm]
      simp [hin]
    rw [h1, Bool.or_false]
    exact h2
  · have h2 : a.testBit i = false :=
      Nat.testBit_lt_two_pow (Nat.lt_of_lt_of_le ha (Nat.pow_le_pow_right (by omega) hin))
    have h3 : (b * 2 ^ n).testBit i = b.testBit (i - n) := by
      rw [← Nat.shiftLeft_eq, Nat.testBit_shiftLeft]
      simp [hin]
    have e : (a + b * 2 ^ n) >>> n = b := by
      rw [Nat.shiftRight_eq_div_pow,
        Nat.add_mul_div_right _ _ (Nat.pos_pow_of_pos n (by omega)),
        Nat.div_eq_of_lt ha, Nat.zero_add]
    have h4 : (a + b * 2 ^ n).testBit i = b.testBit (i - n) := by
      calc (a + b * 2 ^ n).testBit i = (a + b * 2 ^ n).testBit (n + (i - n)) := by
            congr 1
            omega
      _ = ((a + b * 2 ^ n) >>> n).testBit (i - n) := (Nat.testBit_shiftRight ..).symm
      _ = b.testBit (i - n) := by rw [e]
    rw [h2, Bool.false_or, h3, h4]

/-- Splitting a truncation `x % 2 ^ (a + b)` into a low and a high part. -/
theorem mod_pow_add_decomp (x a b : Nat) :
    x % 2 ^ (a + b) = x % 2 ^ a + 2 ^ a * (x / 2 ^ a % 2 ^ b) := by
  rw [pow_add]
  exact Nat.mod_mul

/-- Dividing a truncated value: `a ≤ m`. -/
theorem mod_pow_div_pow (x m a : Nat) (h : a ≤ m) :
    x % 2 ^ m / 2 ^ a = x / 2 ^ a % 2 ^ (m - a) := by
  have : (2 : Nat) ^ m = 2 ^ a * 2 ^ (m - a) := by rw [← pow_add]; congr 1; omega
  rw [this]
  exact Nat.mod_mul_right_div_self x (2 ^ a) (2 ^ (m - a))

theorem mod_pow_mod_pow (x m a : Nat) (h : a ≤ m) :
    x % 2 ^ m % 2 ^ a = x % 2 ^ a :=
  Nat.mod_mod_of_dvd x (pow_dvd_pow 2 h)

theorem and_mask_eq_mod (x w : Nat) : x &&& (1 <<< w - 1) = x % 2 ^ w := by
  rw [Nat.shiftLeft_eq, Nat.one_mul]
  exact Nat.and_pow_two_sub_one_eq_mod x w

/-- `get_unchecked_with_width` reads the bit range `[i·w, (i+1)·w)` of the
word-array value (for any `i`; out-of-range reads see zeros on both
sides). -/
theorem extract_nocross (N b off w : Nat) (hnc : off + w < 64) :
    ((N / 2 ^ (64 * b) % 2 ^ 64) >>> off) &&& (1 <<< w - 1) =
    N / 2 ^ (64 * b + off) % 2 ^ w := by
  rw [and_mask_eq_mod, Nat.shiftRight_eq_div_pow, mod_pow_div_pow _ 64 off (by omega),
    mod_pow_mod_pow _ _ _ (by omega), Nat.div_div_eq_div_mul, ← pow_add]

theorem extract_cross (N b off w : Nat) (hoff : off < 64) (hw : w ≤ 64)
    (hcross : 64 ≤ off + w) :
    ((N / 2 ^ (64 * (b + 1)) % 2 ^ 64) &&& (1 <<< (w - (64 - off)) - 1)) <<< (64 - off) |||
      ((N / 2 ^ (64 * b) % 2 ^ 64) >>> off) =
    N / 2 ^ (64 * b + off) % 2 ^ w := by
  have hhi : (N / 2 ^ (64 * (b + 1)) % 2 ^ 64) &&& (1 <<< (w - (64 - off)) - 1) =
      N / 2 ^ (64 * (b + 1)) % 2 ^ (w - (64 - off)) := by
    rw [and_mask_eq_mod, mod_pow_mod_pow _ _ _ (by omega)]
  have hlo : (N / 2 ^ (64 * b) % 2 ^ 64) >>> off =
      N / 2 ^ (64 * b + off) % 2 ^ (64 - off) := by
    rw [Nat.shiftRight_eq_div_pow, mod_pow_div_pow _ 64 off (by omega),
      Nat.div_div_eq_div_mul, ← pow_add]
  rw [hhi, hlo, Nat.shiftLeft_eq, Nat.lor_comm,
    lor_mul_two_pow_eq_add (64 - off) _ _ (Nat.mod_lt _ (Nat.pos_pow_of_pos _ (by omega)))]
  have hsplit : w = (64 - off) + (w - (64 - off)) := by omega
  conv_rhs => rw [hsplit]
  rw [mod_pow_add_decomp]
  have hdd : N / 2 ^ (64 * b + off) / 2 ^ (64 - off) = N / 2 ^ (64 * (b + 1)) := by
    rw [Nat.div_div_eq_div_mul, ← pow_add]
    congr 2
    omega
  rw [hdd]
  ring

/-- `get_unchecked_with_width` reads the bit range `[i·w, (i+1)·w)` of the
word-array value (for any `i`; out-of-range reads see zeros on both
sides). -/
theorem get_unchecked_with_width_eq (s : DynamicIntVec)
    (hwords : ∀ x ∈ s.data, x < 2 ^ 64) (i w : Nat) (hw : w ≤ 64) :
    s.get_unchecked_with_width i w = wordsVal s.data / 2 ^ (i * w) % 2 ^ w := by
  have hgetD : ∀ j, s.data.getD j 0 = wordsVal s.data / 2 ^ (64 * j) % 2 ^ 64 :=
    fun j => wordsVal_getD s.data hwords j
  have hoff : i * w % 64 < 64 := Nat.mod_lt _ (by omega)
  have hdm : 64 * (i * w / 64) + i * w % 64 = i * w := by omega
  rw [DynamicIntVec.get_unchecked_with_width]
  by_cases hcross : i * w % DynamicIntVec.block_width + w ≥ DynamicIntVec.block_width
  · rw [if_pos hcross]
    show (s.data.getD (i * w / 64 + 1) 0 &&& (1 <<< (w - (64 - i * w % 64)) - 1)) <<<
        (64 - i * w % 64) ||| s.data.getD (i * w / 64) 0 >>> (i * w % 64) = _
    rw [hgetD, hgetD, extract_cross _ _ _ _ hoff hw hcross, hdm]
  · rw [if_neg hcross]
    show s.data.getD (i * w / 64) 0 >>> (i * w % 64) &&& (1 <<< w - 1) = _
    have hnc : i * w % 64 + w < 64 := by
      have := hcross
      simp only [DynamicIntVec.block_width, ge_iff_le, not_le] at this
      exact this
    rw [hgetD, extract_nocross _ _ _ _ hnc, hdm]

/-- Fetching an element through the packing invariant. -/
theorem Packed.get_eq {w : Nat} {vs : List Nat} {s : DynamicIntVec}
    (h : Packed w vs s) (hvals : ∀ v ∈ vs, v < 2 ^ w) (hw : w ≤ 64) (i : Nat) :
    s.get_unchecked i = vs.getD i 0 := by
  rw [DynamicIntVec.get_unchecked, h.hwidth,
    get_unchecked_with_width_eq s h.hwords i w hw, h.hval]
  have := radixVal_div_pow_mod (2 ^ w) vs hvals i
  rwa [← pow_mul, mul_comm w i] at this

theorem wordsVal_single (x : Nat) : wordsVal [x] = x := by
  simp [wordsVal, radixVal]

theorem mem_of_mem_dropLast {α : Type} {l : List α} {x : α}
    (h : x ∈ l.dropLast) : x ∈ l :=
  (List.dropLast_sublist (l := l)).subset h

/-- `with_capacity` establishes the packing invariant for the empty
element list (for every requested capacity). -/
theorem packed_with_capacity (w c : Nat) :
    Packed w [] (DynamicIntVec.with_capacity w c) := by
  refine ⟨rfl, rfl, by simp [DynamicIntVec.with_capacity], ?_, ?_⟩
  · simp [DynamicIntVec.with_capacity, wordsVal, radixVal]
  · intro x hx
    simp [DynamicIntVec.with_capacity] at hx
    subst hx
    exact Nat.pos_pow_of_pos _ (by omega)

/-- `push` preserves the packing invariant and appends the value. -/
theorem Packed.push {w : Nat} {vs : List Nat} {s : DynamicIntVec}
    (h : Packed w vs s) (hvals : ∀ x ∈ vs, x < 2 ^ w) {v : Nat} (hv : v < 2 ^ w)
    (hw1 : 1 ≤ w) (hw2 : w ≤ 63) : Packed w (vs ++ [v]) (s.push v) := by
  have hNlt : wordsVal s.data < 2 ^ (vs.length * w) := by
    rw [h.hval, mul_comm, pow_mul]
    exact radixVal_lt _ _ hvals
  have hnonempty : s.data ≠ [] := by
    have hl := h.hlen
    intro hc
    rw [hc] at hl
    simp at hl
  have hdlen : s.data.dropLast.length = vs.length * w / 64 := by
    rw [List.length_dropLast, h.hlen]
    omega
  have hdecomp : s.data.dropLast ++ [s.data.getLast hnonempty] = s.data :=
    List.dropLast_append_getLast hnonempty
  have hDval : wordsVal s.data.dropLast +
      2 ^ (64 * (vs.length * w / 64)) * s.data.getLast hnonempty = wordsVal s.data := by
    conv_rhs => rw [← hdecomp]
    rw [wordsVal_append, wordsVal_single, hdlen]
  have hDwords : ∀ x ∈ s.data.dropLast, x < 2 ^ 64 :=
    fun x hx => h.hwords x (mem_of_mem_dropLast hx)
  have hDlt : wordsVal s.data.dropLast < 2 ^ (64 * (vs.length * w / 64)) := by
    have hx := wordsVal_lt _ hDwords
    rwa [hdlen] at hx
  have hgval : s.data.getLast hnonempty =
      wordsVal s.data / 2 ^ (64 * (vs.length * w / 64)) := by
    rw [← hDval, Nat.add_mul_div_left _ _ (Nat.pos_pow_of_pos _ (by omega)),
      Nat.div_eq_of_lt hDlt, Nat.zero_add]
  have horlast : ∀ x : Nat, DynamicIntVec.orLast s.data x =
      s.data.dropLast ++ [s.data.getLast hnonempty ||| x] := by
    intro x
    rw [DynamicIntVec.orLast]
    congr 2
    rw [List.getLast?_eq_getLast s.data hnonempty]
    rfl
  have hoffval : s.current_offset = vs.length * w % 64 := by
    rw [DynamicIntVec.current_offset, h.hsize, h.hwidth]
    rfl
  have hmask : v &&& s.mask = v := by
    rw [DynamicIntVec.mask, h.hwidth, and_mask_eq_mod, Nat.mod_eq_of_lt hv]
  have hradix : radixVal (2 ^ w) (vs ++ [v]) =
      wordsVal s.data + 2 ^ (vs.length * w) * v := by
    rw [radixVal_append, h.hval]
    simp [radixVal, mul_comm vs.length w, pow_mul]
  have hLw1 : (vs ++ [v]).length * w = vs.length * w + w := by
    simp
    ring
  rw [DynamicIntVec.push]
  by_cases hoff0 : s.current_offset = 0
  · rw [if_pos hoff0]
    rw [hoffval] at hoff0
    have h64L : 64 * (vs.length * w / 64) = vs.length * w := by omega
    have hg0 : s.data.getLast hnonempty = 0 := by
      rw [hgval, h64L]
      exact Nat.div_eq_of_lt hNlt
    refine ⟨h.hwidth, ?_, ?_, ?_, ?_⟩
    · show s.size + 1 = (vs ++ [v]).length
      rw [h.hsize]
      simp
    · show (DynamicIntVec.orLast s.data (v &&& s.mask)).length = _
      rw [horlast, List.length_append, hdlen, hLw1]
      simp only [List.length_cons, List.length_nil]
      omega
    · show wordsVal (DynamicIntVec.orLast s.data (v &&& s.mask)) = _
      rw [horlast, wordsVal_append, wordsVal_single, hdlen, hg0, Nat.zero_or,
        hmask, hradix, ← hDval, hg0, h64L]
      ring
    · intro x hx
      rw [horlast] at hx
      rcases List.mem_append.mp hx with hx | hx
      · exact hDwords x hx
      · simp at hx
        subst hx
        rw [hg0, Nat.zero_or, hmask]
        exact Nat.lt_of_lt_of_le hv (Nat.pow_le_pow_right (by omega) (by omega))
  · rw [if_neg hoff0]
    rw [hoffval] at hoff0
    have hoff64 : vs.length * w % 64 < 64 := Nat.mod_lt _ (by omega)
    have hglt : s.data.getLast hnonempty < 2 ^ (vs.length * w % 64) := by
      rw [hgval]
      apply Nat.div_lt_of_lt_mul
      rw [← pow_add]
      have he : 64 * (vs.length * w / 64) + vs.length * w % 64 = vs.length * w := by
        omega
      rwa [he]
    have hpow_off : 2 ^ (64 * (vs.length * w / 64)) * 2 ^ (vs.length * w % 64) =
        2 ^ (vs.length * w) := by
      rw [← pow_add]
      congr 1
      omega
    by_cases hwrap : s.current_offset + s.width ≥ DynamicIntVec.block_width
    · rw [if_pos hwrap]
      rw [hoffval, h.hwidth] at hwrap
      have hwrap' : 64 ≤ vs.length * w % 64 + w := hwrap
      have hfit : DynamicIntVec.block_width - s.current_offset = 64 - vs.length * w % 64 := by
        rw [hoffval]
        rfl
      have hlor : s.data.getLast hnonempty |||
          (v &&& (1 <<< (DynamicIntVec.block_width - s.current_offset) - 1)) <<< s.current_offset =
          s.data.getLast hnonempty +
            v % 2 ^ (64 - vs.length * w % 64) * 2 ^ (vs.length * w % 64) := by
        rw [hfit, and_mask_eq_mod, Nat.shiftLeft_eq, hoffval]
        exact lor_mul_two_pow_eq_add _ _ _ hglt
      have hhi : (v &&& s.mask) >>> (DynamicIntVec.block_width - s.current_offset) =
          v / 2 ^ (64 - vs.length * w % 64) := by
        rw [hmask, hfit, Nat.shiftRight_eq_div_pow]
      refine ⟨h.hwidth, ?_, ?_, ?_, ?_⟩
      · show s.size + 1 = (vs ++ [v]).length
        rw [h.hsize]
        simp
      · show (DynamicIntVec.orLast s.data _ ++ [(v &&& s.mask) >>> _]).length = _
        rw [horlast, hLw1]
        simp only [List.length_append, List.length_cons, List.length_nil, hdlen]
        omega
      · show wordsVal (DynamicIntVec.orLast s.data _ ++ [(v &&& s.mask) >>> _]) = _
        rw [horlast, hhi, List.append_assoc, wordsVal_append, hdlen, wordsVal_append,
          wordsVal_single, wordsVal_single, hlor, hradix, ← hDval]
        have e2 : 2 ^ (64 * (vs.length * w / 64)) * 2 ^ 64 =
            2 ^ (vs.length * w) * 2 ^ (64 - vs.length * w % 64) := by
          rw [← pow_add, ← pow_add]
          congr 1
          omega
        have hvsplit : v % 2 ^ (64 - vs.length * w % 64) +
            2 ^ (64 - vs.length * w % 64) * (v / 2 ^ (64 - vs.length * w % 64)) = v :=
          Nat.mod_add_div _ _
        calc wordsVal s.data.dropLast + 2 ^ (64 * (vs.length * w / 64)) *
              (s.data.getLast hnonempty +
                v % 2 ^ (64 - vs.length * w % 64) * 2 ^ (vs.length * w % 64) +
                2 ^ 64 * (v / 2 ^ (64 - vs.length * w % 64)))
            = wordsVal s.data.dropLast +
              2 ^ (64 * (vs.length * w / 64)) * s.data.getLast hnonempty +
              (2 ^ (64 * (vs.length * w / 64)) * 2 ^ (vs.length * w % 64)) *
                (v % 2 ^ (64 - vs.length * w % 64)) +
              (2 ^ (64 * (vs.length * w / 64)) * 2 ^ 64) *
                (v / 2 ^ (64 - vs.length * w % 64)) := by ring
        _ = wordsVal s.data.dropLast +
              2 ^ (64 * (vs.length * w / 64)) * s.data.getLast hnonempty +
              2 ^ (vs.length * w) *
                (v % 2 ^ (64 - vs.length * w % 64) +
                  2 ^ (64 - vs.length * w % 64) * (v / 2 ^ (64 - vs.length * w % 64))) := by
              rw [hpow_off, e2]
              ring
        _ = wordsVal s.data.dropLast +
              2 ^ (64 * (vs.length * w / 64)) * s.data.getLast hnonempty +
              2 ^ (vs.length * w) * v := by rw [hvsplit]
      · intro x hx
        dsimp only [DynamicIntVec.recalculate_capacity] at hx
        rw [horlast, List.append_assoc] at hx
        rcases List.mem_append.mp hx with hx | hx
        · exact hDwords x hx
        · simp at hx
          rcases hx with hx | hx
          · subst hx
            rw [hlor]
            have h2 : v % 2 ^ (64 - vs.length * w % 64) ≤
                2 ^ (64 - vs.length * w % 64) - 1 := by
              have hp := Nat.mod_lt v (y := 2 ^ (64 - vs.length * w % 64))
                (Nat.pos_pow_of_pos _ (by omega))
              omega
            have h4 : v % 2 ^ (64 - vs.length * w % 64) * 2 ^ (vs.length * w % 64) ≤
                (2 ^ (64 - vs.length * w % 64) - 1) * 2 ^ (vs.length * w % 64) :=
              Nat.mul_le_mul_right _ h2
            have hsub : (2 ^ (64 - vs.length * w % 64) - 1) * 2 ^ (vs.length * w % 64) =
                2 ^ (64 - vs.length * w % 64) * 2 ^ (vs.length * w % 64) -
                  2 ^ (vs.length * w % 64) := by
              rw [Nat.sub_mul, Nat.one_mul]
            have hprod : 2 ^ (64 - vs.length * w % 64) * 2 ^ (vs.length * w % 64) =
                2 ^ 64 := by
              rw [← pow_add]
              congr 1
              omega
            have hop : 1 ≤ 2 ^ (vs.length * w % 64) := Nat.pos_pow_of_pos _ (by omega)
            have hg2 : s.data.getLast hnonempty ≤ 2 ^ (vs.length * w % 64) - 1 := by
              omega
            have hPle : 2 ^ (vs.length * w % 64) ≤
                2 ^ (64 - vs.length * w % 64) * 2 ^ (vs.length * w % 64) :=
              Nat.le_mul_of_pos_left _ (Nat.pos_pow_of_pos _ (by omega))
            calc s.data.getLast hnonempty +
                v % 2 ^ (64 - vs.length * w % 64) * 2 ^ (vs.length * w % 64)
                ≤ 2 ^ (vs.length * w % 64) - 1 +
                  (2 ^ (64 - vs.length * w % 64) - 1) * 2 ^ (vs.length * w % 64) :=
                  Nat.add_le_add hg2 h4
            _ = 2 ^ (vs.length * w % 64) - 1 +
                  (2 ^ (64 - vs.length * w % 64) * 2 ^ (vs.length * w % 64) -
                    2 ^ (vs.length * w % 64)) := by rw [hsub]
            _ < 2 ^ 64 := by omega
          · subst hx
            rw [hhi]
            have hlt : v / 2 ^ (64 - vs.length * w % 64) <
                2 ^ (w - (64 - vs.length * w % 64)) := by
              apply Nat.div_lt_of_lt_mul
              rw [← pow_add]
              have he : 64 - vs.length * w % 64 + (w - (64 - vs.length * w % 64)) = w := by
                omega
              rwa [he]
            exact Nat.lt_of_lt_of_le hlt (Nat.pow_le_pow_right (by omega) (by omega))
    · rw [if_neg hwrap]
      rw [hoffval, h.hwidth] at hwrap
      have hwrap' : vs.length * w % 64 + w < 64 := by
        simp only [DynamicIntVec.block_width, ge_iff_le, not_le] at hwrap
        exact hwrap
      have hlor : s.data.getLast hnonempty ||| (v &&& s.mask) <<< s.current_offset =
          s.data.getLast hnonempty + v * 2 ^ (vs.length * w % 64) := by
        rw [hmask, Nat.shiftLeft_eq, hoffval]
        exact lor_mul_two_pow_eq_add _ _ _ hglt
      refine ⟨h.hwidth, ?_, ?_, ?_, ?_⟩
      · show s.size + 1 = (vs ++ [v]).length
        rw [h.hsize]
        simp
      · show (DynamicIntVec.orLast s.data _).length = _
        rw [horlast, List.length_append, hdlen, hLw1]
        simp only [List.length_cons, List.length_nil]
        omega
      · show wordsVal (DynamicIntVec.orLast s.data _) = _
        rw [horlast, wordsVal_append, wordsVal_single, hdlen, hlor, hradix, ← hDval]
        calc wordsVal s.data.dropLast + 2 ^ (64 * (vs.length * w / 64)) *
              (s.data.getLast hnonempty + v * 2 ^ (vs.length * w % 64))
            = wordsVal s.data.dropLast +
              2 ^ (64 * (vs.length * w / 64)) * s.data.getLast hnonempty +
              (2 ^ (64 * (vs.length * w / 64)) * 2 ^ (vs.length * w % 64)) * v := by ring
        _ = wordsVal s.data.dropLast +
              2 ^ (64 * (vs.length * w / 64)) * s.data.getLast hnonempty +
              2 ^ (vs.length * w) * v := by rw [hpow_off]
      · intro x hx
        rw [horlast] at hx
        rcases List.mem_append.mp hx with hx | hx
        · exact hDwords x hx
        · simp at hx
          subst hx
          rw [hlor]
          have h2 : v ≤ 2 ^ w - 1 := by omega
          have h4 : v * 2 ^ (vs.length * w % 64) ≤ (2 ^ w - 1) * 2 ^ (vs.length * w % 64) :=
            Nat.mul_le_mul_right _ h2
          have hsub : (2 ^ w - 1) * 2 ^ (vs.length * w % 64) =
              2 ^ w * 2 ^ (vs.length * w % 64) - 2 ^ (vs.length * w % 64) := by
            rw [Nat.sub_mul, Nat.one_mul]
          have hle : 2 ^ w * 2 ^ (vs.length * w % 64) ≤ 2 ^ 64 := by
            rw [← pow_add]
            exact Nat.pow_le_pow_right (by omega) (by omega)
          have hop : 1 ≤ 2 ^ (vs.length * w % 64) := Nat.pos_pow_of_pos _ (by omega)
          have hPQ : 2 ^ (vs.length * w % 64) ≤ 2 ^ w * 2 ^ (vs.length * w % 64) :=
            Nat.le_mul_of_pos_left _ (Nat.pos_pow_of_pos _ (by omega))
          have hg2 : s.data.getLast hnonempty ≤ 2 ^ (vs.length * w % 64) - 1 := by omega
          calc s.data.getLast hnonempty + v * 2 ^ (vs.length * w % 64)
              ≤ 2 ^ (vs.length * w % 64) - 1 +
                (2 ^ w - 1) * 2 ^ (vs.length * w % 64) := Nat.add_le_add hg2 h4
          _ = 2 ^ (vs.length * w % 64) - 1 +
                (2 ^ w * 2 ^ (vs.length * w % 64) - 2 ^ (vs.length * w % 64)) := by
              rw [hsub]
          _ < 2 ^ 64 := by omega

/-- Pushing a list of in-range values onto a packed vector. -/
theorem packed_pushList {w : Nat} (hw1 : 1 ≤ w) (hw2 : w ≤ 63) :
    ∀ (vs pre : List Nat) (s : DynamicIntVec), Packed w pre s →
      (∀ x ∈ pre, x < 2 ^ w) → (∀ v ∈ vs, v < 2 ^ w) →
      Packed w (pre ++ vs) (s.pushList vs) := by
  intro vs
  induction vs with
  | nil =>
    intro pre s h _ _
    simpa [DynamicIntVec.pushList] using h
  | cons v vs ih =>
    intro pre s h hpre hvs
    have hv : v < 2 ^ w := hvs v (List.mem_cons_self ..)
    have hstep : Packed w (pre ++ [v]) (s.push v) :=
      Packed.push h hpre hv hw1 hw2
    have hpre' : ∀ x ∈ pre ++ [v], x < 2 ^ w := by
      intro x hx
      rcases List.mem_append.mp hx with hx | hx
      · exact hpre x hx
      · simp at hx
        subst hx
        exact hv
    have := ih (pre ++ [v]) (s.push v) hstep hpre'
      (fun x hx => hvs x (List.mem_cons_of_mem _ hx))
    rwa [List.append_assoc, List.singleton_append] at this

/-- Claim C4: for every width `w ∈ [1, 63]`, pushing any sequence of
values below `2 ^ w` into a fresh packed vector (any initial capacity)
and reading index `i` back returns exactly the `i`-th pushed value. -/
theorem C4_push_get_roundtrip (w : Nat) (hw1 : 1 ≤ w) (hw2 : w ≤ 63) (c : Nat)
    (vs : List Nat) (hvs : ∀ v ∈ vs, v < 2 ^ w) (i : Nat) (hi : i < vs.length) :
    ((DynamicIntVec.with_capacity w c).pushList vs).get i = Except.ok (vs.getD i 0) := by
  have hp : Packed w vs ((DynamicIntVec.with_capacity w c).pushList vs) := by
    have := packed_pushList hw1 hw2 vs [] (DynamicIntVec.with_capacity w c)
      (packed_with_capacity w c) (by intro x hx; simp at hx) hvs
    simpa using this
  have hlen : ((DynamicIntVec.with_capacity w c).pushList vs).len = vs.length := by
    rw [DynamicIntVec.len, hp.hsize]
  rw [DynamicIntVec.get, if_pos (by rw [hlen]; exact hi),
    Packed.get_eq hp hvs (by omega) i]

theorem C4_push_get_roundtrip_witness :
    ((DynamicIntVec.with_capacity 23 8).pushList [1, 2, 3, 4]).get 2 = Except.ok 3 :=
  C4_push_get_roundtrip 23 (by decide) (by decide) 8 [1, 2, 3, 4] (by decide) 2 (by decide)

/-- Claim C3 (failing input): on the one-element vector `[2]` of width 9,
`bit_compress` sets the width to 1 — not `max(1, ⌈log₂(2+1)⌉) = 2` — and
the stored element 2 is truncated to 0.  The same happens whenever the
maximum element is an exact power of two, because the source computes the
new width as `(max - 1).ilog2() + 1`. -/
theorem C3_bit_compress_eval :
    ((DynamicIntVec.new 9).pushList [2]).bit_compress.width = 1 ∧
    ((DynamicIntVec.new 9).pushList [2]).bit_compress.get 0 = Except.ok 0 ∧
    ((DynamicIntVec.new 9).pushList [2]).bit_compress.get 0 ≠ Except.ok 2 := by
  refine ⟨by decide, rfl, ?_⟩
  intro h
  rw [show ((DynamicIntVec.new 9).pushList [2]).bit_compress.get 0 = Except.ok 0 from
    rfl] at h
  exact absurd (Except.ok.inj h) (by decide)

/-- Claim C6 (counterexample): the packed integer vector's checked `get`
reports `"length is {n} but index is {i}"`, which is not the claimed
`"index is {i} but length is {n}"`. -/
theorem C6_counterexample :
    (DynamicIntVec.new 7).get 10 = Except.error "length is 0 but index is 10" ∧
    "length is 0 but index is 10" ≠ "index is 10 but length is 0" := by
  refine ⟨rfl, by decide⟩

/-- Claim C6 as amended: out-of-range checked accesses fail abruptly on
both containers, with message `"index is {i} but length is {n}"` for the
bit vector's `get_bit`/`set_bit`/`flip_bit` but `"length is {n} but index
is {i}"` for the packed integer vector's `get`/`set`. -/
theorem C6_amended (bv : BitVec) (i : Nat) (hi : bv.size ≤ i) (b : Bool)
    (v : DynamicIntVec) (j x : Nat) (hj : v.len ≤ j) :
    bv.set_bit i b =
      Except.error ("index is " ++ toString i ++ " but length is " ++ toString bv.size) ∧
    bv.get_bit i =
      Except.error ("index is " ++ toString i ++ " but length is " ++ toString bv.size) ∧
    bv.flip_bit i =
      Except.error ("index is " ++ toString i ++ " but length is " ++ toString bv.size) ∧
    v.get j =
      Except.error ("length is " ++ toString v.len ++ " but index is " ++ toString j) ∧
    v.set j x =
      Except.error ("length is " ++ toString v.len ++ " but index is " ++ toString j) := by
  refine ⟨?_, ?_, ?_, ?_, ?_⟩
  · rw [BitVec.set_bit, if_pos hi]
  · rw [BitVec.get_bit, if_pos hi]
  · rw [BitVec.flip_bit, if_pos hi]
  · rw [DynamicIntVec.get, if_neg (by omega)]
  · rw [DynamicIntVec.set, if_neg (by omega)]

theorem rkIter_succ_of_next {rk : RabinKarp} {hb : HashedBytes} {rk' : RabinKarp}
    (fuel : Nat) (h : rk.next = some (hb, rk')) :
    rkIter (fuel + 1) rk = hb :: rkIter fuel rk' := by
  rw [rkIter, h]

theorem rkIter_of_next_none {rk : RabinKarp} (fuel : Nat) (h : rk.next = none) :
    rkIter (fuel + 1) rk = [] := by
  rw [rkIter, h]

theorem cpIter_succ_of_next {cc : CyclicPolynomial} {hb : HashedBytes}
    {cc' : CyclicPolynomial} (fuel : Nat) (h : cc.next = some (hb, cc')) :
    cpIter (fuel + 1) cc = hb :: cpIter fuel cc' := by
  rw [cpIter, h]

theorem cpIter_of_next_none {cc : CyclicPolynomial} (fuel : Nat) (h : cc.next = none) :
    cpIter (fuel + 1) cc = [] := by
  rw [cpIter, h]

/-- One iterator step list for Rabin-Karp, from any live state `k` windows
before the last one. -/
theorem rkIter_spec (n w : Nat) :
    ∀ (k fuel : Nat) (rk : RabinKarp), rk.s.length = n → rk.window_size = w →
      rk.done = false → rk.offset + w + k = n → k < fuel →
      (rkIter fuel rk).length = k + 1 ∧
      ∀ i, i ≤ k → ((rkIter fuel rk).getD i ⟨[], 0, 0⟩).bytes =
        (rk.s.drop (rk.offset + i)).take w := by
  intro k
  induction k with
  | zero =>
    intro fuel rk hs hw' hd hoff hfuel
    obtain ⟨f, rfl⟩ : ∃ f, fuel = f + 1 := ⟨fuel - 1, by omega⟩
    have hnext : rk.next = some (rk.hashed_bytes, rk.advance) := by
      rw [RabinKarp.next, if_neg (by simp [hd])]
    have hguard : rk.advance =
        { rk with done := true, offset := min rk.offset (rk.s.length - rk.window_size) } := by
      rw [RabinKarp.advance, if_pos (Or.inl (by omega))]
    have htail : rkIter f rk.advance = [] := by
      cases f with
      | zero => rfl
      | succ f =>
        apply rkIter_of_next_none
        rw [hguard, RabinKarp.next, if_pos rfl]
    rw [rkIter_succ_of_next f hnext, htail]
    refine ⟨rfl, ?_⟩
    intro i hi
    interval_cases i
    simp [RabinKarp.hashed_bytes, hw']
  | succ k ih =>
    intro fuel rk hs hw' hd hoff hfuel
    obtain ⟨f, rfl⟩ : ∃ f, fuel = f + 1 := ⟨fuel - 1, by omega⟩
    have hnext : rk.next = some (rk.hashed_bytes, rk.advance) := by
      rw [RabinKarp.next, if_neg (by simp [hd])]
    have hadv : rk.advance = { rk with
        hash := ((rk.hash + PRIME - rk.rem * rk.s.getD rk.offset 0 % PRIME) * BASE +
          rk.s.getD (rk.offset + rk.window_size) 0) % PRIME
        offset := rk.offset + 1 } := by
      rw [RabinKarp.advance, if_neg (by push_neg; exact ⟨by omega, by simp [hd]⟩)]
    have ihr := ih f rk.advance (by rw [hadv]; exact hs) (by rw [hadv]; exact hw')
      (by rw [hadv]; exact hd) (by rw [hadv]; simp; omega) (by omega)
    rw [rkIter_succ_of_next f hnext]
    refine ⟨by simp [ihr.1], ?_⟩
    intro i hi
    cases i with
    | zero => simp [RabinKarp.hashed_bytes, hw']
    | succ i =>
      have hb := ihr.2 i (by omega)
      simp only [List.getD_cons_succ]
      rw [hb, hadv]
      dsimp only
      congr 2
      omega

/-- One iterator step list for the cyclic polynomial hasher. -/
theorem cpIter_spec (n w : Nat) :
    ∀ (k fuel : Nat) (cc : CyclicPolynomial), cc.s.length = n → cc.window_size = w →
      cc.offset + w + k = n → k < fuel →
      (cpIter fuel cc).length = k + 1 ∧
      ∀ i, i ≤ k → ((cpIter fuel cc).getD i ⟨[], 0, 0⟩).bytes =
        (cc.s.drop (cc.offset + i)).take w := by
  intro k
  induction k with
  | zero =>
    intro fuel cc hs hw' hoff hfuel
    obtain ⟨f, rfl⟩ : ∃ f, fuel = f + 1 := ⟨fuel - 1, by omega⟩
    have hnext : cc.next = some (cc.hashed_bytes, cc.advance) := by
      rw [CyclicPolynomial.next, if_neg (by omega)]
    have htail : cpIter f cc.advance = [] := by
      cases f with
      | zero => rfl
      | succ f =>
        apply cpIter_of_next_none
        rw [CyclicPolynomial.next, if_pos (by simp [CyclicPolynomial.advance]; omega)]
    rw [cpIter_succ_of_next f hnext, htail]
    refine ⟨rfl, ?_⟩
    intro i hi
    interval_cases i
    simp [CyclicPolynomial.hashed_bytes, hw']
  | succ k ih =>
    intro fuel cc hs hw' hoff hfuel
    obtain ⟨f, rfl⟩ : ∃ f, fuel = f + 1 := ⟨fuel - 1, by omega⟩
    have hnext : cc.next = some (cc.hashed_bytes, cc.advance) := by
      rw [CyclicPolynomial.next, if_neg (by omega)]
    have ihr := ih f cc.advance (by simp [CyclicPolynomial.advance]; exact hs)
      (by simp [CyclicPolynomial.advance]; exact hw')
      (by simp [CyclicPolynomial.advance]; omega) (by omega)
    rw [cpIter_succ_of_next f hnext]
    refine ⟨by simp [ihr.1], ?_⟩
    intro i hi
    cases i with
    | zero => simp [CyclicPolynomial.hashed_bytes, hw']
    | succ i =>
      have hb := ihr.2 i (by omega)
      simp only [List.getD_cons_succ]
      rw [hb]
      simp only [CyclicPolynomial.advance]
      congr 2
      omega

/-- Claim C7: both rolling hashers iterate exactly `|t| - w + 1` windows,
and the `i`-th yielded `HashedBytes` carries the byte slice `t[i..i+w]`
(any seed and table for the cyclic polynomial hasher). -/
theorem C7_window_iteration (t : List Nat) (w : Nat) (hw1 : 1 ≤ w)
    (hw2 : w ≤ t.length) (seed : Nat) (table : Nat → Nat) (i : Nat)
    (hi : i < t.length - w + 1) :
    (RabinKarp.new t 0 w).collect.length = t.length - w + 1 ∧
    ((RabinKarp.new t 0 w).collect.getD i ⟨[], 0, 0⟩).bytes = (t.drop i).take w ∧
    (CyclicPolynomial.with_table t 0 w seed table).collect.length = t.length - w + 1 ∧
    ((CyclicPolynomial.with_table t 0 w seed table).collect.getD i ⟨[], 0, 0⟩).bytes =
      (t.drop i).take w := by
  have hrk := rkIter_spec t.length w (t.length - w) (t.length + 1)
    (RabinKarp.new t 0 w) rfl rfl rfl (by simp [RabinKarp.new]; omega) (by omega)
  have hcp := cpIter_spec t.length w (t.length - w) (t.length + 1)
    (CyclicPolynomial.with_table t 0 w seed table) rfl rfl
    (by simp [CyclicPolynomial.with_table]; omega) (by omega)
  have he1 : (RabinKarp.new t 0 w).s.length = t.length := rfl
  have he2 : (CyclicPolynomial.with_table t 0 w seed table).s.length = t.length := rfl
  refine ⟨?_, ?_, ?_, ?_⟩
  · rw [RabinKarp.collect, he1, hrk.1]
  · rw [RabinKarp.collect, he1]
    have hb := hrk.2 i (by omega)
    simpa [RabinKarp.new] using hb
  · rw [CyclicPolynomial.collect, he2, hcp.1]
  · rw [CyclicPolynomial.collect, he2]
    have hb := hcp.2 i (by omega)
    simpa [CyclicPolynomial.with_table] using hb

theorem C7_window_iteration_witness :
    (RabinKarp.new [104, 97, 115, 104] 0 2).collect.length = 3 ∧
    ((RabinKarp.new [104, 97, 115, 104] 0 2).collect.getD 1 ⟨[], 0, 0⟩).bytes =
      [97, 115] ∧
    (CyclicPolynomial.with_table [104, 97, 115, 104] 0 2 0 (fun c => c)).collect.length =
      3 ∧
    ((CyclicPolynomial.with_table [104, 97, 115, 104] 0 2 0
        (fun c => c)).collect.getD 1 ⟨[], 0, 0⟩).bytes = [97, 115] :=
  C7_window_iteration [104, 97, 115, 104] 2 (by decide) (by decide) 0 (fun c => c) 1
    (by decide)

theorem rem_steps_eq (n : Nat) : rem_steps n = BASE ^ n % PRIME := by
  induction n with
  | zero =>
    rw [rem_steps, pow_zero]
    exact (Nat.mod_eq_of_lt (by norm_num [PRIME])).symm
  | succ n ih =>
    rw [rem_steps, ih, pow_succ]
    exact Nat.ModEq.mul_right BASE (Nat.mod_modEq _ _)

/-- The Horner pass of `RabinKarp::new` computes the claim's polynomial
window hash. -/
theorem horner_polyHash (s : List Nat) : ∀ w : Nat,
    (List.range w).foldl (fun h i => (h * BASE + s.getD i 0) % PRIME) 0 =
      polyHash s 0 w := by
  intro w
  induction w with
  | zero => simp [polyHash]
  | succ w ih =>
    rw [List.range_succ, List.foldl_append, List.foldl_cons, List.foldl_nil, ih]
    have hsum : ∑ k ∈ Finset.range (w + 1), s.getD (0 + k) 0 * BASE ^ (w + 1 - 1 - k) =
        (∑ k ∈ Finset.range w, s.getD (0 + k) 0 * BASE ^ (w - 1 - k)) * BASE +
          s.getD w 0 := by
      rw [Finset.sum_range_succ]
      have hlast : s.getD (0 + w) 0 * BASE ^ (w + 1 - 1 - w) = s.getD w 0 := by
        have e2 : w + 1 - 1 - w = 0 := by omega
        rw [e2, pow_zero, mul_one, Nat.zero_add]
      rw [hlast]
      congr 1
      rw [Finset.sum_mul]
      apply Finset.sum_congr rfl
      intro k hk
      simp only [Finset.mem_range] at hk
      have he : w + 1 - 1 - k = (w - 1 - k) + 1 := by omega
      rw [he, pow_succ]
      ring
    have hrhs : polyHash s 0 (w + 1) =
        ((∑ k ∈ Finset.range w, s.getD (0 + k) 0 * BASE ^ (w - 1 - k)) * BASE +
          s.getD w 0) % PRIME := by
      rw [polyHash, hsum]
    rw [hrhs]
    have hm : polyHash s 0 w * BASE + s.getD w 0 ≡
        (∑ k ∈ Finset.range w, s.getD (0 + k) 0 * BASE ^ (w - 1 - k)) * BASE +
          s.getD w 0 [MOD PRIME] :=
      Nat.ModEq.add_right _ (Nat.ModEq.mul_right _ (Nat.mod_modEq _ _))
    exact hm

/-- The modular core of one `advance` step: sliding off the contribution
`cB ≡ x (mod P)` of the outgoing byte. -/
theorem modeq_slide_core (P B U cB cin x : Nat) (hx : x < P)
    (hcong : cB ≡ x [MOD P]) :
    (((U + cB) % P + P - x) * B + cin) % P = (U * B + cin) % P := by
  have h1 : (U + cB) % P + P - x = (U + cB) % P + (P - x) := by
    have := Nat.mod_le (U + cB) P
    omega
  have h2 : (U + cB) % P + (P - x) ≡ U + cB + (P - x) [MOD P] :=
    Nat.ModEq.add_right _ (Nat.mod_modEq _ _)
  have h3 : U + cB + (P - x) ≡ U + x + (P - x) [MOD P] :=
    Nat.ModEq.add_right _ (Nat.ModEq.add_left _ hcong)
  have h4 : U + x + (P - x) = U + P := by omega
  have h5 : U + P ≡ U [MOD P] := by
    have h6 : U + P ≡ U + 0 [MOD P] :=
      Nat.ModEq.add_left _ (Nat.modEq_zero_iff_dvd.mpr dvd_rfl)
    simpa using h6
  have hall : (U + cB) % P + P - x ≡ U [MOD P] := by
    rw [h1]
    exact ((h2.trans h3).trans (by rw [h4])).trans h5
  exact Nat.ModEq.add_right cin (Nat.ModEq.mul_right B hall)

/-- The recurrence of `RabinKarp::advance` maps the window hash at offset
`o` to the window hash at offset `o + 1`. -/
theorem polyHash_advance (t : List Nat) (w o : Nat) (hw : 1 ≤ w) :
    ((polyHash t o w + PRIME - BASE ^ (w - 1) % PRIME * t.getD o 0 % PRIME) * BASE +
      t.getD (o + w) 0) % PRIME = polyHash t (o + 1) w := by
  obtain ⟨m, rfl⟩ : ∃ m, w = m + 1 := ⟨w - 1, by omega⟩
  simp only [Nat.add_sub_cancel]
  have hS : ∑ k ∈ Finset.range (m + 1), t.getD (o + k) 0 * BASE ^ (m + 1 - 1 - k) =
      (∑ k ∈ Finset.range m, t.getD (o + 1 + k) 0 * BASE ^ (m - 1 - k)) +
        t.getD o 0 * BASE ^ m := by
    rw [Finset.sum_range_succ']
    have h0 : t.getD (o + 0) 0 * BASE ^ (m + 1 - 1 - 0) = t.getD o 0 * BASE ^ m := by
      norm_num
    rw [h0]
    congr 1
    apply Finset.sum_congr rfl
    intro k hk
    simp only [Finset.mem_range] at hk
    have h1 : o + (k + 1) = o + 1 + k := by omega
    have h2 : m + 1 - 1 - (k + 1) = m - 1 - k := by omega
    rw [h1, h2]
  have hS2 : ∑ j ∈ Finset.range (m + 1), t.getD (o + 1 + j) 0 * BASE ^ (m + 1 - 1 - j) =
      (∑ k ∈ Finset.range m, t.getD (o + 1 + k) 0 * BASE ^ (m - 1 - k)) * BASE +
        t.getD (o + (m + 1)) 0 := by
    rw [Finset.sum_range_succ]
    have hlast : t.getD (o + 1 + m) 0 * BASE ^ (m + 1 - 1 - m) =
        t.getD (o + (m + 1)) 0 := by
      have e1 : o + 1 + m = o + (m + 1) := by omega
      have e2 : m + 1 - 1 - m = 0 := by omega
      rw [e1, e2, pow_zero, mul_one]
    rw [hlast]
    congr 1
    rw [Finset.sum_mul]
    apply Finset.sum_congr rfl
    intro k hk
    simp only [Finset.mem_range] at hk
    have he : m + 1 - 1 - k = (m - 1 - k) + 1 := by omega
    rw [he, pow_succ]
    ring
  have hL : polyHash t o (m + 1) =
      ((∑ k ∈ Finset.range m, t.getD (o + 1 + k) 0 * BASE ^ (m - 1 - k)) +
        t.getD o 0 * BASE ^ m) % PRIME := by
    rw [polyHash, hS]
  have hR : polyHash t (o + 1) (m + 1) =
      ((∑ k ∈ Finset.range m, t.getD (o + 1 + k) 0 * BASE ^ (m - 1 - k)) * BASE +
        t.getD (o + (m + 1)) 0) % PRIME := by
    rw [polyHash, hS2]
  have hxlt : BASE ^ m % PRIME * t.getD o 0 % PRIME < PRIME :=
    Nat.mod_lt _ (by norm_num [PRIME])
  have hxcong : t.getD o 0 * BASE ^ m ≡
      BASE ^ m % PRIME * t.getD o 0 % PRIME [MOD PRIME] := by
    calc t.getD o 0 * BASE ^ m = BASE ^ m * t.getD o 0 := by ring
    _ ≡ BASE ^ m % PRIME * t.getD o 0 [MOD PRIME] :=
        (Nat.ModEq.mul_right _ (Nat.mod_modEq _ _)).symm
    _ ≡ BASE ^ m % PRIME * t.getD o 0 % PRIME [MOD PRIME] := (Nat.mod_modEq _ _).symm
  rw [hL, hR]
  exact modeq_slide_core PRIME BASE
    (∑ k ∈ Finset.range m, t.getD (o + 1 + k) 0 * BASE ^ (m - 1 - k))
    (t.getD o 0 * BASE ^ m) (t.getD (o + (m + 1)) 0)
    (BASE ^ m % PRIME * t.getD o 0 % PRIME) hxlt hxcong

theorem RKInv_new (t : List Nat) (w : Nat) (hw1 : 1 ≤ w) (hw2 : w ≤ t.length) :
    RKInv t w (RabinKarp.new t 0 w) := by
  refine ⟨rfl, rfl, rem_steps_eq _, by simpa [RabinKarp.new] using hw2, ?_⟩
  show (List.range w).foldl _ 0 = _
  rw [horner_polyHash t w]
  rfl

/-- `RabinKarp::advance` preserves the invariant of claim C8 (both in the
running case and in the clamped end-of-text case). -/
theorem RKInv_advance (t : List Nat) (w : Nat) (hw1 : 1 ≤ w) {rk : RabinKarp}
    (h : RKInv t w rk) : RKInv t w rk.advance := by
  rw [RabinKarp.advance]
  by_cases hguard : rk.offset + rk.window_size ≥ rk.s.length ∨ rk.done = true
  · rw [if_pos hguard]
    have hmin : min rk.offset (rk.s.length - rk.window_size) = rk.offset := by
      have h1 := h.hoff
      have h2 := h.hs
      have h3 := h.hw
      apply Nat.min_eq_left
      rw [h2, h3]
      omega
    exact ⟨h.hs, h.hw, h.hrem, by simpa [hmin] using h.hoff, by simpa [hmin] using h.hhash⟩
  · rw [if_neg hguard]
    push_neg at hguard
    refine ⟨h.hs, h.hw, h.hrem, ?_, ?_⟩
    · show rk.offset + 1 + w ≤ t.length
      have := hguard.1
      rw [h.hs, h.hw] at this
      omega
    · show ((rk.hash + PRIME - rk.rem * rk.s.getD rk.offset 0 % PRIME) * BASE +
        rk.s.getD (rk.offset + rk.window_size) 0) % PRIME = polyHash t (rk.offset + 1) w
      rw [h.hs, h.hw, h.hhash, h.hrem]
      exact polyHash_advance t w rk.offset hw1

/-- The invariant survives any number of `advance` calls. -/
theorem RKInv_advance_n (t : List Nat) (w : Nat) (hw1 : 1 ≤ w) :
    ∀ (k : Nat) {rk : RabinKarp}, RKInv t w rk → RKInv t w (RabinKarp.advance_n k rk) := by
  intro k
  induction k with
  | zero => intro rk h; exact h
  | succ k ih =>
    intro rk h
    exact ih (RKInv_advance t w hw1 h)

/-- Claim C8: after construction and after every number of `advance`
calls, the stored Rabin-Karp hash equals
`(Σ_{k<w} text[offset+k] · 257^(w-1-k)) mod 8589935681` for the current
window offset. -/
theorem C8_rabin_karp_invariant (t : List Nat) (w : Nat) (hw1 : 1 ≤ w)
    (hw2 : w ≤ t.length) (k : Nat) :
    (RabinKarp.advance_n k (RabinKarp.new t 0 w)).hash =
      polyHash t (RabinKarp.advance_n k (RabinKarp.new t 0 w)).offset w :=
  (RKInv_advance_n t w hw1 k (RKInv_new t w hw1 hw2)).hhash

theorem C8_rabin_karp_invariant_witness :
    (RabinKarp.advance_n 2 (RabinKarp.new [104, 97, 115, 104] 0 3)).hash =
      polyHash [104, 97, 115, 104]
        (RabinKarp.advance_n 2 (RabinKarp.new [104, 97, 115, 104] 0 3)).offset 3 :=
  C8_rabin_karp_invariant [104, 97, 115, 104] 3 (by decide) (by decide) 2

theorem C6_amended_witness :
    (BitVec.new 20).set_bit 20 true = Except.error "index is 20 but length is 20" ∧
    (BitVec.new 20).get_bit 20 = Except.error "index is 20 but length is 20" ∧
    (BitVec.new 20).flip_bit 20 = Except.error "index is 20 but length is 20" ∧
    (DynamicIntVec.new 7).get 10 = Except.error "length is 0 but index is 10" ∧
    (DynamicIntVec.new 7).set 10 5 = Except.error "length is 0 but index is 10" :=
  C6_amended (BitVec.new 20) 20 (by decide) true (DynamicIntVec.new 7) 10 5 (by decide)

/-- **C5.** The `bit_vec` flat popcount's `select` returns `none` for every
`k ≥ num_ones` (its guard is `rank >= self.number_of_ones`) and never fails
abruptly there, for every index structure and every strategy.  The legacy
`select` of `rank_select/flat_popcount/mod.rs`, also cited by the claim,
does not: its guard is `rank > self.number_of_ones`, so `k = num_ones`
falls through, and on the index built over a 64-bit all-ones bit vector
the `find_l1` loop then reads `l1_index[1]` out of bounds (undefined
behaviour; had the loop exited, the word loop would read `raw()[8]` out of
bounds next), instead of returning `None`. -/
theorem C5_select_out_of_range :
    (∀ (fp : FlatPopcount) (strat : Nat → Nat → Nat × Nat) (k : Nat),
      fp.number_of_ones ≤ k → fp.select strat k = none) ∧
    FlatPopcount.select_old find_l2_linear
        (FlatPopcount.new ⟨[18446744073709551615], 64⟩) 64 =
      Except.error "out-of-bounds L1 entry read in select" := by
  constructor
  · intro fp strat k hk
    unfold FlatPopcount.select
    rw [if_pos hk]
  · rfl

theorem C5_select_out_of_range_witness :
    FlatPopcount.select find_l2_linear
        (FlatPopcount.new ⟨[18446744073709551615], 64⟩) 64 = none :=
  C5_select_out_of_range.1 (FlatPopcount.new ⟨[18446744073709551615], 64⟩)
    find_l2_linear 64 (by decide)

/-- **C10.** The flat popcount built over the empty bit vector has
`len() = 0` and `num_ones() = 0`, and `select(k)` returns `none` for every
`k`, with any strategy. -/
theorem C10_empty_flat_popcount (strat : Nat → Nat → Nat × Nat) :
    (FlatPopcount.new (BitVec.new 0)).len = 0 ∧
    (FlatPopcount.new (BitVec.new 0)).number_of_ones = 0 ∧
    ∀ k, (FlatPopcount.new (BitVec.new 0)).select strat k = none := by
  refine ⟨rfl, rfl, fun k => ?_⟩
  unfold FlatPopcount.select
  rw [if_pos]
  show (FlatPopcount.new (BitVec.new 0)).number_of_ones ≤ k
  exact Nat.zero_le k

lemma wordGetBit_eq_testBit (w i : Nat) :
    wordGetBit w i = Nat.testBit w (63 - i) := by
  unfold wordGetBit
  rw [Nat.shiftLeft_eq, one_mul, Nat.and_two_pow]
  cases h : Nat.testBit w (63 - i) <;> simp [h]

lemma wordSetBit_get_self (w i : Nat) (v : Bool) (hi : i < 64) :
    wordGetBit (wordSetBit w i v) i = v := by
  have h63 : 63 - i < 64 := by omega
  cases v with
  | true =>
    rw [wordSetBit, if_pos rfl, wordGetBit_eq_testBit, Nat.shiftLeft_eq, one_mul,
      Nat.testBit_lor, Nat.testBit_two_pow_self, Bool.or_true]
  | false =>
    rw [wordSetBit, if_neg (by simp), wordGetBit_eq_testBit, not64, Nat.shiftLeft_eq,
      one_mul, Nat.testBit_land, Nat.testBit_xor, Nat.testBit_two_pow_self,
      Nat.testBit_two_pow_sub_one]
    simp [h63]

lemma wordSetBit_get_other (w i j : Nat) (v : Bool) (hij : i ≠ j)
    (hi : i < 64) (hj : j < 64) :
    wordGetBit (wordSetBit w i v) j = wordGetBit w j := by
  have hne : 63 - i ≠ 63 - j := by omega
  have h63 : 63 - j < 64 := by omega
  cases v with
  | true =>
    rw [wordSetBit, if_pos rfl, wordGetBit_eq_testBit, Nat.shiftLeft_eq, one_mul,
      Nat.testBit_lor, Nat.testBit_two_pow_of_ne hne, Bool.or_false,
      wordGetBit_eq_testBit]
  | false =>
    rw [wordSetBit, if_neg (by simp), wordGetBit_eq_testBit, not64, Nat.shiftLeft_eq,
      one_mul, Nat.testBit_land, Nat.testBit_xor, Nat.testBit_two_pow_of_ne hne,
      Nat.testBit_two_pow_sub_one, wordGetBit_eq_testBit]
    simp [h63]

lemma and63_eq_mod (i : Nat) : i &&& 63 = i % 64 :=
  Nat.and_pow_two_sub_one_eq_mod i 6

lemma shift6_eq_div (i : Nat) : i >>> 6 = i / 64 :=
  Nat.shiftRight_eq_div_pow i 6

lemma sliceSetBit_length (data : List Nat) (i : Nat) (v : Bool) :
    (sliceSetBit data i v).length = data.length := by
  rw [sliceSetBit, List.length_set]

lemma sliceSetBit_get_self (data : List Nat) (i : Nat) (v : Bool)
    (hi : i < 64 * data.length) :
    sliceGetBit (sliceSetBit data i v) i = v := by
  have hw : i / 64 < data.length := by omega
  simp only [sliceGetBit, sliceSetBit, shift6_eq_div, and63_eq_mod,
    List.getD_eq_getElem?_getD, List.getElem?_set_self hw, Option.getD_some]
  exact wordSetBit_get_self _ _ _ (Nat.mod_lt _ (by omega))

lemma sliceSetBit_get_other (data : List Nat) (i j : Nat) (v : Bool) (hij : i ≠ j)
    (hj : j < 64 * data.length) :
    sliceGetBit (sliceSetBit data i v) j = sliceGetBit data j := by
  by_cases hw : i / 64 = j / 64
  · have hwlt : i / 64 < data.length := by omega
    have hmod : i % 64 ≠ j % 64 := by omega
    simp only [sliceGetBit, sliceSetBit, shift6_eq_div, and63_eq_mod]
    rw [← hw, List.getD_eq_getElem?_getD, List.getElem?_set_self hwlt, Option.getD_some]
    exact wordSetBit_get_other _ _ _ _ hmod (Nat.mod_lt _ (by omega))
      (Nat.mod_lt _ (by omega))
  · simp only [sliceGetBit, sliceSetBit, shift6_eq_div, and63_eq_mod,
      List.getD_eq_getElem?_getD, List.getElem?_set_ne hw]

lemma new_get_false (max j : Nat) :
    (BitVec.new max).get_bit_unchecked j = false := by
  rw [BitVec.new, BitVec.get_bit_unchecked, sliceGetBit]
  have : (List.replicate ((max + 63) / 64) 0).getD (j >>> 6) 0 = 0 := by
    rw [List.getD_eq_getElem?_getD, List.getElem?_replicate]
    split <;> rfl
  rw [this, wordGetBit]
  simp

lemma setAll_spec (l : List Bool) (bv : BitVec) (i : Nat)
    (hinv : bv.size ≤ 64 * bv.data.length) (hle : i + l.length ≤ bv.size) :
    ∃ bv', setAll bv i l = Except.ok bv' ∧
      bv'.size = bv.size ∧ bv'.data.length = bv.data.length ∧
      (∀ j, (j < i ∨ i + l.length ≤ j) → j < 64 * bv.data.length →
        bv'.get_bit_unchecked j = bv.get_bit_unchecked j) ∧
      (∀ j, i ≤ j → j < i + l.length →
        bv'.get_bit_unchecked j = l.getD (j - i) false) := by
  induction l generalizing bv i with
  | nil =>
    refine ⟨bv, rfl, rfl, rfl, fun j _ _ => rfl, fun j h1 h2 => ?_⟩
    exfalso
    simp only [List.length_nil] at h2
    omega
  | cons b rest ih =>
    have hlc : (b :: rest).length = rest.length + 1 := List.length_cons b rest
    have hi : i < bv.size := by omega
    have hset : bv.set_bit i b = Except.ok (bv.set_bit_unchecked i b) := by
      rw [BitVec.set_bit, if_neg (by omega)]
    have hsize1 : (bv.set_bit_unchecked i b).size = bv.size := rfl
    have hlen1 : (bv.set_bit_unchecked i b).data.length = bv.data.length := by
      rw [BitVec.set_bit_unchecked]
      exact sliceSetBit_length _ _ _
    have hinv1 : (bv.set_bit_unchecked i b).size ≤
        64 * (bv.set_bit_unchecked i b).data.length := by
      rw [hsize1, hlen1]; exact hinv
    have hle1 : (i + 1) + rest.length ≤ (bv.set_bit_unchecked i b).size := by
      rw [hsize1]; omega
    obtain ⟨bv', hrun, hsz, hln, hpres, hwrit⟩ := ih (bv.set_bit_unchecked i b) (i + 1)
      hinv1 hle1
    refine ⟨bv', ?_, ?_, ?_, ?_, ?_⟩
    · rw [setAll, hset]
      exact hrun
    · rw [hsz, hsize1]
    · rw [hln, hlen1]
    · intro j hj hjlt
      have hjlt1 : j < 64 * (bv.set_bit_unchecked i b).data.length := by
        rw [hlen1]; exact hjlt
      have h1 : bv'.get_bit_unchecked j = (bv.set_bit_unchecked i b).get_bit_unchecked j :=
        hpres j (by omega) hjlt1
      rw [h1, BitVec.set_bit_unchecked, BitVec.get_bit_unchecked]
      exact sliceSetBit_get_other bv.data i j b (by omega) hjlt
    · intro j hj1 hj2
      rcases Nat.eq_or_lt_of_le hj1 with heq | hlt
      · have h1 : bv'.get_bit_unchecked j = (bv.set_bit_unchecked i b).get_bit_unchecked j := by
          refine hpres j (Or.inl (by omega)) ?_
          rw [hlen1]; omega
        rw [h1, ← heq, BitVec.set_bit_unchecked, BitVec.get_bit_unchecked]
        have h2 : sliceGetBit (sliceSetBit bv.data i b) i = b :=
          sliceSetBit_get_self bv.data i b (by omega)
        rw [h2]
        simp
      · have h1 : bv'.get_bit_unchecked j = rest.getD (j - (i + 1)) false :=
          hwrit j (by omega) (by omega)
        rw [h1]
        have h2 : j - i = (j - (i + 1)) + 1 := by omega
        rw [h2]
        rfl

/-- **C9.** Collecting a boolean iterator whose `size_hint` upper bound is
`Some(max)` into a `BitVec` yields a vector of length exactly `max` — the
reported bound, not the number `|l|` of booleans actually yielded — and
every index `i < max` reads back `l.getD i false`: the yielded boolean at
`i < |l|`, and `false` at every index at or past the yielded count. -/
theorem C9_from_iter_upper_bound (l : List Bool) (max : Nat) (h : l.length ≤ max) :
    ∃ bv, BitVec.from_iter_bounded l max = Except.ok bv ∧
      bv.len = max ∧
      (∀ i, i < max → bv.get_bit i = Except.ok (l.getD i false)) ∧
      (∀ i, l.length ≤ i → i < max → bv.get_bit i = Except.ok false) := by
  have hinv : (BitVec.new max).size ≤ 64 * (BitVec.new max).data.length := by
    show max ≤ 64 * (List.replicate ((max + 63) / 64) 0).length
    rw [List.length_replicate]
    omega
  have hle : 0 + l.length ≤ (BitVec.new max).size := by
    show 0 + l.length ≤ max; omega
  obtain ⟨bv, hrun, hsz, hln, hpres, hwrit⟩ := setAll_spec l (BitVec.new max) 0 hinv hle
  have hszmax : bv.size = max := hsz
  have hget : ∀ i, i < max → bv.get_bit_unchecked i = l.getD i false := by
    intro i hi
    by_cases hcase : i < l.length
    · have := hwrit i (Nat.zero_le i) (by omega)
      simpa using this
    · have hlenbd : i < 64 * (BitVec.new max).data.length := by
        have : max ≤ 64 * (BitVec.new max).data.length := hinv
        omega
      have h1 := hpres i (Or.inr (by omega)) hlenbd
      rw [h1, new_get_false]
      rw [List.getD_eq_getElem?_getD, List.getElem?_eq_none (by omega)]
      rfl
  refine ⟨bv, hrun, hszmax, ?_, ?_⟩
  · intro i hi
    rw [BitVec.get_bit, if_neg (by omega), hget i hi]
  · intro i hil him
    rw [BitVec.get_bit, if_neg (by omega), hget i him,
      List.getD_eq_getElem?_getD, List.getElem?_eq_none (by omega)]
    rfl

theorem C9_from_iter_upper_bound_witness :
    ∃ bv, BitVec.from_iter_bounded [true, false, true] 130 = Except.ok bv ∧
      bv.len = 130 ∧
      (∀ i, i < 130 → bv.get_bit i = Except.ok ([true, false, true].getD i false)) ∧
      (∀ i, [true, false, true].length ≤ i → i < 130 →
        bv.get_bit i = Except.ok false) :=
  C9_from_iter_upper_bound [true, false, true] 130 (by decide)

/-! ### The counting bridge: `count_ones` versus index-order bits -/

lemma count_ones_aux_eq (fuel : Nat) : ∀ n : Nat,
    count_ones_aux fuel n = (List.range fuel).countP (fun b => Nat.testBit n b) := by
  induction fuel with
  | zero => intro n; rfl
  | succ fuel ih =>
    intro n
    rw [count_ones_aux, List.range_succ_eq_map, List.countP_cons, List.countP_map]
    have h1 : ((fun b => Nat.testBit n b) ∘ Nat.succ) =
        (fun b => Nat.testBit (n / 2) b) := by
      funext b
      exact Nat.testBit_succ n b
    rw [h1, ← ih (n / 2)]
    have h2 : Nat.testBit n 0 = decide (n % 2 = 1) := Nat.testBit_zero n
    rcases Nat.mod_two_eq_zero_or_one n with h | h <;> simp [h2, h] <;> omega

lemma countP_range_reflect (n : Nat) (q : Nat → Bool) :
    (List.range n).countP (fun i => q (n - 1 - i)) = (List.range n).countP q := by
  have h1 : (List.range n).reverse = (List.range n).map (fun i => n - 1 - i) := by
    conv_lhs => rw [List.range_eq_range']
    rw [List.reverse_range']
    simp
  have h2 : (List.range n).countP q = ((List.range n).reverse).countP q := by
    simp [List.countP_eq_length_filter, List.filter_reverse]
  rw [h2, h1, List.countP_map]
  rfl

lemma count_ones_eq_countP (w : Nat) :
    count_ones w = (List.range 64).countP (fun i => wordGetBit w i) := by
  rw [count_ones, count_ones_aux_eq, ← countP_range_reflect 64 (fun b => Nat.testBit w b)]
  have h3 : (fun i => Nat.testBit w (64 - 1 - i)) = (fun i => wordGetBit w i) := by
    funext i
    rw [wordGetBit_eq_testBit]
  rw [h3]

lemma count_ones_le (w : Nat) : count_ones w ≤ 64 := by
  rw [count_ones_eq_countP]
  calc (List.range 64).countP (fun i => wordGetBit w i) ≤ (List.range 64).length :=
        List.countP_le_length _
  _ = 64 := List.length_range 64

lemma wordPrefixOnes_succ (w idx : Nat) :
    wordPrefixOnes w (idx + 1) =
      wordPrefixOnes w idx + if wordGetBit w idx then 1 else 0 := by
  rw [wordPrefixOnes, wordPrefixOnes, List.range_succ, List.countP_append]
  simp [List.countP_cons]

lemma count_ones_eq_wordPrefixOnes (w : Nat) : count_ones w = wordPrefixOnes w 64 :=
  count_ones_eq_countP w

lemma rawRank_succ (d : List Nat) (i : Nat) :
    rawRank d (i + 1) = rawRank d i + if sliceGetBit d i then 1 else 0 := by
  rw [rawRank, rawRank, List.range_succ, List.countP_append]
  simp [List.countP_cons]

lemma rawRank_mono (d : List Nat) {a b : Nat} (h : a ≤ b) :
    rawRank d a ≤ rawRank d b := by
  induction b with
  | zero =>
    have ha : a = 0 := by omega
    rw [ha]
  | succ b ih =>
    rcases Nat.lt_or_ge a (b + 1) with hab | hab
    · have := ih (by omega)
      rw [rawRank_succ]
      split <;> omega
    · have : a = b + 1 := by omega
      rw [this]

lemma rawRank_add_block (d : List Nat) (a m : Nat) :
    rawRank d (a + m) =
      rawRank d a + (List.range m).countP (fun j => sliceGetBit d (a + j)) := by
  rw [rawRank, rawRank, List.range_add, List.countP_append, List.countP_map]
  rfl

lemma sliceGetBit_decomp (d : List Nat) (a j : Nat) (hj : j < 64) (ha : a % 64 = 0) :
    sliceGetBit d (a + j) = wordGetBit (d.getD (a / 64) 0) j := by
  rw [sliceGetBit, shift6_eq_div, and63_eq_mod]
  have h1 : (a + j) / 64 = a / 64 := by omega
  have h2 : (a + j) % 64 = j := by omega
  rw [h1, h2]

lemma rawRank_word_succ (d : List Nat) (w : Nat) :
    rawRank d (64 * (w + 1)) = rawRank d (64 * w) + count_ones (d.getD w 0) := by
  have h : 64 * (w + 1) = 64 * w + 64 := by ring
  rw [h, rawRank_add_block, count_ones_eq_countP]
  congr 1
  apply List.countP_congr
  intro j hj
  have hj64 : j < 64 := List.mem_range.mp hj
  have hd : 64 * w / 64 = w := by omega
  show sliceGetBit d (64 * w + j) = true ↔ wordGetBit (d.getD w 0) j = true
  rw [sliceGetBit_decomp d (64 * w) j hj64 (by omega), hd]

lemma rawRank_words (d : List Nat) (w : Nat) : rawRank d (64 * w) = wordsOnes d w := by
  induction w with
  | zero => rfl
  | succ w ih => rw [rawRank_word_succ, ih, wordsOnes]

lemma rawRank_split_word (d : List Nat) (i : Nat) :
    rawRank d i = wordsOnes d (i / 64) + wordPrefixOnes (d.getD (i / 64) 0) (i % 64) := by
  have h : i = 64 * (i / 64) + i % 64 := by omega
  conv_lhs => rw [h]
  rw [rawRank_add_block, rawRank_words, wordPrefixOnes]
  congr 1
  apply List.countP_congr
  intro j hj
  have hj64 : j < 64 := by
    have := List.mem_range.mp hj
    omega
  have hd : 64 * (i / 64) / 64 = i / 64 := by omega
  show sliceGetBit d (64 * (i / 64) + j) = true ↔
    wordGetBit (d.getD (i / 64) 0) j = true
  rw [sliceGetBit_decomp d (64 * (i / 64)) j hj64 (by omega), hd]

lemma wordsOnes_mono (d : List Nat) {a b : Nat} (h : a ≤ b) :
    wordsOnes d a ≤ wordsOnes d b := by
  rw [← rawRank_words, ← rawRank_words]
  exact rawRank_mono d (by omega)

lemma wordsOnes_le (d : List Nat) (w : Nat) : wordsOnes d w ≤ 64 * w := by
  induction w with
  | zero => exact Nat.le_refl 0
  | succ w ih =>
    rw [wordsOnes]
    have := count_ones_le (d.getD w 0)
    omega

lemma wordsOnes_past_length (d : List Nat) (w : Nat) (h : d.length ≤ w) :
    wordsOnes d w = wordsOnes d d.length := by
  induction w with
  | zero =>
    have : d.length = 0 := by omega
    rw [this]
  | succ w ih =>
    rcases Nat.lt_or_ge d.length (w + 1) with hlt | hge
    · rw [wordsOnes, List.getD_eq_getElem?_getD, List.getElem?_eq_none (by omega)]
      have : count_ones ((none : Option Nat).getD 0) = 0 := rfl
      rw [this, Nat.add_zero]
      exact ih (by omega)
    · have : d.length = w + 1 := by omega
      rw [this]

/-! ### Extraction of the L1/L2 fields from an index entry -/

lemma wordsOnes_add_le (d : List Nat) (a m : Nat) :
    wordsOnes d (a + m) ≤ wordsOnes d a + 64 * m := by
  induction m with
  | zero => simp
  | succ m ih =>
    have hc := count_ones_le (d.getD (a + m) 0)
    rw [show a + (m + 1) = (a + m) + 1 from rfl, wordsOnes]
    omega

lemma slotVal_lt (d : List Nat) (j t : Nat) (ht : t < 7) : slotVal d j t < 4096 := by
  rw [slotVal]
  split
  · have h1 := wordsOnes_add_le d (64 * j) (8 * (t + 1))
    have h2 : wordsOnes d (64 * j) ≤ wordsOnes d (64 * j + 8 * (t + 1)) :=
      wordsOnes_mono d (by omega)
    omega
  · omega

lemma slotList_lt (f : Nat → Nat) (hf : ∀ u, u < 7 → f u < 4096) :
    ∀ v ∈ [f 6, f 5, f 4, f 3, f 2, f 1, f 0], v < 4096 := by
  intro v hv
  simp only [List.mem_cons, List.not_mem_nil, or_false] at hv
  rcases hv with rfl | rfl | rfl | rfl | rfl | rfl | rfl <;> exact hf _ (by omega)

lemma slotSum_eq_radix (f : Nat → Nat) :
    (∑ u ∈ Finset.range 7, f u * 2 ^ (12 * (6 - u))) =
      radixVal 4096 [f 6, f 5, f 4, f 3, f 2, f 1, f 0] := by
  simp [radixVal, Finset.sum_range_succ]
  ring

lemma slotSum_lt (f : Nat → Nat) (hf : ∀ u, u < 7 → f u < 4096) :
    (∑ u ∈ Finset.range 7, f u * 2 ^ (12 * (6 - u))) < 2 ^ 84 := by
  rw [slotSum_eq_radix]
  have h := radixVal_lt 4096 [f 6, f 5, f 4, f 3, f 2, f 1, f 0] (slotList_lt f hf)
  have hlen : ([f 6, f 5, f 4, f 3, f 2, f 1, f 0] : List Nat).length = 7 := rfl
  rw [hlen] at h
  have : (4096 : Nat) ^ 7 = 2 ^ 84 := by norm_num
  rwa [this] at h

lemma entry_hi (cum S : Nat) (hS : S < 2 ^ 84) : (cum * 2 ^ 84 + S) >>> 84 = cum := by
  rw [Nat.shiftRight_eq_div_pow, Nat.add_comm,
    Nat.add_mul_div_right _ _ (Nat.pos_pow_of_pos 84 (by omega)),
    Nat.div_eq_of_lt hS, Nat.zero_add]

lemma entry_l1_field (cum S : Nat) (hc : cum < 2 ^ 44) (hS : S < 2 ^ 84) :
    entryL1 (cum * 2 ^ 84 + S) = cum := by
  have hd64 : S / 2 ^ 64 < 2 ^ 20 := by
    apply Nat.div_lt_of_lt_mul
    calc S < 2 ^ 84 := hS
    _ = 2 ^ 64 * 2 ^ 20 := by norm_num
  have hstep1 : (cum * 2 ^ 84 + S) >>> 64 = cum * 2 ^ 20 + S / 2 ^ 64 := by
    rw [Nat.shiftRight_eq_div_pow,
      show cum * 2 ^ 84 + S = S + cum * 2 ^ 20 * 2 ^ 64 from by ring,
      Nat.add_mul_div_right _ _ (Nat.pos_pow_of_pos 64 (by omega)), Nat.add_comm]
  have hlt : cum * 2 ^ 20 + S / 2 ^ 64 < 2 ^ 64 := by
    have h1 : cum * 2 ^ 20 ≤ (2 ^ 44 - 1) * 2 ^ 20 :=
      Nat.mul_le_mul_right _ (by omega)
    have h2 : (2 ^ 44 - 1) * 2 ^ 20 = 2 ^ 64 - 2 ^ 20 := by norm_num
    omega
  rw [entryL1, hstep1, Nat.mod_eq_of_lt hlt, Nat.shiftRight_eq_div_pow,
    Nat.add_comm, Nat.add_mul_div_right _ _ (Nat.pos_pow_of_pos 20 (by omega)),
    Nat.div_eq_of_lt hd64, Nat.zero_add]

lemma radix_plus_high_digit (L : List Nat) (hL : ∀ v ∈ L, v < 4096) (cum i : Nat)
    (hi : i ≤ 6) :
    (cum * 2 ^ 84 + radixVal 4096 L) / 2 ^ (12 * i) % 2 ^ 12 = L.getD i 0 := by
  have hpow : (2 : Nat) ^ 84 = 2 ^ (72 - 12 * i) * 2 ^ 12 * 2 ^ (12 * i) := by
    rw [← pow_add, ← pow_add]
    congr 1
    omega
  have hsplit : cum * 2 ^ 84 + radixVal 4096 L =
      radixVal 4096 L + cum * 2 ^ (72 - 12 * i) * 2 ^ 12 * 2 ^ (12 * i) := by
    rw [hpow]
    ring
  rw [hsplit, Nat.add_mul_div_right _ _ (Nat.pos_pow_of_pos _ (by omega)),
    Nat.add_mul_mod_self_right]
  have h4096 : (2 : Nat) ^ (12 * i) = 4096 ^ i := by
    rw [pow_mul]
    norm_num
  have h12 : (2 : Nat) ^ 12 = 4096 := by norm_num
  rw [h4096, h12]
  exact radixVal_div_pow_mod 4096 L hL i

lemma entry_slot_extract (cum : Nat) (f : Nat → Nat) (hf : ∀ u, u < 7 → f u < 4096)
    (t : Nat) (ht : t < 7) :
    ((cum * 2 ^ 84 + ∑ u ∈ Finset.range 7, f u * 2 ^ (12 * (6 - u))) >>>
      (12 * (6 - t))) &&& 4095 = f t := by
  rw [slotSum_eq_radix,
    show (4095 : Nat) = 1 <<< 12 - 1 from rfl, and_mask_eq_mod,
    Nat.shiftRight_eq_div_pow,
    radix_plus_high_digit _ (slotList_lt f hf) cum (6 - t) (by omega)]
  have hgetD : ([f 6, f 5, f 4, f 3, f 2, f 1, f 0] : List Nat).getD (6 - t) 0 = f t := by
    interval_cases t <;> rfl
  exact hgetD

/-- All four field reads on a specification entry. -/
lemma entrySpec_l1 (d : List Nat) (j : Nat) (hcum : cumSpec d j < 2 ^ 44) :
    entryL1 (entrySpec d j) = cumSpec d j := by
  rw [entrySpec]
  exact entry_l1_field _ _ hcum (slotSum_lt _ (fun u hu => slotVal_lt d j u hu))

lemma entrySpec_hi (d : List Nat) (j : Nat) :
    entrySpec d j >>> 84 = cumSpec d j := by
  rw [entrySpec]
  exact entry_hi _ _ (slotSum_lt _ (fun u hu => slotVal_lt d j u hu))

lemma entrySpec_slot (d : List Nat) (j t : Nat) (ht : t < 7) :
    (entrySpec d j >>> (12 * (6 - t))) &&& 4095 = slotVal d j t := by
  rw [entrySpec]
  exact entry_slot_extract _ _ (fun u hu => slotVal_lt d j u hu) t ht

/-! ### `build_indices` produces exactly the specification entries -/

lemma chunks8_aux_congr : ∀ fuel1 fuel2 (l : List Nat), l.length ≤ fuel1 →
    l.length ≤ fuel2 → chunks8_aux fuel1 l = chunks8_aux fuel2 l := by
  intro fuel1
  induction fuel1 with
  | zero =>
    intro fuel2 l h1 h2
    have hl : l = [] := List.eq_nil_of_length_eq_zero (by omega)
    subst hl
    cases fuel2 <;> rfl
  | succ fuel1 ih =>
    intro fuel2 l h1 h2
    cases l with
    | nil => cases fuel2 <;> rfl
    | cons x xs =>
      rw [List.length_cons] at h1 h2
      cases fuel2 with
      | zero => omega
      | succ fuel2 =>
        rw [chunks8_aux, chunks8_aux]
        congr 1
        have hd : (xs.drop 7).length = xs.length - 7 := List.length_drop 7 xs
        exact ih fuel2 (xs.drop 7) (by omega) (by omega)

lemma chunks8_cons (l : List Nat) (hl : l ≠ []) :
    chunks8 l = l.take 8 :: chunks8 (l.drop 8) := by
  cases l with
  | nil => exact absurd rfl hl
  | cons x xs =>
    rw [chunks8, List.length_cons, chunks8_aux]
    congr 1
    have hdrop : (x :: xs).drop 8 = xs.drop 7 := rfl
    rw [hdrop, chunks8]
    have hd : (xs.drop 7).length = xs.length - 7 := List.length_drop 7 xs
    exact chunks8_aux_congr _ _ _ (by omega) (by omega)

lemma chunks8_drop_step (d : List Nat) (c : Nat) (h : 8 * c < d.length) :
    chunks8 (d.drop (8 * c)) =
      (d.drop (8 * c)).take 8 :: chunks8 (d.drop (8 * (c + 1))) := by
  have hlen : (d.drop (8 * c)).length = d.length - 8 * c := List.length_drop _ _
  have hne : d.drop (8 * c) ≠ [] := by
    intro hc
    rw [hc] at hlen
    simp at hlen
    omega
  rw [chunks8_cons _ hne]
  have harith : ∀ x : Nat, x = 8 * (c + 1) → d.drop x = d.drop (8 * (c + 1)) := by
    intro x hx
    rw [hx]
  have hdd : (d.drop (8 * c)).drop 8 = d.drop (8 * (c + 1)) := by
    rw [List.drop_drop]
    exact harith _ (by omega)
  rw [hdd]

lemma chunks8_drop_empty (d : List Nat) (c : Nat) (h : d.length ≤ 8 * c) :
    chunks8 (d.drop (8 * c)) = [] := by
  have : d.drop (8 * c) = [] := List.drop_eq_nil_of_le h
  rw [this]
  rfl

lemma take_drop_count_sum (d : List Nat) (m : Nat) : ∀ a : Nat,
    (((d.drop a).take m).map count_ones).sum + wordsOnes d a = wordsOnes d (a + m) := by
  induction m with
  | zero =>
    intro a
    simp
  | succ m ih =>
    intro a
    rcases Nat.lt_or_ge a d.length with ha | ha
    · have hdrop : d.drop a = d.getD a 0 :: d.drop (a + 1) := by
        rw [List.drop_eq_getElem_cons ha]
        congr 1
        rw [List.getD_eq_getElem?_getD, List.getElem?_eq_getElem ha]
        rfl
      rw [hdrop, List.take_succ_cons, List.map_cons, List.sum_cons]
      have hrec := ih (a + 1)
      rw [show a + 1 + m = a + (m + 1) from by omega] at hrec
      have hw : wordsOnes d (a + 1) = wordsOnes d a + count_ones (d.getD a 0) := rfl
      omega
    · have hdrop : d.drop a = [] := List.drop_eq_nil_of_le ha
      rw [hdrop]
      simp only [List.take_nil, List.map_nil, List.sum_nil, Nat.zero_add]
      rw [wordsOnes_past_length d a ha, wordsOnes_past_length d (a + (m + 1)) (by omega)]

lemma wordsOnes_le_len (d : List Nat) (w : Nat) : wordsOnes d w ≤ 64 * d.length := by
  rcases le_or_lt w d.length with h | h
  · calc wordsOnes d w ≤ 64 * w := wordsOnes_le d w
    _ ≤ 64 * d.length := by omega
  · rw [wordsOnes_past_length d w (by omega)]
    calc wordsOnes d d.length ≤ 64 * d.length := wordsOnes_le d d.length

lemma lor_add_of_dvd (cur x k : Nat) (hdvd : 2 ^ k ∣ cur) (hx : x < 2 ^ k) :
    cur ||| x = cur + x := by
  obtain ⟨M, hM⟩ := hdvd
  rw [hM, Nat.lor_comm, mul_comm, lor_mul_two_pow_eq_add _ _ _ hx]
  ring

lemma partialEntry_dvd (d : List Nat) (c : Nat) :
    2 ^ (12 * (7 - c % 8)) ∣ partialEntry d c := by
  rw [partialEntry]
  apply Nat.dvd_add
  · exact Dvd.dvd.mul_left (pow_dvd_pow 2 (by omega)) _
  · apply Finset.dvd_sum
    intro t ht
    have ht' : t < c % 8 := Finset.mem_range.mp ht
    have hmod : c % 8 < 8 := Nat.mod_lt _ (by omega)
    exact Dvd.dvd.mul_left (pow_dvd_pow 2 (by omega)) _

lemma pad_loop_spec : ∀ fuel i cur, 8 - i % 8 ≤ fuel →
    2 ^ (12 * (7 - i % 8)) ∣ cur →
    pad_loop fuel i cur = cur + (2 ^ (12 * (7 - i % 8)) - 1) := by
  intro fuel
  induction fuel with
  | zero =>
    intro i cur h1 h2
    exact absurd h1 (by omega)
  | succ fuel ih =>
    intro i cur h1 h2
    have hand : i &&& 7 = i % 8 := by
      rw [show (7 : Nat) = 1 <<< 3 - 1 from rfl, and_mask_eq_mod]
      norm_num
    rw [pad_loop, hand]
    by_cases h7 : i % 8 = 7
    · rw [if_neg (by simp [h7]), h7]
      norm_num
    · rw [if_pos h7]
      have hr : i % 8 < 7 := by
        have : i % 8 < 8 := Nat.mod_lt _ (by omega)
        omega
      have hmod : (i + 1) % 8 = i % 8 + 1 := by omega
      have hsh : (4095 : Nat) <<< (12 * (6 - i % 8)) = 4095 * 2 ^ (12 * (6 - i % 8)) :=
        Nat.shiftLeft_eq _ _
      have hsplit : (2 : Nat) ^ (12 * (7 - i % 8)) = 4096 * 2 ^ (12 * (6 - i % 8)) := by
        rw [show (4096 : Nat) = 2 ^ 12 from rfl, ← pow_add]
        congr 1
        omega
      have hklt : (4095 : Nat) * 2 ^ (12 * (6 - i % 8)) < 2 ^ (12 * (7 - i % 8)) := by
        rw [hsplit]
        have hpos : (0 : Nat) < 2 ^ (12 * (6 - i % 8)) := Nat.pos_pow_of_pos _ (by omega)
        calc (4095 : Nat) * 2 ^ (12 * (6 - i % 8)) <
            4096 * 2 ^ (12 * (6 - i % 8)) := by omega
        _ = 4096 * 2 ^ (12 * (6 - i % 8)) := rfl
      have hlor : cur ||| 4095 <<< (12 * (6 - i % 8)) =
          cur + 4095 * 2 ^ (12 * (6 - i % 8)) := by
        rw [hsh]
        exact lor_add_of_dvd _ _ _ h2 hklt
      rw [hlor]
      have hdvd' : 2 ^ (12 * (7 - (i + 1) % 8)) ∣ cur + 4095 * 2 ^ (12 * (6 - i % 8)) := by
        rw [hmod, show 7 - (i % 8 + 1) = 6 - i % 8 from by omega]
        apply Nat.dvd_add
        · exact dvd_trans (pow_dvd_pow 2 (by omega)) h2
        · exact Dvd.dvd.mul_left dvd_rfl _
      rw [ih (i + 1) _ (by omega) hdvd', hmod,
        show 7 - (i % 8 + 1) = 6 - i % 8 from by omega]
      have hpos : (0 : Nat) < 2 ^ (12 * (6 - i % 8)) := Nat.pos_pow_of_pos _ (by omega)
      omega

lemma pad_sum (r : Nat) (hr : r ≤ 7) :
    (∑ t ∈ Finset.Ico r 7, 4095 * 2 ^ (12 * (6 - t))) = 2 ^ (12 * (7 - r)) - 1 := by
  interval_cases r <;> decide

lemma entrySpec_eq_partial_pad (d : List Nat) (c : Nat)
    (hpad : ∀ t, c % 8 ≤ t → t < 7 → slotVal d (c / 8) t = 4095) :
    entrySpec d (c / 8) = partialEntry d c + (2 ^ (12 * (7 - c % 8)) - 1) := by
  have hmod : c % 8 < 8 := Nat.mod_lt _ (by omega)
  rw [entrySpec, partialEntry]
  have hsplit : (∑ t ∈ Finset.range 7, slotVal d (c / 8) t * 2 ^ (12 * (6 - t))) =
      (∑ t ∈ Finset.range (c % 8), slotVal d (c / 8) t * 2 ^ (12 * (6 - t))) +
      (∑ t ∈ Finset.Ico (c % 8) 7, slotVal d (c / 8) t * 2 ^ (12 * (6 - t))) := by
    rw [Finset.range_eq_Ico]
    exact (Finset.sum_Ico_consecutive _ (by omega) (by omega)).symm
  have hpadsum : (∑ t ∈ Finset.Ico (c % 8) 7, slotVal d (c / 8) t * 2 ^ (12 * (6 - t))) =
      2 ^ (12 * (7 - c % 8)) - 1 := by
    rw [← pad_sum (c % 8) (by omega)]
    apply Finset.sum_congr rfl
    intro t ht
    have := Finset.mem_Ico.mp ht
    rw [hpad t this.1 this.2]
  rw [hsplit, hpadsum]
  omega

lemma build_loop_invariant (d : List Nat) (hbound : 64 * d.length < 2 ^ 44) :
    ∀ (n c : Nat) (st : BuildState),
      (d.length + 7) / 8 - c = n →
      c ≤ (d.length + 7) / 8 →
      st.i = c →
      st.num_ones = wordsOnes d (64 * (c / 8)) →
      st.ones_in_l1 = wordsOnes d (8 * c) - wordsOnes d (64 * (c / 8)) →
      st.current_l1 = partialEntry d c →
      st.acc = (List.range (c / 8)).map (entrySpec d) →
      (build_loop (chunks8 (d.drop (8 * c))) st).acc =
          (List.range ((d.length + 7) / 8 / 8)).map (entrySpec d) ∧
      (build_loop (chunks8 (d.drop (8 * c))) st).i = (d.length + 7) / 8 ∧
      (build_loop (chunks8 (d.drop (8 * c))) st).current_l1 =
          partialEntry d ((d.length + 7) / 8) := by
  intro n
  induction n with
  | zero =>
    intro c st hn hc hi hnum hones hcur hacc
    have hceq : c = (d.length + 7) / 8 := by omega
    subst hceq
    rw [chunks8_drop_empty d _ (by omega), build_loop]
    exact ⟨by rw [hacc], by rw [hi], by rw [hcur]⟩
  | succ n ih =>
    intro c st hn hc hi hnum hones hcur hacc
    have hcN : 8 * c < d.length := by omega
    have hand : st.i &&& 7 = c % 8 := by
      rw [hi, show (7 : Nat) = 1 <<< 3 - 1 from rfl, and_mask_eq_mod]
      norm_num
    have hchunk := take_drop_count_sum d 8 (8 * c)
    have hm1 : wordsOnes d (64 * (c / 8)) ≤ wordsOnes d (8 * c) :=
      wordsOnes_mono d (by omega)
    have hm2 : wordsOnes d (8 * c) ≤ wordsOnes d (8 * c + 8) :=
      wordsOnes_mono d (by omega)
    by_cases h7 : c % 8 = 7
    · have hsame : build_loop (chunks8 (d.drop (8 * c))) st =
          build_loop (chunks8 (d.drop (8 * (c + 1))))
            ⟨wordsOnes d (64 * (c / 8)) +
                (wordsOnes d (8 * c) - wordsOnes d (64 * (c / 8))) +
                (((d.drop (8 * c)).take 8).map count_ones).sum,
              0,
              (wordsOnes d (64 * (c / 8)) +
                (wordsOnes d (8 * c) - wordsOnes d (64 * (c / 8))) +
                (((d.drop (8 * c)).take 8).map count_ones).sum) <<< 84 % 2 ^ 128,
              c + 1,
              (List.range (c / 8)).map (entrySpec d) ++ [partialEntry d c]⟩ := by
        rw [chunks8_drop_step d c hcN]
        rw [build_loop]
        simp only [hand, h7, if_pos]
        rw [hnum, hones, hcur, hacc, hi]
      rw [hsame]
      have hS : wordsOnes d (64 * (c / 8)) +
          (wordsOnes d (8 * c) - wordsOnes d (64 * (c / 8))) +
          (((d.drop (8 * c)).take 8).map count_ones).sum =
          wordsOnes d (8 * (c + 1)) := by
        have h8 : 8 * (c + 1) = 8 * c + 8 := by omega
        rw [h8]
        omega
      have hdiv : (c + 1) / 8 = c / 8 + 1 := by omega
      have hmod0 : (c + 1) % 8 = 0 := by omega
      have h64 : 64 * ((c + 1) / 8) = 8 * (c + 1) := by omega
      have hlt : wordsOnes d (8 * (c + 1)) < 2 ^ 44 := by
        have := wordsOnes_le_len d (8 * (c + 1))
        omega
      refine ih (c + 1) _ (by omega) (by omega) rfl ?_ ?_ ?_ ?_
      · show wordsOnes d (64 * (c / 8)) +
            (wordsOnes d (8 * c) - wordsOnes d (64 * (c / 8))) +
            (((d.drop (8 * c)).take 8).map count_ones).sum =
            wordsOnes d (64 * ((c + 1) / 8))
        rw [hS, h64]
      · show (0 : Nat) = wordsOnes d (8 * (c + 1)) - wordsOnes d (64 * ((c + 1) / 8))
        rw [h64]
        omega
      · show (wordsOnes d (64 * (c / 8)) +
            (wordsOnes d (8 * c) - wordsOnes d (64 * (c / 8))) +
            (((d.drop (8 * c)).take 8).map count_ones).sum) <<< 84 % 2 ^ 128 =
            partialEntry d (c + 1)
        rw [hS, Nat.shiftLeft_eq, partialEntry, hmod0, Finset.sum_range_zero,
          add_zero, cumSpec, h64]
        exact Nat.mod_eq_of_lt (by
          calc wordsOnes d (8 * (c + 1)) * 2 ^ 84 < 2 ^ 44 * 2 ^ 84 :=
                (Nat.mul_lt_mul_right (Nat.pos_pow_of_pos _ (by omega))).mpr hlt
          _ ≤ 2 ^ 128 := by norm_num)
      · show (List.range (c / 8)).map (entrySpec d) ++ [partialEntry d c] =
            (List.range ((c + 1) / 8)).map (entrySpec d)
        rw [hdiv, List.range_succ, List.map_append, List.map_singleton]
        congr 2
        rw [partialEntry, h7, entrySpec]
    · have hsame : build_loop (chunks8 (d.drop (8 * c))) st =
          build_loop (chunks8 (d.drop (8 * (c + 1))))
            ⟨wordsOnes d (64 * (c / 8)),
              (wordsOnes d (8 * c) - wordsOnes d (64 * (c / 8))) +
                (((d.drop (8 * c)).take 8).map count_ones).sum,
              partialEntry d c |||
                (((wordsOnes d (8 * c) - wordsOnes d (64 * (c / 8))) +
                  (((d.drop (8 * c)).take 8).map count_ones).sum) &&& 4095) <<<
                  (12 * (6 - c % 8)),
              c + 1,
              (List.range (c / 8)).map (entrySpec d)⟩ := by
        rw [chunks8_drop_step d c hcN]
        rw [build_loop]
        simp only [hand, if_neg h7]
        rw [hnum, hones, hcur, hacc, hi]
      rw [hsame]
      have hr : c % 8 < 7 := by
        have : c % 8 < 8 := Nat.mod_lt _ (by omega)
        omega
      have hdiv : (c + 1) / 8 = c / 8 := by omega
      have hmods : (c + 1) % 8 = c % 8 + 1 := by omega
      have hones2 : (wordsOnes d (8 * c) - wordsOnes d (64 * (c / 8))) +
          (((d.drop (8 * c)).take 8).map count_ones).sum =
          wordsOnes d (8 * c + 8) - wordsOnes d (64 * (c / 8)) := by
        omega
      have hspan : wordsOnes d (8 * c + 8) - wordsOnes d (64 * (c / 8)) < 4096 := by
        have h1 := wordsOnes_add_le d (64 * (c / 8)) (8 * (c % 8) + 8)
        have h2 : 64 * (c / 8) + (8 * (c % 8) + 8) = 8 * c + 8 := by omega
        rw [h2] at h1
        omega
      have hmask : (wordsOnes d (8 * c + 8) - wordsOnes d (64 * (c / 8))) &&& 4095 =
          wordsOnes d (8 * c + 8) - wordsOnes d (64 * (c / 8)) := by
        rw [show (4095 : Nat) = 1 <<< 12 - 1 from rfl, and_mask_eq_mod]
        norm_num
        exact hspan
      have hslot : slotVal d (c / 8) (c % 8) =
          wordsOnes d (8 * c + 8) - wordsOnes d (64 * (c / 8)) := by
        rw [slotVal, if_pos (by omega : 8 * (8 * (c / 8) + c % 8) < d.length)]
        congr 2
        omega
      have hcur' : partialEntry d c |||
          (((wordsOnes d (8 * c) - wordsOnes d (64 * (c / 8))) +
            (((d.drop (8 * c)).take 8).map count_ones).sum) &&& 4095) <<<
            (12 * (6 - c % 8)) = partialEntry d (c + 1) := by
        rw [hones2, hmask, Nat.shiftLeft_eq]
        have hsplit : (2 : Nat) ^ (12 * (7 - c % 8)) = 4096 * 2 ^ (12 * (6 - c % 8)) := by
          rw [show (4096 : Nat) = 2 ^ 12 from rfl, ← pow_add]
          congr 1
          omega
        have hpos : (0 : Nat) < 2 ^ (12 * (6 - c % 8)) := Nat.pos_pow_of_pos _ (by omega)
        have hxlt : (wordsOnes d (8 * c + 8) - wordsOnes d (64 * (c / 8))) *
            2 ^ (12 * (6 - c % 8)) < 2 ^ (12 * (7 - c % 8)) := by
          rw [hsplit]
          exact (Nat.mul_lt_mul_right hpos).mpr hspan
        rw [lor_add_of_dvd _ _ _ (partialEntry_dvd d c) hxlt,
          partialEntry, partialEntry, hdiv, hmods, Finset.sum_range_succ, hslot]
        ring
      refine ih (c + 1) _ (by omega) (by omega) rfl ?_ ?_ ?_ ?_
      · show wordsOnes d (64 * (c / 8)) = wordsOnes d (64 * ((c + 1) / 8))
        rw [hdiv]
      · show (wordsOnes d (8 * c) - wordsOnes d (64 * (c / 8))) +
            (((d.drop (8 * c)).take 8).map count_ones).sum =
            wordsOnes d (8 * (c + 1)) - wordsOnes d (64 * ((c + 1) / 8))
        rw [hones2, hdiv, show 8 * (c + 1) = 8 * c + 8 from by omega]
      · exact hcur'
      · show (List.range (c / 8)).map (entrySpec d) =
            (List.range ((c + 1) / 8)).map (entrySpec d)
        rw [hdiv]

lemma build_indices_eq (d : List Nat) (hbound : 64 * d.length < 2 ^ 44) :
    build_indices d = (List.range ((d.length + 7) / 8 / 8 + 1)).map (entrySpec d) := by
  have hinit := build_loop_invariant d hbound ((d.length + 7) / 8) 0
    ⟨0, 0, 0, 0, []⟩ (by omega) (by omega) rfl
    (by show (0 : Nat) = wordsOnes d 0; rfl)
    (by show (0 : Nat) = wordsOnes d 0 - wordsOnes d 0; rfl)
    (by
      show (0 : Nat) = partialEntry d 0
      rw [partialEntry]
      simp [cumSpec, wordsOnes])
    (by rfl)
  rw [show (8 : Nat) * 0 = 0 from rfl, List.drop_zero] at hinit
  obtain ⟨hacc, hi, hcur⟩ := hinit
  rw [build_indices, hacc, hi, hcur]
  have hCmod : (d.length + 7) / 8 % 8 < 8 := Nat.mod_lt _ (by omega)
  have hpadres := pad_loop_spec 8 ((d.length + 7) / 8)
    (partialEntry d ((d.length + 7) / 8)) (by omega)
    (partialEntry_dvd d ((d.length + 7) / 8))
  rw [hpadres]
  have hlast : partialEntry d ((d.length + 7) / 8) +
      (2 ^ (12 * (7 - (d.length + 7) / 8 % 8)) - 1) =
      entrySpec d ((d.length + 7) / 8 / 8) := by
    rw [entrySpec_eq_partial_pad d ((d.length + 7) / 8) ?_]
    intro t ht1 ht2
    rw [slotVal, if_neg ?_]
    push_neg
    have h8C : d.length ≤ 8 * ((d.length + 7) / 8) := by omega
    have : (d.length + 7) / 8 ≤ 8 * ((d.length + 7) / 8 / 8) + t := by omega
    omega
  rw [hlast, List.range_succ, List.map_append, List.map_singleton]

/-! ### `sample_ones`, `ilog2` bounds, and the sampled-position list -/

lemma pushList_snoc (s : DynamicIntVec) (xs : List Nat) (x : Nat) :
    s.pushList (xs ++ [x]) = (s.pushList xs).push x := by
  rw [DynamicIntVec.pushList, DynamicIntVec.pushList, List.foldl_append]
  rfl

lemma getD_map_range (f : Nat → Nat) (n j : Nat) (hj : j < n) :
    ((List.range n).map f).getD j 0 = f j := by
  rw [List.getD_eq_getElem?_getD, List.getElem?_map, List.getElem?_range hj]
  rfl

lemma and8191_eq_mod (x : Nat) : x &&& 8191 = x % 8192 := by
  rw [show (8191 : Nat) = 1 <<< 13 - 1 from rfl, and_mask_eq_mod]
  norm_num

lemma sample_ones_spec (bv : BitVec) (w : Nat) :
    sample_ones bv w = (rawRank bv.data bv.size,
      (DynamicIntVec.new w).pushList
        (((List.range bv.size).filter
          (fun p => bv.get_bit_unchecked p &&
            decide (rawRank bv.data p % 8192 = 0))).map
          (fun p => p >>> 13))) := by
  rw [sample_ones]
  generalize bv.size = n
  induction n with
  | zero => rfl
  | succ n ih =>
    rw [List.range_succ, List.foldl_append, ih, List.foldl_cons, List.foldl_nil]
    dsimp only
    by_cases hbit : bv.get_bit_unchecked n = true
    · have hstep : rawRank bv.data (n + 1) = rawRank bv.data n + 1 := by
        rw [rawRank_succ,
          show sliceGetBit bv.data n = bv.get_bit_unchecked n from rfl, hbit]
        rfl
      rw [if_pos hbit, Nat.add_sub_cancel, and8191_eq_mod]
      by_cases hmod : rawRank bv.data n % 8192 = 0
      · have hfilter : (List.range n ++ [n]).filter
            (fun p => bv.get_bit_unchecked p &&
              decide (rawRank bv.data p % 8192 = 0)) =
            ((List.range n).filter
              (fun p => bv.get_bit_unchecked p &&
                decide (rawRank bv.data p % 8192 = 0))) ++ [n] := by
          rw [List.filter_append]
          congr 1
          simp [hbit, hmod]
        rw [if_pos hmod, hstep, hfilter, List.map_append, List.map_singleton,
          pushList_snoc]
      · have hfilter : (List.range n ++ [n]).filter
            (fun p => bv.get_bit_unchecked p &&
              decide (rawRank bv.data p % 8192 = 0)) =
            (List.range n).filter
              (fun p => bv.get_bit_unchecked p &&
                decide (rawRank bv.data p % 8192 = 0)) := by
          rw [List.filter_append]
          have he : (List.filter (fun p => bv.get_bit_unchecked p &&
              decide (rawRank bv.data p % 8192 = 0)) [n]) = [] := by
            simp [hbit, hmod]
          rw [he, List.append_nil]
        rw [if_neg hmod, hstep, hfilter]
    · have hbit' : bv.get_bit_unchecked n = false := by
        rcases Bool.eq_false_or_eq_true (bv.get_bit_unchecked n) with h | h
        · exact absurd h hbit
        · exact h
      have hstep : rawRank bv.data (n + 1) = rawRank bv.data n := by
        rw [rawRank_succ,
          show sliceGetBit bv.data n = bv.get_bit_unchecked n from rfl, hbit']
        rfl
      have hfilter : (List.range n ++ [n]).filter
          (fun p => bv.get_bit_unchecked p &&
            decide (rawRank bv.data p % 8192 = 0)) =
          (List.range n).filter
            (fun p => bv.get_bit_unchecked p &&
              decide (rawRank bv.data p % 8192 = 0)) := by
        rw [List.filter_append]
        have he : (List.filter (fun p => bv.get_bit_unchecked p &&
            decide (rawRank bv.data p % 8192 = 0)) [n]) = [] := by
          simp [hbit']
        rw [he, List.append_nil]
      rw [if_neg hbit, hstep, hfilter]

lemma ilog2_aux_spec : ∀ fuel n : Nat, 1 ≤ n → n < 2 ^ fuel →
    2 ^ ilog2_aux fuel n ≤ n ∧ n < 2 ^ (ilog2_aux fuel n + 1) := by
  intro fuel
  induction fuel with
  | zero =>
    intro n h1 h2
    simp at h2
    omega
  | succ fuel ih =>
    intro n h1 h2
    rw [ilog2_aux]
    by_cases h2n : 2 ≤ n
    · rw [if_pos h2n]
      have hhalf : n / 2 < 2 ^ fuel := by
        have hp : (2 : Nat) ^ (fuel + 1) = 2 * 2 ^ fuel := by
          rw [pow_succ]
          ring
        omega
      obtain ⟨ha, hb⟩ := ih (n / 2) (by omega) hhalf
      constructor
      · rw [pow_succ]
        omega
      · rw [show ilog2_aux fuel (n / 2) + 1 + 1 = (ilog2_aux fuel (n / 2) + 1) + 1
          from rfl, pow_succ]
        omega
    · rw [if_neg h2n]
      have : n = 1 := by omega
      rw [this]
      norm_num

lemma ilog2_spec (n : Nat) (h1 : 1 ≤ n) (h2 : n < 2 ^ 64) :
    2 ^ ilog2 n ≤ n ∧ n < 2 ^ (ilog2 n + 1) :=
  ilog2_aux_spec 64 n h1 h2

/-- The positions sampled by `sample_ones` (bits set whose rank is a
multiple of 8192): there are `⌈rank(n)/8192⌉` of them below `n`, and the
`m`-th is a set bit of rank exactly `8192 · m`. -/
lemma sample_positions_spec (bv : BitVec) : ∀ n : Nat,
    ((List.range n).filter (fun p => bv.get_bit_unchecked p &&
        decide (rawRank bv.data p % 8192 = 0))).length =
      (rawRank bv.data n + 8191) / 8192 ∧
    ∀ m, m < ((List.range n).filter (fun p => bv.get_bit_unchecked p &&
        decide (rawRank bv.data p % 8192 = 0))).length →
      sliceGetBit bv.data (((List.range n).filter
        (fun p => bv.get_bit_unchecked p &&
          decide (rawRank bv.data p % 8192 = 0))).getD m 0) = true ∧
      rawRank bv.data (((List.range n).filter
        (fun p => bv.get_bit_unchecked p &&
          decide (rawRank bv.data p % 8192 = 0))).getD m 0) = 8192 * m ∧
      ((List.range n).filter (fun p => bv.get_bit_unchecked p &&
        decide (rawRank bv.data p % 8192 = 0))).getD m 0 < n := by
  intro n
  induction n with
  | zero =>
    constructor
    · norm_num [rawRank]
    · intro m hm
      exact absurd hm (by simp)
  | succ n ih =>
    obtain ⟨ihlen, ihget⟩ := ih
    have hsucc := rawRank_succ bv.data n
    by_cases hpred : (bv.get_bit_unchecked n &&
        decide (rawRank bv.data n % 8192 = 0)) = true
    · have hbit : sliceGetBit bv.data n = true := by
        have := (Bool.and_eq_true _ _).mp hpred
        exact this.1
      have hmod : rawRank bv.data n % 8192 = 0 := by
        have := (Bool.and_eq_true _ _).mp hpred
        exact of_decide_eq_true this.2
      have hr1 : rawRank bv.data (n + 1) = rawRank bv.data n + 1 := by
        rw [hsucc, hbit]
        rfl
      have hfilter : (List.range (n + 1)).filter (fun p => bv.get_bit_unchecked p &&
          decide (rawRank bv.data p % 8192 = 0)) =
          ((List.range n).filter (fun p => bv.get_bit_unchecked p &&
            decide (rawRank bv.data p % 8192 = 0))) ++ [n] := by
        rw [List.range_succ, List.filter_append]
        congr 1
        rw [List.filter_cons, if_pos hpred, List.filter_nil]
      have hlen' : (((List.range n).filter (fun p => bv.get_bit_unchecked p &&
          decide (rawRank bv.data p % 8192 = 0))) ++ [n]).length =
          (rawRank bv.data n) / 8192 + 1 := by
        rw [List.length_append, ihlen]
        simp only [List.length_cons, List.length_nil]
        omega
      rw [hfilter]
      constructor
      · rw [hlen', hr1]
        omega
      · intro m hm
        rw [hlen'] at hm
        have hlen0 : ((List.range n).filter (fun p => bv.get_bit_unchecked p &&
            decide (rawRank bv.data p % 8192 = 0))).length =
            rawRank bv.data n / 8192 := by
          rw [ihlen]
          omega
        rcases Nat.lt_or_ge m (rawRank bv.data n / 8192) with hmlt | hmge
        · have hgetl : (((List.range n).filter (fun p => bv.get_bit_unchecked p &&
              decide (rawRank bv.data p % 8192 = 0))) ++ [n]).getD m 0 =
              ((List.range n).filter (fun p => bv.get_bit_unchecked p &&
                decide (rawRank bv.data p % 8192 = 0))).getD m 0 := by
            rw [List.getD_eq_getElem?_getD, List.getElem?_append_left (by omega),
              ← List.getD_eq_getElem?_getD]
          rw [hgetl]
          obtain ⟨g1, g2, g3⟩ := ihget m (by omega)
          exact ⟨g1, g2, by omega⟩
        · have hmeq : m = rawRank bv.data n / 8192 := by omega
          have hgetr : (((List.range n).filter (fun p => bv.get_bit_unchecked p &&
              decide (rawRank bv.data p % 8192 = 0))) ++ [n]).getD m 0 = n := by
            rw [List.getD_eq_getElem?_getD, List.getElem?_append_right (by omega),
              hlen0, hmeq]
            simp
          rw [hgetr]
          refine ⟨hbit, ?_, by omega⟩
          rw [hmeq]
          omega
    · have hlen1 : (rawRank bv.data (n + 1) + 8191) / 8192 =
          (rawRank bv.data n + 8191) / 8192 := by
        by_cases hbit : sliceGetBit bv.data n = true
        · have hmodne : rawRank bv.data n % 8192 ≠ 0 := by
            intro hc
            apply hpred
            rw [show bv.get_bit_unchecked n = sliceGetBit bv.data n from rfl, hbit]
            simp [hc]
          rw [hsucc, hbit, if_pos rfl]
          omega
        · have hbit' : sliceGetBit bv.data n = false := by
            rcases Bool.eq_false_or_eq_true (sliceGetBit bv.data n) with h | h
            · exact absurd h hbit
            · exact h
          rw [hsucc, hbit']
          simp
      have hfilter : (List.range (n + 1)).filter (fun p => bv.get_bit_unchecked p &&
          decide (rawRank bv.data p % 8192 = 0)) =
          (List.range n).filter (fun p => bv.get_bit_unchecked p &&
            decide (rawRank bv.data p % 8192 = 0)) := by
        rw [List.range_succ, List.filter_append, List.filter_cons,
          if_neg hpred, List.filter_nil, List.append_nil]
      rw [hfilter]
      refine ⟨by rw [hlen1, ihlen], fun m hm => ?_⟩
      obtain ⟨g1, g2, g3⟩ := ihget m hm
      exact ⟨g1, g2, by omega⟩

/-! ### `rank` agrees with the raw prefix popcount -/

lemma count_range_sum (d : List Nat) (a : Nat) : ∀ m : Nat,
    ((List.range m).map (fun i => count_ones (d.getD (a + i) 0))).sum +
      wordsOnes d a = wordsOnes d (a + m) := by
  intro m
  induction m with
  | zero => simp
  | succ m ih =>
    rw [List.range_succ, List.map_append, List.sum_append, List.map_singleton,
      show a + (m + 1) = (a + m) + 1 from by omega, wordsOnes]
    simp only [List.sum_cons, List.sum_nil]
    omega

lemma wordGetBit_and_mask (w r i : Nat) (hi : i < 64) (hr : r ≤ 64) :
    wordGetBit (w &&& ((1 <<< r - 1) <<< (64 - r))) i =
      (wordGetBit w i && decide (i < r)) := by
  rw [wordGetBit_eq_testBit, wordGetBit_eq_testBit, Nat.testBit_land]
  congr 1
  rw [show (1 <<< r - 1 : Nat) = 2 ^ r - 1 from by rw [Nat.shiftLeft_eq, one_mul],
    Nat.testBit_shiftLeft, Nat.testBit_two_pow_sub_one]
  by_cases hir : i < r
  · have h1 : 64 - r ≤ 63 - i := by omega
    have h2 : 63 - i - (64 - r) < r := by omega
    simp [h1, h2, hir]
  · have h1 : ¬(64 - r ≤ 63 - i) := by omega
    simp [h1, hir]

lemma masked_count (w r : Nat) (hr : r < 64) :
    count_ones (w &&& ((1 <<< r - 1) <<< (64 - r))) = wordPrefixOnes w r := by
  have hW : ∀ i, i < 64 → wordGetBit (w &&& ((1 <<< r - 1) <<< (64 - r))) i =
      (wordGetBit w i && decide (i < r)) :=
    fun i hi => wordGetBit_and_mask w r i hi (by omega)
  rw [count_ones_eq_countP, wordPrefixOnes]
  generalize hX : w &&& ((1 <<< r - 1) <<< (64 - r)) = X at hW ⊢
  rw [show (64 : Nat) = r + (64 - r) from by omega, List.range_add,
    List.countP_append, List.countP_map]
  have hzero : (List.range (64 - r)).countP
      ((fun i => wordGetBit X i) ∘ (fun j => r + j)) = 0 := by
    rw [List.countP_eq_zero]
    intro j hj
    have hj' : j < 64 - r := List.mem_range.mp hj
    show ¬((fun i => wordGetBit X i) ∘ (fun j => r + j)) j = true
    have := hW (r + j) (by omega)
    simp only [Function.comp_apply, this]
    simp [show ¬(r + j < r) from by omega]
  rw [hzero, Nat.add_zero]
  apply List.countP_congr
  intro i hiR
  have hi : i < r := List.mem_range.mp hiR
  show wordGetBit X i = true ↔ wordGetBit w i = true
  rw [hW i (by omega)]
  simp [hi]

set_option maxRecDepth 4000 in
lemma rank_eq_rawRank (fp : FlatPopcount) (d : List Nat)
    (hl1 : fp.l1_index = (List.range ((d.length + 7) / 8 / 8 + 1)).map (entrySpec d))
    (hback : fp.backing.data = d) (hbound : 64 * d.length < 2 ^ 44)
    (p : Nat) (hp : p ≤ 64 * d.length) :
    fp.rank true p = rawRank d p := by
  have hj : p / 4096 < (d.length + 7) / 8 / 8 + 1 := by omega
  have hrough : rough_rank_1 fp (p / 4096) (p / 512 % 8) =
      wordsOnes d (8 * (p / 512)) := by
    rw [rough_rank_1, hl1]
    by_cases hl2 : p / 512 % 8 = 0
    · rw [if_pos hl2, getD_map_range _ _ _ hj, entrySpec_hi, cumSpec,
        show 64 * (p / 4096) = 8 * (p / 512) from by omega]
    · rw [if_neg hl2]
      dsimp only
      rw [getD_map_range _ _ _ hj, entrySpec_hi,
        show 12 * (7 - p / 512 % 8) = 12 * (6 - (p / 512 % 8 - 1)) from by omega,
        entrySpec_slot _ _ _ (by omega), slotVal,
        if_pos (show 8 * (8 * (p / 4096) + (p / 512 % 8 - 1)) < d.length from by omega),
        cumSpec,
        show 64 * (p / 4096) + 8 * (p / 512 % 8 - 1 + 1) = 8 * (p / 512) from by omega]
      have hmono := wordsOnes_mono d
        (show 64 * (p / 4096) ≤ 8 * (p / 512) from by omega)
      omega
  have hmid : ((List.range (p % 512 / 64)).map
      (fun i => count_ones (d.getD (8 * (p / 512) + i) 0))).sum =
      wordsOnes d (p / 64) - wordsOnes d (8 * (p / 512)) := by
    have h := count_range_sum d (8 * (p / 512)) (p % 512 / 64)
    rw [show 8 * (p / 512) + p % 512 / 64 = p / 64 from by omega] at h
    have hmono := wordsOnes_mono d (show 8 * (p / 512) ≤ p / 64 from by omega)
    omega
  have hmono2 := wordsOnes_mono d (show 8 * (p / 512) ≤ p / 64 from by omega)
  have hsplit := rawRank_split_word d p
  rw [FlatPopcount.rank]
  rw [if_pos rfl, hback]
  rw [show p >>> 12 = p / 4096 from by rw [Nat.shiftRight_eq_div_pow]]
  rw [show (p >>> 9) &&& 7 = p / 512 % 8 from by
    rw [Nat.shiftRight_eq_div_pow, show (7 : Nat) = 1 <<< 3 - 1 from rfl,
      and_mask_eq_mod]
    norm_num]
  rw [show p &&& 511 = p % 512 from by
    rw [show (511 : Nat) = 1 <<< 9 - 1 from rfl, and_mask_eq_mod]
    norm_num]
  rw [show (p % 512) >>> 6 = p % 512 / 64 from by
    rw [Nat.shiftRight_eq_div_pow]]
  rw [show (p / 4096) <<< 6 + (p / 512 % 8) <<< 3 = 8 * (p / 512) from by
    rw [Nat.shiftLeft_eq, Nat.shiftLeft_eq,
      show (2 : Nat) ^ 6 = 64 from by norm_num,
      show (2 : Nat) ^ 3 = 8 from by norm_num]
    omega]
  rw [show p % 512 - (p % 512 / 64) <<< 6 = p % 64 from by
    rw [Nat.shiftLeft_eq, show (2 : Nat) ^ 6 = 64 from by norm_num]
    omega]
  rw [hrough, hmid]
  by_cases hr0 : p % 64 > 0
  · rw [if_pos hr0,
      show 8 * (p / 512) + p % 512 / 64 = p / 64 from by omega,
      masked_count _ _ (by omega)]
    omega
  · rw [if_neg hr0]
    have hpref : wordPrefixOnes (d.getD (p / 64) 0) (p % 64) = 0 := by
      rw [show p % 64 = 0 from by omega]
      rfl
    omega

/-! ### The `select` search components -/

/-! ### The `select` search components -/

lemma find_l1_aux_spec (E : List Nat) (k B : Nat) (hBlen : B < E.length)
    (hle : ∀ j, j ≤ B → entryL1 (E.getD j 0) ≤ k)
    (hgt : B + 1 < E.length → k < entryL1 (E.getD (B + 1) 0)) :
    ∀ n idx, B + 1 - idx = n → idx ≤ B + 1 →
      find_l1_aux k (E.drop idx) idx = if B + 1 < E.length then some B else none := by
  intro n
  induction n with
  | zero =>
    intro idx hn hidx
    have hidx1 : idx = B + 1 := by omega
    subst hidx1
    by_cases hBl : B + 1 < E.length
    · rw [if_pos hBl, List.drop_eq_getElem_cons hBl, find_l1_aux]
      have hEq : E[B + 1] = E.getD (B + 1) 0 := by
        rw [List.getD_eq_getElem?_getD, List.getElem?_eq_getElem hBl]
        rfl
      rw [hEq, if_pos (hgt hBl)]
      rfl
    · rw [if_neg hBl, List.drop_eq_nil_of_le (by omega), find_l1_aux]
  | succ n ih =>
    intro idx hn hidx
    have hidxB : idx ≤ B := by omega
    have hidxlen : idx < E.length := by omega
    rw [List.drop_eq_getElem_cons hidxlen, find_l1_aux]
    have hEq : E[idx] = E.getD idx 0 := by
      rw [List.getD_eq_getElem?_getD, List.getElem?_eq_getElem hidxlen]
      rfl
    rw [hEq, if_neg (by
      have := hle idx (by omega)
      omega)]
    exact ih (idx + 1) (by omega) (by omega)

lemma find_l1_eq (fp : FlatPopcount) (k B start : Nat)
    (hstart : start ≤ B) (hBlen : B < fp.l1_index.length)
    (hle : ∀ j, j ≤ B → entryL1 (fp.l1_index.getD j 0) ≤ k)
    (hgt : B + 1 < fp.l1_index.length → k < entryL1 (fp.l1_index.getD (B + 1) 0)) :
    fp.find_l1 start k = B := by
  rw [FlatPopcount.find_l1,
    find_l1_aux_spec fp.l1_index k B hBlen hle hgt (B + 1 - start) start
      (by omega) (by omega)]
  by_cases h : B + 1 < fp.l1_index.length
  · rw [if_pos h]
  · rw [if_neg h]
    show fp.l1_index.length - 1 = B
    omega

lemma wordsOnes_cons (w : Nat) (rest : List Nat) : ∀ u : Nat,
    wordsOnes (w :: rest) (u + 1) = count_ones w + wordsOnes rest u := by
  intro u
  induction u with
  | zero =>
    show wordsOnes (w :: rest) 0 + count_ones ((w :: rest).getD 0 0) = _
    rw [show wordsOnes (w :: rest) 0 = 0 from rfl, show (w :: rest).getD 0 0 = w from rfl,
      show wordsOnes rest 0 = 0 from rfl]
    omega
  | succ u ih =>
    show wordsOnes (w :: rest) (u + 1) + count_ones ((w :: rest).getD (u + 1) 0) = _
    rw [ih, show (w :: rest).getD (u + 1) 0 = rest.getD u 0 from rfl]
    show _ = count_ones w + (wordsOnes rest u + count_ones (rest.getD u 0))
    omega

lemma select_word_loop_spec : ∀ (L : List Nat) (r m : Nat), m < L.length →
    wordsOnes L m ≤ r → r < wordsOnes L (m + 1) →
    select_word_loop L r = some (m, L.getD m 0, r - wordsOnes L m) := by
  intro L
  induction L with
  | nil =>
    intro r m hm _ _
    exact absurd hm (by simp)
  | cons w rest ih =>
    intro r m hm hskip hstop
    cases m with
    | zero =>
      have hc0 := wordsOnes_cons w rest 0
      have h0 : wordsOnes rest 0 = 0 := rfl
      norm_num at hc0 hstop
      rw [select_word_loop, if_neg (show ¬ count_ones w ≤ r from by omega)]
      rfl
    | succ m =>
      have hcw : wordsOnes (w :: rest) 1 = count_ones w := by
        have hc0 := wordsOnes_cons w rest 0
        have h0 : wordsOnes rest 0 = 0 := rfl
        norm_num at hc0
        omega
      have hmono := wordsOnes_mono (w :: rest) (show 1 ≤ m + 1 from by omega)
      have hle : count_ones w ≤ r := by omega
      have hrec := ih (r - count_ones w) m (by
          rw [List.length_cons] at hm
          omega)
        (by
          have := wordsOnes_cons w rest m
          omega)
        (by
          have := wordsOnes_cons w rest (m + 1)
          omega)
      rw [select_word_loop, if_pos hle, hrec]
      have harg : r - count_ones w - wordsOnes rest m =
          r - wordsOnes (w :: rest) (m + 1) := by
        have := wordsOnes_cons w rest m
        omega
      rw [harg]
      rfl

lemma wordPrefixOnes_mono (w : Nat) {a b : Nat} (h : a ≤ b) :
    wordPrefixOnes w a ≤ wordPrefixOnes w b := by
  induction b with
  | zero =>
    have : a = 0 := by omega
    rw [this]
  | succ b ih =>
    rcases Nat.lt_or_ge a (b + 1) with hab | hab
    · have := ih (by omega)
      rw [wordPrefixOnes_succ]
      split <;> omega
    · have : a = b + 1 := by omega
      rw [this]

lemma select_bit_loop_spec (w ip : Nat) (hip : ip < 64)
    (hbit : wordGetBit w ip = true) :
    ∀ fuel idx r, ip < idx + fuel → idx ≤ ip →
      wordPrefixOnes w ip = wordPrefixOnes w idx + r →
      select_bit_loop w fuel idx r = some ip := by
  intro fuel
  induction fuel with
  | zero =>
    intro idx r h1 h2 h3
    omega
  | succ fuel ih =>
    intro idx r h1 h2 h3
    rw [select_bit_loop]
    by_cases hidx : idx = ip
    · subst hidx
      have hr0 : r = 0 := by omega
      rw [if_pos ⟨hr0, hbit⟩]
    · have hlt : idx < ip := by omega
      have hsucc := wordPrefixOnes_succ w idx
      have hmono := wordPrefixOnes_mono w (show idx + 1 ≤ ip from by omega)
      by_cases hbidx : wordGetBit w idx = true
      · have hr1 : 1 ≤ r := by
          rw [hsucc, hbidx] at hmono
          simp at hmono
          omega
        rw [if_neg (by
          intro hc
          omega)]
        rw [hbidx, if_pos rfl]
        apply ih (idx + 1) (r - 1) (by omega) (by omega)
        rw [hsucc, hbidx]
        simp
        omega
      · have hbidx' : wordGetBit w idx = false := by
          rcases Bool.eq_false_or_eq_true (wordGetBit w idx) with h | h
          · exact absurd h hbidx
          · exact h
        rw [if_neg (by
          intro hc
          exact absurd hc.2 (by rw [hbidx']; simp))]
        rw [hbidx']
        rw [if_neg (by simp)]
        apply ih (idx + 1) r (by omega) (by omega)
        rw [hsucc, hbidx']
        simp
        omega

/-! ### The two `find_l2` strategies locate the first exceeding slot -/

lemma linear_l2_aux_spec (e r : Nat) (s : Nat → Nat)
    (hs : ∀ t, t < 7 → (e >>> (72 - 12 * t)) &&& 4095 = s t)
    (tstar : Nat) (ht7 : tstar ≤ 7)
    (hlow : ∀ t, t < tstar → s t ≤ r) (hhigh : tstar < 7 → r < s tstar) :
    ∀ fuel i prev, fuel = 7 - i → i ≤ tstar →
      prev = (if i = 0 then 0 else s (i - 1)) →
      linear_l2_aux e r fuel i prev =
        (tstar, if tstar = 0 then 0 else s (tstar - 1)) := by
  intro fuel
  induction fuel with
  | zero =>
    intro i prev hfuel hi hprev
    have hi7 : i = 7 := by omega
    have ht : tstar = 7 := by omega
    rw [linear_l2_aux, hprev, hi7, ht]
  | succ fuel ih =>
    intro i prev hfuel hi hprev
    have hi7 : i < 7 := by omega
    rw [linear_l2_aux]
    rw [hs i hi7]
    by_cases hit : i = tstar
    · subst hit
      rw [if_pos (hhigh (by omega)), hprev]
    · have hilt : i < tstar := by omega
      rw [if_neg (by
        have := hlow i hilt
        omega)]
      exact ih (i + 1) (s i) (by omega) (by omega) (by
        rw [if_neg (by omega)]
        simp)

lemma find_l2_linear_spec (e r : Nat) (s : Nat → Nat)
    (hs : ∀ t, t < 7 → (e >>> (72 - 12 * t)) &&& 4095 = s t)
    (tstar : Nat) (ht7 : tstar ≤ 7)
    (hlow : ∀ t, t < tstar → s t ≤ r) (hhigh : tstar < 7 → r < s tstar) :
    find_l2_linear e r = (tstar, if tstar = 0 then 0 else s (tstar - 1)) := by
  rw [find_l2_linear]
  exact linear_l2_aux_spec e r s hs tstar ht7 hlow hhigh 7 0 0 rfl (by omega) rfl

lemma find_l2_binary_spec (e r : Nat) (s : Nat → Nat)
    (hs : ∀ t, t < 7 → (e >>> (72 - 12 * t)) &&& 4095 = s t)
    (hmono : ∀ t1 t2, t1 ≤ t2 → t2 < 7 → s t1 ≤ s t2)
    (tstar : Nat) (ht7 : tstar ≤ 7)
    (hlow : ∀ t, t < tstar → s t ≤ r) (hhigh : tstar < 7 → r < s tstar) :
    find_l2_binary e r = (tstar, if tstar = 0 then 0 else s (tstar - 1)) := by
  rw [find_l2_binary]
  dsimp only
  rw [hs 0 (by omega), hs 1 (by omega), hs 2 (by omega), hs 3 (by omega),
    hs 4 (by omega), hs 5 (by omega), hs 6 (by omega)]
  have hup : ∀ t1 t2, t1 ≤ t2 → t2 < 7 → tstar ≤ t1 → r < s t2 := by
    intro t1 t2 h12 h27 hts
    have h1 := hhigh (by omega)
    have h2 := hmono tstar t2 (by omega) h27
    omega
  interval_cases tstar
  · rw [if_pos (hup 3 3 (by omega) (by omega) (by omega)),
      if_pos (hup 1 1 (by omega) (by omega) (by omega)),
      if_pos (hup 0 0 (by omega) (by omega) (by omega))]
    rfl
  · rw [if_pos (hup 3 3 (by omega) (by omega) (by omega)),
      if_pos (hup 1 1 (by omega) (by omega) (by omega)),
      if_neg (by have := hlow 0 (by omega); omega)]
    rfl
  · rw [if_pos (hup 3 3 (by omega) (by omega) (by omega)),
      if_neg (by have := hlow 1 (by omega); omega),
      if_pos (hup 2 2 (by omega) (by omega) (by omega))]
    rfl
  · rw [if_pos (hup 3 3 (by omega) (by omega) (by omega)),
      if_neg (by have := hlow 1 (by omega); omega),
      if_neg (by have := hlow 2 (by omega); omega)]
    rfl
  · rw [if_neg (by have := hlow 3 (by omega); omega),
      if_pos (hup 5 5 (by omega) (by omega) (by omega)),
      if_pos (hup 4 4 (by omega) (by omega) (by omega))]
    rfl
  · rw [if_neg (by have := hlow 3 (by omega); omega),
      if_pos (hup 5 5 (by omega) (by omega) (by omega)),
      if_neg (by have := hlow 4 (by omega); omega)]
    rfl
  · rw [if_neg (by have := hlow 3 (by omega); omega),
      if_neg (by have := hlow 5 (by omega); omega),
      if_pos (hup 6 6 (by omega) (by omega) (by omega))]
    rfl
  · rw [if_neg (by have := hlow 3 (by omega); omega),
      if_neg (by have := hlow 5 (by omega); omega),
      if_neg (by have := hlow 6 (by omega); omega)]
    rfl

/-! ### Assembly helpers for the `select` correctness proof -/

lemma exists_kth_one (d : List Nat) : ∀ M k : Nat, k < rawRank d M →
    ∃ p, p < M ∧ sliceGetBit d p = true ∧ rawRank d p = k := by
  intro M
  induction M with
  | zero =>
    intro k hk
    exact absurd hk (by rw [show rawRank d 0 = 0 from rfl]; omega)
  | succ M ih =>
    intro k hk
    rcases Nat.lt_or_ge k (rawRank d M) with hlt | hge
    · obtain ⟨p, h1, h2, h3⟩ := ih k hlt
      exact ⟨p, by omega, h2, h3⟩
    · have hstep := rawRank_succ d M
      by_cases hbit : sliceGetBit d M = true
      · rw [hbit, if_pos rfl] at hstep
        exact ⟨M, by omega, hbit, by omega⟩
      · have hbit' : sliceGetBit d M = false := by
          rcases Bool.eq_false_or_eq_true (sliceGetBit d M) with h | h
          · exact absurd h hbit
          · exact h
        rw [hbit'] at hstep
        simp at hstep
        omega

lemma entrySpec_slot' (d : List Nat) (j t : Nat) (ht : t < 7) :
    (entrySpec d j >>> (72 - 12 * t)) &&& 4095 = slotVal d j t := by
  rw [show 72 - 12 * t = 12 * (6 - t) from by omega]
  exact entrySpec_slot d j t ht

lemma slotVal_mono (d : List Nat) (j t1 t2 : Nat) (h12 : t1 ≤ t2) (h7 : t2 < 7) :
    slotVal d j t1 ≤ slotVal d j t2 := by
  have hb := slotVal_lt d j t1 (by omega)
  rw [slotVal, slotVal]
  by_cases hc2 : 8 * (8 * j + t2) < d.length
  · rw [if_pos hc2, if_pos (by omega)]
    have hm1 := wordsOnes_mono d
      (show 64 * j + 8 * (t1 + 1) ≤ 64 * j + 8 * (t2 + 1) from by omega)
    omega
  · rw [if_neg hc2]
    rw [slotVal] at hb
    by_cases hc1 : 8 * (8 * j + t1) < d.length
    · rw [if_pos hc1]
      rw [if_pos hc1] at hb
      omega
    · rw [if_neg hc1]

lemma getD_drop (d : List Nat) (a u : Nat) :
    (d.drop a).getD u 0 = d.getD (a + u) 0 := by
  rw [List.getD_eq_getElem?_getD, List.getD_eq_getElem?_getD, List.getElem?_drop]

lemma wordsOnes_drop (d : List Nat) (a : Nat) : ∀ u : Nat,
    wordsOnes (d.drop a) u + wordsOnes d a = wordsOnes d (a + u) := by
  intro u
  induction u with
  | zero => simp [show wordsOnes (d.drop a) 0 = 0 from rfl]
  | succ u ih =>
    rw [show a + (u + 1) = (a + u) + 1 from by omega, wordsOnes, wordsOnes, ← ih,
      getD_drop]
    omega

lemma getD_map_of_lt (f : Nat → Nat) (l : List Nat) (m : Nat) (hm : m < l.length) :
    (l.map f).getD m 0 = f (l.getD m 0) := by
  rw [List.getD_eq_getElem?_getD, List.getElem?_map, List.getElem?_eq_getElem hm,
    List.getD_eq_getElem?_getD, List.getElem?_eq_getElem hm]
  rfl

set_option maxRecDepth 8000 in
/-- **C2.** Over any canonically represented bit vector (word list of the
allocated length, bits at or past `size` zero, `size < 2^40` so that the
`u128` index arithmetic cannot truncate), the flat-popcount `select` with
either search strategy returns, for every `k < num_ones`, `some p` where
`p` is a set bit, `rank₁(p) = k` and `rank₁(p+1) = k + 1`. -/
theorem C2_select_rank_correct (bv : BitVec) (strat : Nat → Nat → Nat × Nat)
    (hstrat : strat = find_l2_linear ∨ strat = find_l2_binary)
    (hlen : bv.data.length = (bv.size + 63) / 64)
    (hcanon : ∀ i, bv.size ≤ i → bv.get_bit_unchecked i = false)
    (hbound : bv.size < 2 ^ 40)
    (k : Nat) (hk0 : k < (FlatPopcount.new bv).number_of_ones) :
    ∃ p, (FlatPopcount.new bv).select strat k = some p ∧
      bv.get_bit p = Except.ok true ∧
      (FlatPopcount.new bv).rank true p = k ∧
      (FlatPopcount.new bv).rank true (p + 1) = k + 1 := by
  have hpow40 : (2 : Nat) ^ 40 = 1099511627776 := by norm_num
  have hpow44 : (2 : Nat) ^ 44 = 17592186044416 := by norm_num
  by_cases hsz : bv.len = 0
  · exfalso
    rw [FlatPopcount.new, if_pos hsz] at hk0
    exact Nat.not_lt_zero k hk0
  · have hszpos : 0 < bv.size := by
      rw [BitVec.len] at hsz
      omega
    have hN44 : 64 * bv.data.length < 2 ^ 44 := by
      rw [hlen]
      omega
    have hfp : FlatPopcount.new bv =
        { backing := bv,
          l1_index := build_indices bv.data,
          sampled_ones := (sample_ones bv (ilog2 bv.len + 1)).snd,
          number_of_ones := (sample_ones bv (ilog2 bv.len + 1)).fst } := by
      rw [FlatPopcount.new, if_neg hsz]
    rw [show bv.len = bv.size from rfl] at hfp
    have hsam := sample_ones_spec bv (ilog2 bv.size + 1)
    have hnum : (FlatPopcount.new bv).number_of_ones = rawRank bv.data bv.size := by
      rw [hfp]
      show (sample_ones bv (ilog2 bv.size + 1)).fst = _
      rw [hsam]
    have hk : k < rawRank bv.data bv.size := by
      rw [hnum] at hk0
      exact hk0
    obtain ⟨p, hpsize, hpbit, hprank⟩ := exists_kth_one bv.data bv.size k hk
    have hprank1 : rawRank bv.data (p + 1) = k + 1 := by
      rw [rawRank_succ, hpbit, if_pos rfl, hprank]
    have hszN : bv.size ≤ 64 * bv.data.length := by
      rw [hlen]
      omega
    have hp64N : p < 64 * bv.data.length := by omega
    have hl1map : (FlatPopcount.new bv).l1_index =
        (List.range ((bv.data.length + 7) / 8 / 8 + 1)).map (entrySpec bv.data) := by
      rw [hfp]
      show build_indices bv.data = _
      rw [build_indices_eq bv.data hN44]
    have hl1len : (FlatPopcount.new bv).l1_index.length =
        (bv.data.length + 7) / 8 / 8 + 1 := by
      rw [hl1map, List.length_map, List.length_range]
    have hcum : ∀ j, j < (bv.data.length + 7) / 8 / 8 + 1 →
        entryL1 ((FlatPopcount.new bv).l1_index.getD j 0) =
          wordsOnes bv.data (64 * j) := by
      intro j hj
      have hclt : cumSpec bv.data j < 2 ^ 44 := by
        rw [cumSpec]
        have := wordsOnes_le_len bv.data (64 * j)
        omega
      rw [hl1map, getD_map_range _ _ _ hj, entrySpec_l1 bv.data j hclt, cumSpec]
    have hB : p / 4096 < (bv.data.length + 7) / 8 / 8 + 1 := by omega
    have hle : ∀ j, j ≤ p / 4096 →
        entryL1 ((FlatPopcount.new bv).l1_index.getD j 0) ≤ k := by
      intro j hj
      rw [hcum j (by omega), ← rawRank_words]
      have hmono := rawRank_mono bv.data (show 64 * (64 * j) ≤ p from by omega)
      omega
    have hgt : p / 4096 + 1 < (FlatPopcount.new bv).l1_index.length →
        k < entryL1 ((FlatPopcount.new bv).l1_index.getD (p / 4096 + 1) 0) := by
      intro hj
      rw [hl1len] at hj
      rw [hcum _ (by omega), ← rawRank_words]
      have hmono := rawRank_mono bv.data
        (show p + 1 ≤ 64 * (64 * (p / 4096 + 1)) from by omega)
      omega
    obtain ⟨hplen, hpget⟩ := sample_positions_spec bv bv.size
    have hsz64 : bv.size < 2 ^ 64 := by
      have h1 : (2 : Nat) ^ 40 ≤ 2 ^ 64 := Nat.pow_le_pow_right (by omega) (by omega)
      omega
    have hilog := ilog2_spec bv.size hszpos hsz64
    have hw1 : 1 ≤ ilog2 bv.size + 1 := by omega
    have hw2 : ilog2 bv.size + 1 ≤ 63 := by
      by_contra hcon
      have h63 : 63 ≤ ilog2 bv.size := by omega
      have h2 : (2 : Nat) ^ 63 ≤ 2 ^ ilog2 bv.size :=
        Nat.pow_le_pow_right (by omega) h63
      have h3 : (2 : Nat) ^ 63 = 9223372036854775808 := by norm_num
      have h1 := hilog.1
      omega
    have hvals : ∀ v ∈ ((List.range bv.size).filter
        (fun q => bv.get_bit_unchecked q &&
          decide (rawRank bv.data q % 8192 = 0))).map (fun q => q >>> 13),
        v < 2 ^ (ilog2 bv.size + 1) := by
      intro v hv
      rw [List.mem_map] at hv
      obtain ⟨q, hqmem, rfl⟩ := hv
      have hq : q < bv.size := List.mem_range.mp (List.mem_filter.mp hqmem).1
      have hle13 : q >>> 13 ≤ q := by
        rw [Nat.shiftRight_eq_div_pow]
        exact Nat.div_le_self _ _
      have := hilog.2
      omega
    have hpacked : Packed (ilog2 bv.size + 1)
        (((List.range bv.size).filter
          (fun q => bv.get_bit_unchecked q &&
            decide (rawRank bv.data q % 8192 = 0))).map (fun q => q >>> 13))
        ((FlatPopcount.new bv).sampled_ones) := by
      rw [hfp]
      show Packed _ _ (sample_ones bv (ilog2 bv.size + 1)).snd
      rw [hsam]
      have hbase : Packed (ilog2 bv.size + 1) []
          (DynamicIntVec.new (ilog2 bv.size + 1)) := by
        rw [DynamicIntVec.new]
        exact packed_with_capacity _ 8
      have := packed_pushList hw1 hw2
        (((List.range bv.size).filter
          (fun q => bv.get_bit_unchecked q &&
            decide (rawRank bv.data q % 8192 = 0))).map (fun q => q >>> 13)) []
        (DynamicIntVec.new (ilog2 bv.size + 1)) hbase
        (by intro x hx; simp at hx) hvals
      simpa using this
    have hm : k / 8192 < ((List.range bv.size).filter
        (fun q => bv.get_bit_unchecked q &&
          decide (rawRank bv.data q % 8192 = 0))).length := by
      rw [hplen]
      omega
    have hk13 : k >>> 13 = k / 8192 := by
      rw [Nat.shiftRight_eq_div_pow]
    obtain ⟨hqbit, hqrank, hqlt⟩ := hpget (k / 8192) hm
    have hposle : ((List.range bv.size).filter
        (fun q => bv.get_bit_unchecked q &&
          decide (rawRank bv.data q % 8192 = 0))).getD (k / 8192) 0 ≤ p := by
      by_contra hcon
      push_neg at hcon
      have hmono := rawRank_mono bv.data (show p + 1 ≤ ((List.range bv.size).filter
        (fun q => bv.get_bit_unchecked q &&
          decide (rawRank bv.data q % 8192 = 0))).getD (k / 8192) 0 from by omega)
      rw [hprank1, hqrank] at hmono
      have h8192 : 8192 * (k / 8192) ≤ k := by omega
      omega
    have hget : (FlatPopcount.new bv).sampled_ones.get (k >>> 13) =
        Except.ok (((List.range bv.size).filter
          (fun q => bv.get_bit_unchecked q &&
            decide (rawRank bv.data q % 8192 = 0))).getD (k / 8192) 0 >>> 13) := by
      rw [hk13, DynamicIntVec.get,
        if_pos (by
          rw [DynamicIntVec.len, hpacked.hsize, List.length_map]
          exact hm),
        Packed.get_eq hpacked hvals (by omega) (k / 8192),
        getD_map_of_lt _ _ _ hm]
    have hstart13 : ((List.range bv.size).filter
        (fun q => bv.get_bit_unchecked q &&
          decide (rawRank bv.data q % 8192 = 0))).getD (k / 8192) 0 >>> 13 =
        ((List.range bv.size).filter
          (fun q => bv.get_bit_unchecked q &&
            decide (rawRank bv.data q % 8192 = 0))).getD (k / 8192) 0 / 8192 := by
      rw [Nat.shiftRight_eq_div_pow]
    have hstartle : ((List.range bv.size).filter
        (fun q => bv.get_bit_unchecked q &&
          decide (rawRank bv.data q % 8192 = 0))).getD (k / 8192) 0 >>> 13 ≤
        p / 4096 := by
      rw [hstart13]
      omega
    have hfind : (FlatPopcount.new bv).find_l1
        (((List.range bv.size).filter
          (fun q => bv.get_bit_unchecked q &&
            decide (rawRank bv.data q % 8192 = 0))).getD (k / 8192) 0 >>> 13) k =
        p / 4096 :=
      find_l1_eq _ k (p / 4096) _ hstartle (by rw [hl1len]; exact hB) hle hgt
    have hl1B : (FlatPopcount.new bv).l1 (p / 4096) =
        wordsOnes bv.data (64 * (p / 4096)) := by
      rw [FlatPopcount.l1]
      exact hcum _ hB
    have hcB_le : wordsOnes bv.data (64 * (p / 4096)) ≤ k := by
      rw [← rawRank_words]
      have := rawRank_mono bv.data (show 64 * (64 * (p / 4096)) ≤ p from by omega)
      omega
    have hblock : (FlatPopcount.new bv).l1_index.getD (p / 4096) 0 =
        entrySpec bv.data (p / 4096) := by
      rw [hl1map, getD_map_range _ _ _ hB]
    have hW8k : wordsOnes bv.data (8 * (p / 512)) ≤ k := by
      rw [← rawRank_words]
      have := rawRank_mono bv.data (show 64 * (8 * (p / 512)) ≤ p from by omega)
      omega
    have hcW : wordsOnes bv.data (64 * (p / 4096)) ≤ wordsOnes bv.data (8 * (p / 512)) :=
      wordsOnes_mono _ (by omega)
    have hp64lt : p / 64 < bv.data.length := by omega
    have hlow2 : ∀ t, t < p / 512 % 8 → slotVal bv.data (p / 4096) t ≤
        k - wordsOnes bv.data (64 * (p / 4096)) := by
      intro t ht
      rw [slotVal,
        if_pos (show 8 * (8 * (p / 4096) + t) < bv.data.length from by omega)]
      have hmono := wordsOnes_mono bv.data
        (show 64 * (p / 4096) + 8 * (t + 1) ≤ 8 * (p / 512) from by omega)
      have hmono0 := wordsOnes_mono bv.data
        (show 64 * (p / 4096) ≤ 64 * (p / 4096) + 8 * (t + 1) from by omega)
      omega
    have hhigh2 : p / 512 % 8 < 7 → k - wordsOnes bv.data (64 * (p / 4096)) <
        slotVal bv.data (p / 4096) (p / 512 % 8) := by
      intro h7
      rw [slotVal,
        if_pos (show 8 * (8 * (p / 4096) + p / 512 % 8) < bv.data.length from by omega)]
      have hmono := rawRank_mono bv.data
        (show p + 1 ≤ 64 * (64 * (p / 4096) + 8 * (p / 512 % 8 + 1)) from by omega)
      rw [rawRank_words, hprank1] at hmono
      have hmono0 := wordsOnes_mono bv.data
        (show 64 * (p / 4096) ≤ 64 * (p / 4096) + 8 * (p / 512 % 8 + 1) from by omega)
      omega
    have hslots : ∀ t, t < 7 →
        (entrySpec bv.data (p / 4096) >>> (72 - 12 * t)) &&& 4095 =
          slotVal bv.data (p / 4096) t :=
      fun t ht => entrySpec_slot' bv.data (p / 4096) t ht
    have htstar7 : p / 512 % 8 ≤ 7 := by omega
    have hprev : (if p / 512 % 8 = 0 then 0
        else slotVal bv.data (p / 4096) (p / 512 % 8 - 1)) =
        wordsOnes bv.data (8 * (p / 512)) - wordsOnes bv.data (64 * (p / 4096)) := by
      by_cases h0 : p / 512 % 8 = 0
      · rw [if_pos h0, show 8 * (p / 512) = 64 * (p / 4096) from by omega]
        omega
      · rw [if_neg h0, slotVal,
          if_pos (show 8 * (8 * (p / 4096) + (p / 512 % 8 - 1)) < bv.data.length
            from by omega)]
        congr 2
        omega
    have hstrat_res : strat (entrySpec bv.data (p / 4096))
        (k - wordsOnes bv.data (64 * (p / 4096))) =
        (p / 512 % 8,
          wordsOnes bv.data (8 * (p / 512)) - wordsOnes bv.data (64 * (p / 4096))) := by
      rcases hstrat with rfl | rfl
      · rw [find_l2_linear_spec _ _ _ hslots _ htstar7 hlow2 hhigh2, hprev]
      · rw [find_l2_binary_spec _ _ _ hslots
          (fun t1 t2 h12 h27 => slotVal_mono _ _ _ _ h12 h27) _ htstar7 hlow2 hhigh2,
          hprev]
    have hci : (p / 4096) <<< 6 + (p / 512 % 8) <<< 3 = 8 * (p / 512) := by
      rw [Nat.shiftLeft_eq, Nat.shiftLeft_eq, show (2 : Nat) ^ 6 = 64 from by norm_num,
        show (2 : Nat) ^ 3 = 8 from by norm_num]
      omega
    have hrank2 : k - wordsOnes bv.data (64 * (p / 4096)) -
        (wordsOnes bv.data (8 * (p / 512)) - wordsOnes bv.data (64 * (p / 4096))) =
        k - wordsOnes bv.data (8 * (p / 512)) := by
      omega
    have hdrop1 := wordsOnes_drop bv.data (8 * (p / 512)) (p / 64 - 8 * (p / 512))
    rw [show 8 * (p / 512) + (p / 64 - 8 * (p / 512)) = p / 64 from by omega] at hdrop1
    have hdrop2 := wordsOnes_drop bv.data (8 * (p / 512)) (p / 64 - 8 * (p / 512) + 1)
    rw [show 8 * (p / 512) + (p / 64 - 8 * (p / 512) + 1) = p / 64 + 1 from by omega]
      at hdrop2
    have hWp64 : wordsOnes bv.data (p / 64) ≤ k := by
      rw [← rawRank_words]
      have := rawRank_mono bv.data (show 64 * (p / 64) ≤ p from by omega)
      omega
    have hWp641 : k + 1 ≤ wordsOnes bv.data (p / 64 + 1) := by
      rw [← rawRank_words]
      have := rawRank_mono bv.data (show p + 1 ≤ 64 * (p / 64 + 1) from by omega)
      omega
    have hmw : p / 64 - 8 * (p / 512) < (bv.data.drop (8 * (p / 512))).length := by
      rw [List.length_drop]
      omega
    have hwol := select_word_loop_spec (bv.data.drop (8 * (p / 512)))
      (k - wordsOnes bv.data (8 * (p / 512))) (p / 64 - 8 * (p / 512)) hmw
      (by omega) (by omega)
    rw [getD_drop,
      show 8 * (p / 512) + (p / 64 - 8 * (p / 512)) = p / 64 from by omega,
      show k - wordsOnes bv.data (8 * (p / 512)) -
        wordsOnes (bv.data.drop (8 * (p / 512))) (p / 64 - 8 * (p / 512)) =
        k - wordsOnes bv.data (p / 64) from by omega] at hwol
    have hbitW : wordGetBit (bv.data.getD (p / 64) 0) (p % 64) = true := by
      have hsg : sliceGetBit bv.data p =
          wordGetBit (bv.data.getD (p / 64) 0) (p % 64) := by
        rw [sliceGetBit, shift6_eq_div, and63_eq_mod]
      rw [← hsg]
      exact hpbit
    have hprefix : wordPrefixOnes (bv.data.getD (p / 64) 0) (p % 64) =
        k - wordsOnes bv.data (p / 64) := by
      have hsplitw := rawRank_split_word bv.data p
      rw [hprank] at hsplitw
      omega
    have hpre0 : wordPrefixOnes (bv.data.getD (p / 64) 0) 0 = 0 := rfl
    have hbl := select_bit_loop_spec (bv.data.getD (p / 64) 0) (p % 64) (by omega)
      hbitW 64 0 (k - wordsOnes bv.data (p / 64)) (by omega) (by omega) (by omega)
    have hfinal : (p / 4096) <<< 12 + (p / 512 % 8) <<< 9 +
        (p / 64 - 8 * (p / 512)) <<< 6 + p % 64 = p := by
      rw [Nat.shiftLeft_eq, Nat.shiftLeft_eq, Nat.shiftLeft_eq,
        show (2 : Nat) ^ 12 = 4096 from by norm_num,
        show (2 : Nat) ^ 9 = 512 from by norm_num,
        show (2 : Nat) ^ 6 = 64 from by norm_num]
      omega
    have hbackdata : (FlatPopcount.new bv).backing.data = bv.data := by
      rw [hfp]
    refine ⟨p, ?_, ?_, ?_, ?_⟩
    · rw [FlatPopcount.select, if_neg (by rw [hnum]; omega), hget]
      dsimp only
      rw [hfind, hl1B, hblock, hstrat_res]
      dsimp only
      rw [hci, hrank2, hbackdata, hwol]
      dsimp only
      rw [hbl]
      dsimp only
      rw [hfinal]
    · rw [BitVec.get_bit, if_neg (by omega)]
      congr 1
    · rw [rank_eq_rawRank (FlatPopcount.new bv) bv.data hl1map hbackdata hN44 p
        (by omega), hprank]
    · rw [rank_eq_rawRank (FlatPopcount.new bv) bv.data hl1map hbackdata hN44 (p + 1)
        (by omega), hprank1]

theorem C2_select_rank_correct_witness :
    ∃ p, (FlatPopcount.new ⟨[18446744073709551615], 64⟩).select find_l2_linear 5 =
        some p ∧
      (⟨[18446744073709551615], 64⟩ : BitVec).get_bit p = Except.ok true ∧
      (FlatPopcount.new ⟨[18446744073709551615], 64⟩).rank true p = 5 ∧
      (FlatPopcount.new ⟨[18446744073709551615], 64⟩).rank true (p + 1) = 5 + 1 :=
  C2_select_rank_correct ⟨[18446744073709551615], 64⟩ find_l2_linear (Or.inl rfl)
    (by decide)
    (by
      intro i hi
      show sliceGetBit [18446744073709551615] i = false
      rw [sliceGetBit]
      have h6 : 1 ≤ i >>> 6 := by
        rw [shift6_eq_div]
        have hi64 : 64 ≤ i := hi
        omega
      have hD : ([18446744073709551615] : List Nat).getD (i >>> 6) 0 = 0 := by
        rw [List.getD_eq_getElem?_getD, List.getElem?_eq_none (by
          rw [show ([18446744073709551615] : List Nat).length = 1 from rfl]
          omega)]
        rfl
      rw [hD, wordGetBit]
      simp)
    (by decide) 5 (by decide)

set_option maxRecDepth 4000 in
/-- **C1.** The claim fails on the program.  Over `text = "ab"` repeated
16 times (bytes 97, 98), arity 2 and leaf length 4 — all within the
claim's range (`|text| >= 1`, `k >= 2`, `l >= 1`) — the block tree built
by `BlockTree::new` answers `access(5)` with 97 (byte `a`) although
`text[5] = 98` (byte `b`); and instead of returning text bytes,
`access(12)` dies on the internal-branch subtraction underflow and
`access(16)` on an out-of-range `is_internal` bit read.  The walk goes
wrong in `BlockTree::access`: the back-block branch overwrites the
in-block offset `i` with the stored source offset instead of adding it,
the level's `is_internal` vector is indexed with `i / size[level+1]`
(a child-level index), and the stored back pointers are
`rank::<false>` values that `select` (a select-over-ones) then
misinterprets. -/
theorem C1_access_mismatch :
    c1_bt.access 5 = Except.ok 97 ∧ c1_text.getD 5 0 = 98 ∧
    c1_bt.access 12 = Except.error "attempt to subtract with overflow" ∧
    c1_bt.access 16 = Except.error "index is 4 but length is 4" :=
  ⟨rfl, rfl, rfl, rfl⟩


end SuccinctNeo
